import Mathlib

/-!
W25Shell: the command-line parser and the process orchestration of
`w25shell_dhruvi_dobariya_110159758.c`, as a shallow embedding.

* A C string is the list of the characters that precede its terminating NUL;
  a `char *` that may be `NULL` is an `Option`.
* A loop whose number of iterations is not bounded by a constant takes a fuel
  argument; the caller passes a bound that is shown to suffice.
* What the operating system decides (whether `pipe` or `fork` succeeds, the
  wait status of a child) is a parameter of the function that asks for it.
* A process is its descriptor table; `fork` hands the child a copy.  The
  `waitpid` calls of `execute_pipe` change no table and are left out.
-/

namespace W25Shell

/-- A C string: the characters before the terminating NUL. -/
abbrev Str := List Char

/-- The constant `#define MAX_ARGS 6`. -/
def MAX_ARGS : Nat := 6

/-- The constant `#define MAX_CMDS 6`. -/
def MAX_CMDS : Nat := 6

/-- The constant `#define DELIM " \t\r\n\a"`: space, tab, CR, LF, bell. -/
def DELIM : Str := [' ', '\t', '\r', '\n', Char.ofNat 7]

/-! ## libc string primitives -/

/-- The test `strchr(s, c) != NULL`. -/
def strchr (s : Str) (c : Char) : Bool := s.contains c

/-- The test `strstr(hay, needle) != NULL`. -/
def strstr : Str → Str → Bool
  | [], needle => needle.isEmpty
  | c :: cs, needle => needle.isPrefixOf (c :: cs) || strstr cs needle

/-- One call of `strtok_r`/`strtok` on the text the scan pointer designates:
skip the leading delimiter characters; at the end of the text the result is
`NULL`; otherwise the token runs up to the next delimiter character, which is
overwritten by NUL, and the scan pointer moves just past it (or to the end of
the text when no delimiter follows).  Returns the token and the text left. -/
def strtok_r (s : Str) (delim : Str) : Option (Str × Str) :=
  match s.dropWhile (fun c => delim.contains c) with
  | [] => none
  | c :: cs =>
    some ((c :: cs).takeWhile (fun x => !delim.contains x),
          ((c :: cs).dropWhile (fun x => !delim.contains x)).drop 1)

/-! ## trim_whitespace -/

/-- The test `*p == ' ' || *p == '\t'`. -/
def isSpTab (c : Char) : Bool := c == ' ' || c == '\t'

/-- The loop `while (end > str && (*end == ' ' || *end == '\t')) end--;`
started with `end = str + e`; returns the final offset of `end`. -/
def trim_end (str : Str) : Nat → Nat
  | 0 => 0
  | e + 1 => if isSpTab (str.getD (e + 1) ' ') then trim_end str e else e + 1

/-- The function `trim_whitespace`: advance `str` past the leading spaces and tabs, walk
`end` back from the last character, write NUL at `end + 1`. -/
def trim_whitespace (s : Str) : Str :=
  let str := s.dropWhile isSpTab
  match str.length with
  | 0 => str
  | n + 1 => str.take (trim_end str n + 1)

/-! ## parse_input -/

/-- The delimiter-mode loop of `parse_input`:
`while (token && count < MAX_CMDS) { commands[count++] = strdup(trim_whitespace(token)); token = strtok_r(NULL, ...); }`.
`token` is the pending token with the text left after it; `commands` holds the
`count` entries written so far. -/
def parse_delim_loop (delimiter : Str) :
    Nat → Option (Str × Str) → List Str → List Str
  | 0, _, commands => commands
  | _ + 1, none, commands => commands
  | fuel + 1, some (token, rest), commands =>
    if commands.length < MAX_CMDS then
      parse_delim_loop delimiter fuel (strtok_r rest delimiter)
        (commands ++ [trim_whitespace token])
    else commands

/-- The operator-mode loop of `parse_input`.  `operators` is the caller's
array (its entries start as `NULL`); `operators[count - 1] = strdup(token)`
overwrites slot `count - 1`. -/
def parse_op_loop :
    Nat → Option (Str × Str) → List Str → List (Option Str) →
      List Str × List (Option Str)
  | 0, _, commands, operators => (commands, operators)
  | _ + 1, none, commands, operators => (commands, operators)
  | fuel + 1, some (token, rest), commands, operators =>
    if commands.length < MAX_CMDS then
      if token = "&&".toList ∨ token = "||".toList then
        parse_op_loop fuel (strtok_r rest [' ', '\t']) commands
          (if 0 < commands.length then operators.set (commands.length - 1) (some token)
           else operators)
      else
        parse_op_loop fuel (strtok_r rest [' ', '\t']) (commands ++ [token]) operators
    else (commands, operators)

/-- The call `parse_input(line, commands, operators, delimiter)`.  Returns the filled
part of `commands` (its length is the returned `count`) and the operator
array.  `delimiter = none` is the `NULL` delimiter of operator mode.  Every
iteration of either loop consumes at least one character of the line, so
`line.length + 1` iterations always suffice. -/
def parse_input (line : Str) (operators : List (Option Str)) (delimiter : Option Str) :
    List Str × List (Option Str) :=
  match delimiter with
  | some d => (parse_delim_loop d (line.length + 1) (strtok_r line d) [], operators)
  | none => parse_op_loop (line.length + 1) (strtok_r line [' ', '\t']) [] operators

/-- The `operators` array as `main` prepares it: `MAX_CMDS - 1` slots cleared
by `memset`. -/
def no_operators : List (Option Str) := List.replicate (MAX_CMDS - 1) none

/-! ## split_command -/

/-- The loop of `split_command`:
`while (token && count < MAX_ARGS - 1) { args[count++] = strdup(token); token = strtok(NULL, DELIM); }`. -/
def split_loop : Nat → Option (Str × Str) → List Str → List Str
  | 0, _, args => args
  | _ + 1, none, args => args
  | fuel + 1, some (token, rest), args =>
    if args.length < MAX_ARGS - 1 then
      split_loop fuel (strtok_r rest DELIM) (args ++ [token])
    else args

/-- The call `split_command(command)`: the entries of `args` before the terminating
`NULL`. -/
def split_command (command : Str) : List Str :=
  split_loop (command.length + 1) (strtok_r command DELIM) []

/-! ## The dispatcher in `main` -/

/-- The branch of the `if / else if` chain of `main` that a line takes. -/
inductive SyntaxClass
  | killterm
  | killallterms
  | word_count
  | append_pair
  | concat_files
  | sequencer
  | conditional
  | pipeline
  | reverse_pipeline
  | redirection
  | simple
  deriving DecidableEq

/-- The conditions of the `if / else if` chain of `main`, in source order. -/
def classify (input : Str) : SyntaxClass :=
  if input = "killterm".toList then .killterm
  else if input = "killallterms".toList then .killallterms
  else if input.getD 0 (Char.ofNat 0) = '#' ∧ input.getD 1 (Char.ofNat 0) = ' ' then .word_count
  else if strstr input " ~ ".toList then .append_pair
  else if strchr input '+' then .concat_files
  else if strchr input ';' then .sequencer
  else if strstr input "&&".toList || strstr input "||".toList then .conditional
  else if strchr input '|' && !strchr input '=' then .pipeline
  else if strchr input '=' then .reverse_pipeline
  else if strchr input '<' || strchr input '>' then .redirection
  else .simple

/-- The messages `main` prints on `stderr`. -/
inductive ErrorMsg
  | tilde_requires_two_files
  | plus_requires_2_to_5_files
  | semicolon_supports_up_to_4_commands
  | command_has_invalid_argc (command argc : Nat)
  | conditional_supports_up_to_5_commands
  | pipe_supports_up_to_5_commands
  | reverse_pipe_supports_up_to_5_commands
  | redirection_requires_command_and_file
  | argument_count_must_be_1_to_5
  deriving DecidableEq

/-- What `main` does with one line: the function it calls, with the arguments
it passes (the `num_cmds` argument is the length of the command list), or the
message it prints. -/
inductive Action
  | skip
  | kill_current_terminal
  | kill_all_terminals
  | count_words (file : Str)
  | append_files (file1 file2 : Str)
  | concatenate_files (files : List Str)
  | sequential_execution (commands : List (List Str))
  | conditional_execution (commands : List (List Str)) (ops : List (Option Str))
  | execute_pipe (commands : List (List Str))
  | execute_reverse_pipe (commands : List (List Str))
  | redirect_command (args : List Str) (input_file output_file : Option Str) (append : Nat)
  | execute_command (args : List Str)
  | error (msg : ErrorMsg)
  deriving DecidableEq

/-- The `" ~ "` branch. -/
def run_append_pair (input : Str) : Action :=
  match strtok_r input " ~".toList with
  | none => .error .tilde_requires_two_files
  | some (file1, rest) =>
    match strtok_r rest " ~".toList with
    | none => .error .tilde_requires_two_files
    | some (file2, _) => .append_files file1 file2

/-- The `'+'` branch. -/
def run_concat_files (input : Str) : Action :=
  let commands := (parse_input input [] (some "+".toList)).1
  if 1 < commands.length ∧ commands.length ≤ 5 then .concatenate_files commands
  else .error .plus_requires_2_to_5_files

/-- The `';'` branch. -/
def run_sequencer (input : Str) : Action :=
  let commands := (parse_input input [] (some ";".toList)).1
  if 1 ≤ commands.length ∧ commands.length ≤ 4 then
    .sequential_execution (commands.map split_command)
  else .error .semicolon_supports_up_to_4_commands

/-- The validation loop of the conditional branch: split command `i`, count
its arguments, stop at the first command whose count is outside 1..5.
Returns the split commands, or the index and count of the offending one. -/
def validate_commands : List Str → Nat → List (List Str) → Except (Nat × Nat) (List (List Str))
  | [], _, cmd_array => .ok cmd_array
  | command :: more, i, cmd_array =>
    let args := split_command command
    if args.length < 1 ∨ 5 < args.length then .error (i + 1, args.length)
    else validate_commands more (i + 1) (cmd_array ++ [args])

/-- The `"&&"` / `"||"` branch. -/
def run_conditional (input : Str) : Action :=
  let parsed := parse_input input no_operators none
  if 1 ≤ parsed.1.length ∧ parsed.1.length ≤ 5 then
    match validate_commands parsed.1 0 [] with
    | .error (i, argc) => .error (.command_has_invalid_argc i argc)
    | .ok cmd_array => .conditional_execution cmd_array parsed.2
  else .error .conditional_supports_up_to_5_commands

/-- The `'|'` branch. -/
def run_pipeline (input : Str) : Action :=
  let commands := (parse_input input [] (some "|".toList)).1
  if 1 ≤ commands.length ∧ commands.length ≤ 5 then
    .execute_pipe (commands.map split_command)
  else .error .pipe_supports_up_to_5_commands

/-- The `'='` branch. -/
def run_reverse_pipeline (input : Str) : Action :=
  let commands := (parse_input input [] (some "=".toList)).1
  if 1 ≤ commands.length ∧ commands.length ≤ 5 then
    .execute_reverse_pipe (commands.map split_command)
  else .error .reverse_pipe_supports_up_to_5_commands

/-- The `'<'` / `'>'` branch. -/
def run_redirection (input : Str) : Action :=
  let is_input_redirect := strchr input '<'
  let is_output_append := strstr input ">>".toList
  let is_output_redirect := strchr input '>' && !is_output_append
  let delim : Option Str :=
    if is_output_append then some ">>".toList
    else if is_output_redirect then some ">".toList
    else if is_input_redirect then some "<".toList
    else none
  match delim with
  | none => .error .redirection_requires_command_and_file
  | some d =>
    match strtok_r input d with
    | none => .error .redirection_requires_command_and_file
    | some (command_part, rest) =>
      match strtok_r rest d with
      | none => .error .redirection_requires_command_and_file
      | some (file_part, _) =>
        let cmd := split_command command_part
        if is_input_redirect then .redirect_command cmd (some file_part) none 0
        else if is_output_append then .redirect_command cmd none (some file_part) 1
        else if is_output_redirect then .redirect_command cmd none (some file_part) 0
        else .skip

/-- The default branch. -/
def run_simple (input : Str) : Action :=
  let args := split_command input
  if 1 ≤ args.length ∧ args.length ≤ 5 then .execute_command args
  else .error .argument_count_must_be_1_to_5

/-- One turn of the prompt loop on the line `input` (the text read by `fgets`
up to the newline). -/
def dispatch (input : Str) : Action :=
  if input.length = 0 then .skip
  else
    match classify input with
    | .killterm => .kill_current_terminal
    | .killallterms => .kill_all_terminals
    | .word_count => .count_words (input.drop 2)
    | .append_pair => run_append_pair input
    | .concat_files => run_concat_files input
    | .sequencer => run_sequencer input
    | .conditional => run_conditional input
    | .pipeline => run_pipeline input
    | .reverse_pipeline => run_reverse_pipeline input
    | .redirection => run_redirection input
    | .simple => run_simple input

/-! ## Process primitives -/

/-- The macro `WIFEXITED(status)` of `<sys/wait.h>`: the low seven bits of
the wait status, which hold the terminating signal, are zero. -/
def WIFEXITED (status : Nat) : Bool := status % 128 == 0

/-- The macro `WEXITSTATUS(status)` of `<sys/wait.h>`: bits 8..15 of the wait
status. -/
def WEXITSTATUS (status : Nat) : Nat := (status / 256) % 256

/-! ## conditional_execution -/

/-- Where the loop of `conditional_execution` stands: still iterating, left
(by the loop condition or a `break`), or stopped inside `strcmp` on a `NULL`
operator pointer. -/
inductive Phase
  | running
  | returned
  | crashed
  deriving DecidableEq

/-- The variables of `conditional_execution` at the head of the loop body,
with the indices of the commands whose `fork` succeeded so far (each such
child calls `execvp(commands[i][0], commands[i])`), oldest first. -/
structure CondState where
  i : Nat
  last_result : Bool
  launched : List Nat
  phase : Phase
  deriving DecidableEq

/-- The success test `WIFEXITED(status) && WEXITSTATUS(status) == 0`. -/
def exit_ok (status : Nat) : Bool := WIFEXITED status && WEXITSTATUS status == 0

/-- The `fork` / `waitpid` part of the loop body for command `s.i`.
`wait i` is `none` when `fork` fails for command `i`, else the status that
`waitpid` stores for its child. -/
def cond_launch (wait : Nat → Option Nat) (s : CondState) : CondState :=
  match wait s.i with
  | some status =>
    { s with i := s.i + 1,
             last_result := exit_ok status,
             launched := s.launched ++ [s.i] }
  | none => { s with phase := .returned }

/-- One evaluation of the loop condition `i < num_cmds` followed by one pass
through the loop body of `conditional_execution`. -/
def cond_step (num_cmds : Nat) (ops : List (Option Str)) (wait : Nat → Option Nat)
    (s : CondState) : CondState :=
  match s.phase with
  | .running =>
    if s.i < num_cmds then
      if 0 < s.i then
        match ops.getD (s.i - 1) none with
        | none => { s with phase := .crashed }
        | some op =>
          if op = "||".toList ∧ s.last_result = true then { s with i := s.i + 1 }
          else if op = "&&".toList ∧ s.last_result = false then { s with phase := .returned }
          else cond_launch wait s
      else cond_launch wait s
    else { s with phase := .returned }
  | _ => s

/-- The state after `k` steps. -/
def cond_iter (num_cmds : Nat) (ops : List (Option Str)) (wait : Nat → Option Nat) :
    Nat → CondState → CondState
  | 0, s => s
  | k + 1, s => cond_iter num_cmds ops wait k (cond_step num_cmds ops wait s)

/-- The entry state: `last_result = 1`, `i = 0`. -/
def cond_init : CondState :=
  { i := 0, last_result := true, launched := [], phase := .running }

/-- The call `conditional_execution(commands, num_cmds, ops)`: every step but the last
increments `i`, so `num_cmds + 1` steps leave the loop. -/
def conditional_execution (num_cmds : Nat) (ops : List (Option Str))
    (wait : Nat → Option Nat) : CondState :=
  cond_iter num_cmds ops wait (num_cmds + 1) cond_init

/-! ## Descriptor tables -/

/-- What a descriptor refers to: something open before `execute_pipe` was
entered, or one end of the channel made by the `c`-th `pipe` call. -/
inductive Obj
  | inherited (k : Nat)
  | chan_read (c : Nat)
  | chan_write (c : Nat)
  deriving DecidableEq

/-- The descriptor table of one process: entry `fd` is what descriptor `fd`
refers to, `none` when it is closed; descriptors past the end are closed. -/
abbrev FdTable := List (Option Obj)

/-- What descriptor `fd` refers to. -/
def fd_lookup (t : FdTable) (fd : Nat) : Option Obj := t.getD fd none

/-- The lowest closed descriptor, the one the kernel hands out next. -/
def lowest_free (t : FdTable) : Nat := t.findIdx (fun o => o.isNone)

/-- Make descriptor `fd` refer to `o`. -/
def fd_set (t : FdTable) (fd : Nat) (o : Option Obj) : FdTable :=
  if fd < t.length then t.set fd o
  else t ++ List.replicate (fd - t.length) none ++ [o]

/-- The call `close(fd)`. -/
def sys_close (t : FdTable) (fd : Nat) : FdTable := fd_set t fd none

/-- The call `dup2(oldfd, newfd)`: it fails without effect when `oldfd` is closed. -/
def sys_dup2 (t : FdTable) (oldfd newfd : Nat) : FdTable :=
  match fd_lookup t oldfd with
  | none => t
  | some o => fd_set t newfd (some o)

/-- A successful `pipe(p)` creating channel `c`: the read end goes to the
lowest closed descriptor, the write end to the next one.  Returns the new
table with `p[0]` and `p[1]`. -/
def sys_pipe (t : FdTable) (c : Nat) : FdTable × Nat × Nat :=
  let t1 := fd_set t (lowest_free t) (some (.chan_read c))
  (fd_set t1 (lowest_free t1) (some (.chan_write c)), lowest_free t, lowest_free t1)

/-! ## execute_pipe and execute_reverse_pipe -/

/-- The first loop of `execute_pipe`, with `k` iterations left at index `i`:
`pipe(pipefd + i * 2)`; `pipe_ok i` tells whether that call succeeds.  `none`
is the `exit(EXIT_FAILURE)` taken when it fails. -/
def create_pipes (pipe_ok : Nat → Bool) :
    Nat → Nat → FdTable → List Nat → Option (FdTable × List Nat)
  | 0, _, t, pipefd => some (t, pipefd)
  | k + 1, i, t, pipefd =>
    if pipe_ok i then
      create_pipes pipe_ok k (i + 1) (sys_pipe t i).1
        (pipefd ++ [(sys_pipe t i).2.1, (sys_pipe t i).2.2])
    else none

/-- The loop `for (j = 0; j < 2 * (num_cmds - 1); j++) close(pipefd[j]);`. -/
def close_all (num_cmds : Nat) (pipefd : List Nat) (t : FdTable) : FdTable :=
  (List.range (2 * (num_cmds - 1))).foldl (fun u j => sys_close u (pipefd.getD j 0)) t

/-- A child of `execute_pipe` at the moment it calls `execvp`. -/
structure Stage where
  argv : List Str
  fds : FdTable
  deriving DecidableEq

/-- The child branch for command `i`, started on a copy `t` of the parent's
table: the two `dup2` calls, the closing loop, then `execvp(commands[i][0],
commands[i])`. -/
def child_stage (commands : List (List Str)) (num_cmds : Nat) (pipefd : List Nat)
    (t : FdTable) (i : Nat) : Stage :=
  let t1 := if 0 < i then sys_dup2 t (pipefd.getD ((i - 1) * 2) 0) 0 else t
  let t2 := if i < num_cmds - 1 then sys_dup2 t1 (pipefd.getD (i * 2 + 1) 0) 1 else t1
  { argv := commands.getD i [], fds := close_all num_cmds pipefd t2 }

/-- What `execute_pipe` leaves behind when it returns: the parent's table and,
for each command, the child forked for it (`none` when `fork` failed). -/
structure PipeRun where
  parent : FdTable
  stages : List (Option Stage)
  deriving DecidableEq

/-- The call `execute_pipe(commands, num_cmds)` run by a process whose table is `t0`.
`fork_ok i` tells whether the `fork` for command `i` succeeds.  `none` is
the `exit(EXIT_FAILURE)` of the shell on a failed `pipe`. -/
def execute_pipe (commands : List (List Str)) (num_cmds : Nat) (t0 : FdTable)
    (pipe_ok fork_ok : Nat → Bool) : Option PipeRun :=
  match create_pipes pipe_ok (num_cmds - 1) 0 t0 [] with
  | none => none
  | some (t, pipefd) =>
    some { parent := close_all num_cmds pipefd t,
           stages := (List.range num_cmds).map (fun i =>
             if fork_ok i then some (child_stage commands num_cmds pipefd t i) else none) }

/-- The call `execute_reverse_pipe(commands, num_cmds)`:
`reversed[i] = commands[num_cmds - i - 1]`, then `execute_pipe(reversed, num_cmds)`. -/
def execute_reverse_pipe (commands : List (List Str)) (num_cmds : Nat) (t0 : FdTable)
    (pipe_ok fork_ok : Nat → Bool) : Option PipeRun :=
  execute_pipe ((List.range num_cmds).map (fun i => commands.getD (num_cmds - i - 1) []))
    num_cmds t0 pipe_ok fork_ok

/-! ## Specification-side notions and sample inputs -/

/-- The trimming the specification speaks of: the text without its leading
and its trailing spaces and tabs. -/
def trimmed (s : Str) : Str := (s.dropWhile isSpTab).rdropWhile isSpTab

/-- The operands of the line `" ls -l\t;pwd ; echo a b"`, each with its padding. -/
def c1_items : List (Str × Str × Str) :=
  [(" ".toList, "ls -l".toList, "\t".toList), ([], "pwd".toList, " ".toList),
   (" ".toList, "echo a b".toList, [])]

/-- The dispatch table of the specification: one row per pattern, in the
order of the table, each with the class that handles a line matching it. -/
def dispatch_table : List ((Str → Bool) × SyntaxClass) :=
  [ (fun l => decide (l = "killterm".toList), .killterm),
    (fun l => decide (l = "killallterms".toList), .killallterms),
    (fun l => decide (List.IsPrefix "# ".toList l), .word_count),
    (fun l => decide (List.IsInfix " ~ ".toList l), .append_pair),
    (fun l => decide ('+' ∈ l), .concat_files),
    (fun l => decide (';' ∈ l), .sequencer),
    (fun l => decide (List.IsInfix "&&".toList l ∨ List.IsInfix "||".toList l), .conditional),
    (fun l => decide ('|' ∈ l ∧ '=' ∉ l), .pipeline),
    (fun l => decide ('=' ∈ l), .reverse_pipeline),
    (fun l => decide ('<' ∈ l ∨ '>' ∈ l), .redirection) ]

/-- First match wins: the class of the first row whose pattern the line
matches, the simple command when no row matches. -/
def first_match (line : Str) : SyntaxClass :=
  match dispatch_table.find? (fun row => row.1 line) with
  | some row => row.2
  | none => .simple

/-- Some row placed before the row of class `cls` matches the line. -/
def earlier_match (cls : SyntaxClass) (line : Str) : Bool :=
  (dispatch_table.takeWhile (fun row => decide (row.2 ≠ cls))).any (fun row => row.1 line)

/-- What holds of the evaluator's state at the head of every iteration:
launched commands lie behind `i`; after a launched command that failed in
front of `&&` nothing later is launched and the loop, if still running, is
about to test that operator with `last_result = 0`; after a launched command
that succeeded in front of `||` the next command is not launched and the
loop, when it comes to test that operator, has `last_result = 1`. -/
structure CondInv (ops : List (Option Str)) (wait : Nat → Option Nat) (s : CondState) :
    Prop where
  lt : ∀ x ∈ s.launched, x < s.i
  bad : ∀ x ∈ s.launched, ∀ st, wait x = some st → exit_ok st = false →
    ops.getD x none = some "&&".toList →
      (∀ y ∈ s.launched, y ≤ x) ∧ (s.phase = .running → s.i = x + 1 ∧ s.last_result = false)
  good : ∀ x ∈ s.launched, ∀ st, wait x = some st → exit_ok st = true →
    ops.getD x none = some "||".toList →
      x + 1 ∉ s.launched ∧ (s.phase = .running → s.i = x + 1 → s.last_result = true)

/-- Wait statuses for a three-command list: command 0 exits with code 1
(status `0x0100`), the others exit with code 0. -/
def c4_wait (k : Nat) : Option Nat := if k = 0 then some 256 else some 0

/-- Wait statuses under which every command exits with code 0. -/
def all_succeed (_ : Nat) : Option Nat := some 0

/-- The channel end stored in slot `j` of `pipefd`: slot `2c` is the read end
of channel `c`, slot `2c + 1` its write end. -/
def chan_end (j : Nat) : Obj := if j % 2 = 0 then .chan_read (j / 2) else .chan_write (j / 2)

/-- What holds between the table `t0` on entry to `execute_pipe` and the
table `t` with the array `pipefd` while the channels are being created: slot
`j` of `pipefd` is a descriptor that refers to the channel end of that slot,
the descriptors in `pipefd` were closed on entry, and every other descriptor
is as on entry. -/
structure PipesInv (t0 t : FdTable) (pipefd : List Nat) : Prop where
  ends : ∀ j, j < pipefd.length → fd_lookup t (pipefd.getD j 0) = some (chan_end j)
  fresh : ∀ fd ∈ pipefd, fd_lookup t0 fd = none
  rest : ∀ fd, fd ∉ pipefd → fd_lookup t fd = fd_lookup t0 fd

/-- The descriptor table of a shell started from a terminal: standard input,
output and error. -/
def std_table : FdTable := [some (.inherited 0), some (.inherited 1), some (.inherited 2)]

/-- The oracle under which every `pipe` or `fork` call succeeds. -/
def always_ok (_ : Nat) : Bool := true

/-- The argv vectors of the three commands `A`, `B`, `C`. -/
def abc_commands : List (List Str) := [["A".toList], ["B".toList], ["C".toList]]

/-- The maximal runs of characters outside the set `delim`, in the order in
which they occur in `s`: the pieces of `s` cut at every character of `delim`,
without the empty ones. -/
def maximal_runs (delim : Str) (s : Str) : List Str :=
  (s.splitOnP (fun c => delim.contains c)).filter (fun r => !r.isEmpty)

/-! ## execute_command and sequential_execution -/

/-- What the shell process itself does while it runs commands one at a time:
a call of `fork` for a command (`ok` tells whether a child was created; the
child goes on to `execvp(args[0], args)`), the `perror` after a failed `fork`,
the `waitpid` for the child of a command. -/
inductive ShellOp
  | fork (args : List Str) (ok : Bool)
  | perror_fork_failed
  | waitpid (args : List Str)
  deriving DecidableEq

/-- The call `execute_command(args)`.  `outcome` is `none` when `fork` fails,
else the status `waitpid` stores (a child whose `execvp` fails exits with
`EXIT_FAILURE`, which is such a status). -/
def execute_command (args : List Str) (outcome : Option Nat) : List ShellOp :=
  match outcome with
  | some _ => [.fork args true, .waitpid args]
  | none => [.fork args false, .perror_fork_failed]

/-- The loop `for (i = 0; i < num_cmds; i++) execute_command(commands[i]);`
with `k` iterations left at index `i`. -/
def seq_loop (commands : List (List Str)) (outcome : Nat → Option Nat) :
    Nat → Nat → List ShellOp
  | 0, _ => []
  | k + 1, i =>
    execute_command (commands.getD i []) (outcome i) ++ seq_loop commands outcome k (i + 1)

/-- The call `sequential_execution(commands, num_cmds)`. -/
def sequential_execution (commands : List (List Str)) (num_cmds : Nat)
    (outcome : Nat → Option Nat) : List ShellOp :=
  seq_loop commands outcome num_cmds 0

/-- The launch attempts in a run, in order: the argv of every `fork` call. -/
def launch_attempts (ops : List ShellOp) : List (List Str) :=
  ops.filterMap (fun op => match op with
    | .fork args _ => some args
    | _ => none)

/-! ## redirect_command -/

/-- The access mode `O_RDONLY` of `<fcntl.h>` on Linux. -/
def O_RDONLY : Nat := 0

/-- The access mode `O_WRONLY` of `<fcntl.h>` on Linux. -/
def O_WRONLY : Nat := 1

/-- The mask `O_ACCMODE` of `<fcntl.h>` on Linux. -/
def O_ACCMODE : Nat := 3

/-- The flag `O_CREAT` of `<fcntl.h>` on Linux. -/
def O_CREAT : Nat := 0o100

/-- The flag `O_TRUNC` of `<fcntl.h>` on Linux. -/
def O_TRUNC : Nat := 0o1000

/-- The flag `O_APPEND` of `<fcntl.h>` on Linux. -/
def O_APPEND : Nat := 0o2000

/-- The value `int flags = O_WRONLY | O_CREAT | (append ? O_APPEND : O_TRUNC);`. -/
def output_flags (append : Int) : Nat :=
  O_WRONLY ||| O_CREAT ||| (if append ≠ 0 then O_APPEND else O_TRUNC)

/-- What the child of `redirect_command` does, call by call. -/
inductive ChildOp
  | open_file (path : Str) (flags : Nat) (mode : Option Nat)
  | dup2 (oldfd newfd : Nat)
  | close (fd : Nat)
  | execvp (args : List Str)
  | fault
  | exit_failure
  deriving DecidableEq

/-- The end of a child branch, `execvp(args[0], args); perror(...);
exit(EXIT_FAILURE);`.  With an empty argv `args[0]` is `NULL` and the child
faults inside `execvp`, before `perror` and `exit`.  Otherwise `exec_ok` tells
whether `execvp` loads the program; when it does not the child exits with
`EXIT_FAILURE`. -/
def exec_tail (args : List Str) (exec_ok : Bool) : List ChildOp :=
  match args with
  | [] => [.execvp [], .fault]
  | _ :: _ => if exec_ok then [.execvp args] else [.execvp args, .exit_failure]

/-- The input part of the child branch: nothing without an input file; else
`open(input_file, O_RDONLY)`, which returns `fd_in` (`none` when it fails and
the child exits), then `dup2` onto descriptor 0 and `close`.  The flag tells
whether the child goes on. -/
def redirect_input (input_file : Option Str) (fd_in : Option Nat) : List ChildOp × Bool :=
  match input_file with
  | none => ([], true)
  | some path =>
    match fd_in with
    | none => ([.open_file path O_RDONLY none, .exit_failure], false)
    | some fd => ([.open_file path O_RDONLY none, .dup2 fd 0, .close fd], true)

/-- The output part of the child branch: nothing without an output file; else
`open(output_file, flags, 0644)`, which returns `fd_out`, then `dup2` onto
descriptor 1 and `close`. -/
def redirect_output (output_file : Option Str) (append : Int) (fd_out : Option Nat) :
    List ChildOp × Bool :=
  match output_file with
  | none => ([], true)
  | some path =>
    match fd_out with
    | none => ([.open_file path (output_flags append) (some 0o644), .exit_failure], false)
    | some fd =>
      ([.open_file path (output_flags append) (some 0o644), .dup2 fd 1, .close fd], true)

/-- The child branch of `redirect_command`: the input part, the output part,
then `execvp`; a failed `open` ends the child at once. -/
def redirect_child (args : List Str) (input_file output_file : Option Str) (append : Int)
    (fd_in fd_out : Option Nat) (exec_ok : Bool) : List ChildOp :=
  let inp := redirect_input input_file fd_in
  if inp.2 then
    let out := redirect_output output_file append fd_out
    if out.2 then inp.1 ++ out.1 ++ exec_tail args exec_ok
    else inp.1 ++ out.1
  else inp.1

/-- What a call `redirect_command(args, input_file, output_file, append)`
leaves behind: the calls of the child when `fork` made one, and whether the
parent waited for it. -/
structure RedirectRun where
  child : Option (List ChildOp)
  waited : Bool
  deriving DecidableEq

/-- The call `redirect_command(args, input_file, output_file, append)`. -/
def redirect_command (args : List Str) (input_file output_file : Option Str) (append : Int)
    (fork_ok : Bool) (fd_in fd_out : Option Nat) (exec_ok : Bool) : RedirectRun :=
  if fork_ok then
    { child := some (redirect_child args input_file output_file append fd_in fd_out exec_ok),
      waited := true }
  else { child := none, waited := false }

/-! ## Wait statuses -/

/-- The status `waitpid` stores for a child that exited with `exit(code)`:
the low eight bits of the code in bits 8..15, nothing in the low byte. -/
def status_exited (code : Nat) : Nat := (code % 256) * 256

/-- The status `waitpid` stores for a child killed by signal `sig`
(1..126), with bit 7 set when it dumped core. -/
def status_signaled (sig : Nat) (core : Bool) : Nat := sig + (if core then 128 else 0)

/-- The constant `EXIT_FAILURE` of `<stdlib.h>`. -/
def EXIT_FAILURE : Nat := 1

/-! ## One turn of the prompt loop -/

/-- What the operating system answers while one line is processed: the
descriptor table of the shell, the outcome of the `fork` and `waitpid` for the
command of a given index (`none` when `fork` fails), whether the `pipe` call
and the `fork` of a given index in `execute_pipe` succeed, whether `execvp`
loads the program of an argv, what `open` returns for a path (`none` when it
fails), whether `fopen` opens a path. -/
structure OsAnswers where
  table : FdTable
  wait : Nat → Option Nat
  pipe_ok : Nat → Bool
  fork_ok : Nat → Bool
  exec_ok : List Str → Bool
  open_fd : Str → Option Nat
  fopen_ok : Str → Bool

/-- The process that makes a call: the shell itself, or a child it forked. -/
inductive Proc
  | shell
  | child
  deriving DecidableEq

/-- A call made while a line is processed.  A `report_error` is a `perror` or
an `fprintf(stderr, ...)`; a `fault` is a `NULL` pointer read (`strcmp` on a
missing operator, `execvp` on an empty argv); reads, writes and `printf` are
not listed.  Every call other than `exit`, a `fault` and a successful
`execvp` is taken to return: a `waitpid` that blocks for ever or a copying
loop that does not end is not described here. -/
inductive Call
  | fork (args : List Str) (ok : Bool)
  | waitpid (args : List Str)
  | report_error
  | pipe (ok : Bool)
  | fopen (path : Str) (ok : Bool)
  | open_file (path : Str) (flags : Nat) (mode : Option Nat)
  | dup2 (oldfd newfd : Nat)
  | close (fd : Nat)
  | execvp (args : List Str)
  | fault
  | exit (code : Nat)
  | kill_all_terminals
  deriving DecidableEq

/-- A call together with the process that makes it. -/
structure Event where
  proc : Proc
  call : Call
  deriving DecidableEq

/-- The call `count_words(file)`: `fopen`, and `perror` with an early return
when it fails. -/
def count_words (file : Str) (fopen_ok : Str → Bool) : List Call :=
  if fopen_ok file then [.fopen file true] else [.fopen file false, .report_error]

/-- The call `append_files(file1, file2)`: both `fopen` calls, and `perror`
with an early return when either fails. -/
def append_files (file1 file2 : Str) (fopen_ok : Str → Bool) : List Call :=
  [.fopen file1 (fopen_ok file1), .fopen file2 (fopen_ok file2)]
    ++ (if fopen_ok file1 && fopen_ok file2 then [] else [.report_error])

/-- The call `concatenate_files(files, num_files)`: for each file the `fopen`
of its trimmed name, and the error message with `continue` when it fails. -/
def concatenate_files (files : List Str) (fopen_ok : Str → Bool) : List Call :=
  files.flatMap (fun file =>
    if fopen_ok (trim_whitespace file) then [.fopen (trim_whitespace file) true]
    else [.fopen (trim_whitespace file) false, .report_error])

/-- The call `kill_current_terminal()`: `exit(0)`. -/
def kill_current_terminal : List Call := [.exit 0]

/-- The call of a child, as a `Call`. -/
def child_call : ChildOp → Call
  | .open_file path flags mode => .open_file path flags mode
  | .dup2 oldfd newfd => .dup2 oldfd newfd
  | .close fd => .close fd
  | .execvp args => .execvp args
  | .fault => .fault
  | .exit_failure => .exit EXIT_FAILURE

/-- The calls of a forked child whose branch is `execvp(args[0], args);
perror(...); exit(EXIT_FAILURE);`. -/
def launch_events (os : OsAnswers) (args : List Str) : List Event :=
  (exec_tail args (os.exec_ok args)).map (fun op => { proc := .child, call := child_call op })

/-- The events behind one step of the shell in `execute_command`: the step
itself and, after a `fork` that made a child, the calls of that child. -/
def shell_op_events (os : OsAnswers) : ShellOp → List Event
  | .fork args true => { proc := .shell, call := .fork args true } :: launch_events os args
  | .fork args false => [{ proc := .shell, call := .fork args false }]
  | .perror_fork_failed => [{ proc := .shell, call := .report_error }]
  | .waitpid args => [{ proc := .shell, call := .waitpid args }]

/-- The events of `conditional_execution(commands, num_cmds, ops)`: for every
command launched the `fork`, the calls of the child and the `waitpid`; at the
end the `NULL` read when the loop stopped inside `strcmp`.  (The report of a
failed `fork` is not listed.) -/
def conditional_events (os : OsAnswers) (commands : List (List Str))
    (ops : List (Option Str)) : List Event :=
  (conditional_execution commands.length ops os.wait).launched.flatMap (fun i =>
      { proc := .shell, call := .fork (commands.getD i []) true }
        :: launch_events os (commands.getD i [])
        ++ [{ proc := .shell, call := .waitpid (commands.getD i []) }])
    ++ (match (conditional_execution commands.length ops os.wait).phase with
        | .crashed => [{ proc := .shell, call := .fault }]
        | _ => [])

/-- The events of `execute_pipe(commands, num_cmds)`, from what the call
leaves behind.  When a `pipe` call failed: that call, `perror` and
`exit(EXIT_FAILURE)`, all made by the shell.  Else one `pipe` call per
channel, then for every command its `fork` and, when a child was made, the
calls of that child from `execvp` on, then one `waitpid` per command.  (The
`pipe` calls before a failed one and the `dup2` and `close` calls are not
listed.) -/
def pipe_events (os : OsAnswers) (commands : List (List Str)) (num_cmds : Nat)
    (run : Option PipeRun) : List Event :=
  match run with
  | none =>
    [{ proc := .shell, call := .pipe false }, { proc := .shell, call := .report_error },
     { proc := .shell, call := .exit EXIT_FAILURE }]
  | some r =>
    List.replicate (num_cmds - 1) { proc := .shell, call := .pipe true }
      ++ (List.range num_cmds).flatMap (fun i =>
          match r.stages.getD i none with
          | some stage =>
            { proc := .shell, call := .fork stage.argv true } :: launch_events os stage.argv
          | none => [{ proc := .shell, call := .fork (commands.getD i []) false }])
      ++ (List.range num_cmds).map (fun i =>
          { proc := .shell, call := .waitpid (commands.getD i []) })

/-- The events of `redirect_command(args, input_file, output_file, append)`:
the `fork` of the shell, the calls of the child when there is one, then the
`waitpid` of the shell, or its `perror` when `fork` failed. -/
def redirect_events (os : OsAnswers) (args : List Str) (input_file output_file : Option Str)
    (append : Nat) : List Event :=
  { proc := .shell, call := .fork args (os.wait 0).isSome }
    :: (match (redirect_command args input_file output_file append (os.wait 0).isSome
            (input_file.bind os.open_fd) (output_file.bind os.open_fd) (os.exec_ok args)).child with
        | some calls => calls.map (fun op => { proc := .child, call := child_call op })
        | none => [])
    ++ [if (redirect_command args input_file output_file append (os.wait 0).isSome
            (input_file.bind os.open_fd) (output_file.bind os.open_fd) (os.exec_ok args)).waited
        then { proc := .shell, call := .waitpid args }
        else { proc := .shell, call := .report_error }]

/-- The events of what `main` does with one line. -/
def action_events (os : OsAnswers) : Action → List Event
  | .skip => []
  | .kill_current_terminal =>
    kill_current_terminal.map (fun c => { proc := .shell, call := c })
  | .kill_all_terminals => [{ proc := .shell, call := .kill_all_terminals }]
  | .count_words file =>
    (count_words file os.fopen_ok).map (fun c => { proc := .shell, call := c })
  | .append_files file1 file2 =>
    (append_files file1 file2 os.fopen_ok).map (fun c => { proc := .shell, call := c })
  | .concatenate_files files =>
    (concatenate_files files os.fopen_ok).map (fun c => { proc := .shell, call := c })
  | .sequential_execution commands =>
    (sequential_execution commands commands.length os.wait).flatMap (shell_op_events os)
  | .conditional_execution commands ops => conditional_events os commands ops
  | .execute_pipe commands =>
    pipe_events os commands commands.length
      (execute_pipe commands commands.length os.table os.pipe_ok os.fork_ok)
  | .execute_reverse_pipe commands =>
    pipe_events os
      ((List.range commands.length).map (fun i => commands.getD (commands.length - i - 1) []))
      commands.length
      (execute_reverse_pipe commands commands.length os.table os.pipe_ok os.fork_ok)
  | .redirect_command args input_file output_file append =>
    redirect_events os args input_file output_file append
  | .execute_command args => (execute_command args (os.wait 0)).flatMap (shell_op_events os)
  | .error _ => [{ proc := .shell, call := .report_error }]

/-- The events of one turn of the loop in `main` on the line `input`. -/
def turn_trace (os : OsAnswers) (input : Str) : List Event :=
  action_events os (dispatch input)

/-- How one turn of the loop in `main` ends for the shell process: back at
the prompt, inside `exit(code)`, inside `kill_all_terminals` (which may
signal the shell itself), or inside `strcmp` with a `NULL` argument. -/
inductive Fate
  | next_prompt
  | exited (code : Nat)
  | kill_all_terminals
  | strcmp_null
  deriving DecidableEq

/-- Whether an event ends the turn for the shell: an `exit`, a fault or
`kill_all_terminals`, made by the shell itself. -/
def ends_shell (e : Event) : Bool :=
  match e.proc, e.call with
  | .shell, .exit _ => true
  | .shell, .fault => true
  | .shell, .kill_all_terminals => true
  | _, _ => false

/-- How the turn ends for the shell, read off the events: the first event
that ends it decides; the calls of children do not count. -/
def trace_fate : List Event → Fate
  | [] => .next_prompt
  | e :: rest =>
    match e.proc, e.call with
    | .shell, .exit code => .exited code
    | .shell, .fault => .strcmp_null
    | .shell, .kill_all_terminals => .kill_all_terminals
    | _, _ => trace_fate rest

/-- How one turn of the loop in `main` on the line `input` ends for the
shell. -/
def shell_turn (os : OsAnswers) (input : Str) : Fate :=
  trace_fate (turn_trace os input)

/-- The answers of a system in which every `pipe` call fails. -/
def no_pipes : OsAnswers :=
  { table := std_table, wait := all_succeed, pipe_ok := fun _ => false, fork_ok := always_ok,
    exec_ok := fun _ => true, open_fd := fun _ => some 3, fopen_ok := fun _ => true }

/-- The answers of a system in which every `pipe` and `fork` call succeeds and
every child exits with code 0. -/
def all_ok_os : OsAnswers :=
  { table := std_table, wait := all_succeed, pipe_ok := always_ok, fork_ok := always_ok,
    exec_ok := fun _ => true, open_fd := fun _ => some 3, fopen_ok := fun _ => true }

/-- The answers of a system in which `fork` and `pipe` succeed but no program
can be loaded and no file can be opened. -/
def nothing_opens : OsAnswers :=
  { table := std_table, wait := fun _ => some (status_exited EXIT_FAILURE),
    pipe_ok := always_ok, fork_ok := always_ok,
    exec_ok := fun _ => false, open_fd := fun _ => none, fopen_ok := fun _ => false }

/-! ## The array stores of parse_input -/

/-- A store that `parse_input` makes into one of the caller's arrays:
`commands[index] = strdup(value)` or `operators[index] = strdup(value)`. -/
inductive ArrayWrite
  | command (index : Nat) (value : Str)
  | operator (index : Nat) (value : Str)
  deriving DecidableEq

/-- The stores of the delimiter-mode loop of `parse_input`, in order, when
the loop is entered with `token` pending and `count` commands stored:
`commands[count++] = strdup(trim_whitespace(token))` on every iteration. -/
def parse_delim_writes (delimiter : Str) :
    Nat → Option (Str × Str) → Nat → List ArrayWrite
  | 0, _, _ => []
  | _ + 1, none, _ => []
  | fuel + 1, some (token, rest), count =>
    if count < MAX_CMDS then
      .command count (trim_whitespace token)
        :: parse_delim_writes delimiter fuel (strtok_r rest delimiter) (count + 1)
    else []

/-- The stores of the operator-mode loop of `parse_input`, in order:
`operators[count - 1] = strdup(token)` for an operator token when
`count > 0`, `commands[count++] = strdup(token)` for any other token. -/
def parse_op_writes : Nat → Option (Str × Str) → Nat → List ArrayWrite
  | 0, _, _ => []
  | _ + 1, none, _ => []
  | fuel + 1, some (token, rest), count =>
    if count < MAX_CMDS then
      if token = "&&".toList ∨ token = "||".toList then
        (if 0 < count then [.operator (count - 1) token] else [])
          ++ parse_op_writes fuel (strtok_r rest [' ', '\t']) count
      else
        .command count token :: parse_op_writes fuel (strtok_r rest [' ', '\t']) (count + 1)
    else []

/-- The stores of `parse_input(line, commands, operators, delimiter)`, in
order. -/
def parse_input_writes (line : Str) (delimiter : Option Str) : List ArrayWrite :=
  match delimiter with
  | some d => parse_delim_writes d (line.length + 1) (strtok_r line d) 0
  | none => parse_op_writes (line.length + 1) (strtok_r line [' ', '\t']) 0

/-- The effect of one store on the filled part of `commands` and on the
`operators` array.  A store into `commands` lands just past the filled part
(`parse_input` stores at `count`, the length of the filled part). -/
def apply_write (arrays : List Str × List (Option Str)) (w : ArrayWrite) :
    List Str × List (Option Str) :=
  match w with
  | .command _ value => (arrays.1 ++ [value], arrays.2)
  | .operator index value => (arrays.1, arrays.2.set index (some value))

/-- The number of stores into `commands` in a list of stores. -/
def command_writes (ws : List ArrayWrite) : Nat :=
  (ws.filter (fun w => match w with
    | .command _ _ => true
    | .operator _ _ => false)).length

/-- The three commands of the line `"wc -l = sort -r = cat f.txt"`. -/
def c22_commands : List Str := ["wc -l".toList, "sort -r".toList, "cat f.txt".toList]
/-! ## Theorems -/

/-! ### trim_whitespace -/

theorem trim_end_take (str : Str) (h0 : ∀ c ∈ str.head?, isSpTab c = false) :
    ∀ e, e < str.length →
      str.take (trim_end str e + 1) = (str.take (e + 1)).rdropWhile isSpTab := by
  intro e
  induction e with
  | zero =>
    intro he
    cases str with
    | nil => simp at he
    | cons c cs =>
      have hc : isSpTab c = false := h0 c (by simp)
      simp [trim_end, List.rdropWhile, hc]
  | succ e ih =>
    intro he
    have hlt : e < str.length := by omega
    have htake : str.take (e + 1 + 1) = str.take (e + 1) ++ [str[e + 1]] := by
      rw [List.take_succ, List.getElem?_eq_getElem he]; rfl
    have hget : str.getD (e + 1) ' ' = str[e + 1] := List.getD_eq_getElem _ _ he
    rw [htake, trim_end, hget]
    by_cases hp : isSpTab str[e + 1] = true
    · rw [if_pos hp, List.rdropWhile_concat_pos _ _ _ hp]
      exact ih hlt
    · rw [if_neg hp, List.rdropWhile_concat_neg _ _ _ hp, htake]

theorem head_dropWhile_isSpTab (s : Str) :
    ∀ c ∈ (s.dropWhile isSpTab).head?, isSpTab c = false := by
  induction s with
  | nil => simp
  | cons a l ih =>
    by_cases ha : isSpTab a = true
    · simpa [List.dropWhile_cons_of_pos ha] using ih
    · simp [List.dropWhile_cons_of_neg ha, ha]

/-- The pointer walk of `trim_whitespace` computes the trimmed text. -/
theorem trim_whitespace_eq_trimmed (s : Str) : trim_whitespace s = trimmed s := by
  unfold trim_whitespace trimmed
  generalize hstr : s.dropWhile isSpTab = str
  have h0 : ∀ c ∈ str.head?, isSpTab c = false := hstr ▸ head_dropWhile_isSpTab s
  cases hlen : str.length with
  | zero =>
    have : str = [] := List.length_eq_zero.mp hlen
    simp [this, List.rdropWhile]
  | succ n =>
    simp only [hlen]
    rw [trim_end_take str h0 n (by omega), ← hlen, List.take_length]

theorem rdropWhile_append_of_pos {α : Type} (p : α → Bool) (l r : List α)
    (hr : ∀ c ∈ r, p c = true) : (l ++ r).rdropWhile p = l.rdropWhile p := by
  unfold List.rdropWhile
  rw [List.reverse_append, List.dropWhile_append_of_pos]
  intro a ha
  exact hr a (List.mem_reverse.mp ha)

theorem trimmed_padded (l o r : Str) (hl : ∀ c ∈ l, isSpTab c = true)
    (hr : ∀ c ∈ r, isSpTab c = true) (ho : trimmed o ≠ []) :
    trimmed (l ++ o ++ r) = trimmed o := by
  unfold trimmed at *
  have hne : o.dropWhile isSpTab ≠ [] := by
    intro h
    apply ho
    rw [h]; rfl
  rw [List.append_assoc, List.dropWhile_append_of_pos hl, List.dropWhile_append]
  have : (List.dropWhile isSpTab o).isEmpty = false := by
    cases h : List.dropWhile isSpTab o with
    | nil => exact absurd h hne
    | cons _ _ => rfl
  rw [this]
  simp only [Bool.false_eq_true, if_false]
  exact rdropWhile_append_of_pos _ _ _ hr

/-! ### strtok_r on a delimiter-joined text -/

theorem intercalate_cons_cons (d : Char) (p q : Str) (ps : List Str) :
    List.intercalate [d] (p :: q :: ps) = p ++ d :: List.intercalate [d] (q :: ps) := by
  simp [List.intercalate, List.intersperse]

theorem takeWhile_append_stop {α : Type} (q : α → Bool) (l : List α) (x : α)
    (rest : List α) (hl : ∀ a ∈ l, q a = true) (hx : q x = false) :
    List.takeWhile q (l ++ x :: rest) = l := by
  rw [List.takeWhile_append_of_pos hl,
    List.takeWhile_cons_of_neg (Bool.eq_false_iff.mp hx), List.append_nil]

theorem dropWhile_append_stop {α : Type} (q : α → Bool) (l : List α) (x : α)
    (rest : List α) (hl : ∀ a ∈ l, q a = true) (hx : q x = false) :
    List.dropWhile q (l ++ x :: rest) = x :: rest := by
  rw [List.dropWhile_append_of_pos hl,
    List.dropWhile_cons_of_neg (Bool.eq_false_iff.mp hx)]

theorem strtok_r_last (p delim : Str) (hp : p ≠ [])
    (hnd : ∀ c ∈ p, delim.contains c = false) : strtok_r p delim = some (p, []) := by
  cases p with
  | nil => exact absurd rfl hp
  | cons c cs =>
    have hc : ¬ (delim.contains c = true) :=
      Bool.eq_false_iff.mp (hnd c (List.mem_cons_self _ _))
    have hall : ∀ a ∈ c :: cs, (!delim.contains a) = true := by
      intro a ha
      rw [hnd a ha]; rfl
    have htake : List.takeWhile (fun x => !delim.contains x) (c :: cs) = c :: cs :=
      List.takeWhile_eq_self_iff.mpr hall
    have hdrop : List.dropWhile (fun x => !delim.contains x) (c :: cs) = [] :=
      List.dropWhile_eq_nil_iff.mpr hall
    unfold strtok_r
    rw [List.dropWhile_cons_of_neg hc]
    simp only [htake, hdrop, List.drop_nil]

theorem strtok_r_next (p delim : Str) (x : Char) (rest : Str) (hp : p ≠ [])
    (hnd : ∀ c ∈ p, delim.contains c = false) (hx : delim.contains x = true) :
    strtok_r (p ++ x :: rest) delim = some (p, rest) := by
  cases p with
  | nil => exact absurd rfl hp
  | cons c cs =>
    have hc : ¬ (delim.contains c = true) :=
      Bool.eq_false_iff.mp (hnd c (List.mem_cons_self _ _))
    have hall : ∀ a ∈ c :: cs, (!delim.contains a) = true := by
      intro a ha
      rw [hnd a ha]; rfl
    have hx2 : (!delim.contains x) = false := by rw [hx]; rfl
    have htake : List.takeWhile (fun y => !delim.contains y) (c :: cs ++ x :: rest) = c :: cs :=
      takeWhile_append_stop _ _ _ _ hall hx2
    have hdrop : List.dropWhile (fun y => !delim.contains y) (c :: cs ++ x :: rest)
        = x :: rest :=
      dropWhile_append_stop _ _ _ _ hall hx2
    unfold strtok_r
    rw [List.cons_append, List.dropWhile_cons_of_neg hc, ← List.cons_append]
    show some (List.takeWhile (fun y => !delim.contains y) (c :: cs ++ x :: rest),
      (List.dropWhile (fun y => !delim.contains y) (c :: cs ++ x :: rest)).drop 1) = _
    rw [htake, hdrop]
    rfl

theorem strtok_r_intercalate (d : Char) (p : Str) (ps : List Str) (hp : p ≠ [])
    (hnd : d ∉ p) :
    strtok_r (List.intercalate [d] (p :: ps)) [d] = some (p, List.intercalate [d] ps) := by
  have hnd2 : ∀ c ∈ p, [d].contains c = false := by
    intro c hc
    have : c ≠ d := fun h => hnd (h ▸ hc)
    simpa using this
  cases ps with
  | nil =>
    have : List.intercalate [d] [p] = p := by simp [List.intercalate, List.intersperse]
    rw [this]
    simpa [List.intercalate] using strtok_r_last p [d] hp hnd2
  | cons q qs =>
    rw [intercalate_cons_cons]
    exact strtok_r_next p [d] d _ hp hnd2 (by simp)

theorem length_le_intercalate (d : Char) (ps : List Str) (hne : ∀ p ∈ ps, p ≠ []) :
    ps.length ≤ (List.intercalate [d] ps).length := by
  induction ps with
  | nil => simp
  | cons p ps ih =>
    have hp : 1 ≤ p.length := List.length_pos.mpr (hne p (by simp))
    cases ps with
    | nil => simpa [List.intercalate, List.intersperse] using hp
    | cons q qs =>
      rw [intercalate_cons_cons]
      have := ih (fun x hx => hne x (List.mem_cons_of_mem _ hx))
      simp only [List.length_append, List.length_cons] at this ⊢
      omega

theorem parse_delim_loop_pieces (d : Char) :
    ∀ (ps : List Str) (fuel : Nat) (acc : List Str),
      (∀ p ∈ ps, p ≠ [] ∧ d ∉ p) → ps.length < fuel → acc.length + ps.length ≤ MAX_CMDS →
      parse_delim_loop [d] fuel (strtok_r (List.intercalate [d] ps) [d]) acc
        = acc ++ ps.map trim_whitespace := by
  intro ps
  induction ps with
  | nil =>
    intro fuel acc _ hf _
    cases fuel with
    | zero => omega
    | succ f => simp [List.intercalate, strtok_r, parse_delim_loop]
  | cons p ps ih =>
    intro fuel acc hps hf hcap
    cases fuel with
    | zero => omega
    | succ f =>
      have hp := hps p (by simp)
      rw [strtok_r_intercalate d p ps hp.1 hp.2]
      simp only [List.length_cons] at hf hcap
      have hlt : acc.length < MAX_CMDS := by omega
      simp only [parse_delim_loop, if_pos hlt]
      rw [ih f (acc ++ [trim_whitespace p]) (fun x hx => hps x (List.mem_cons_of_mem _ hx))
        (by omega) (by simp only [List.length_append, List.length_singleton]; omega)]
      simp

/-! ### Fuel of the tokenising loops -/

/-- A call of `strtok_r` that returns a token leaves strictly less text. -/
theorem strtok_r_rest_length (s delim tok rest : Str)
    (h : strtok_r s delim = some (tok, rest)) : rest.length < s.length := by
  unfold strtok_r at h
  have hlen := (List.dropWhile_sublist (fun c => delim.contains c) (l := s)).length_le
  cases hd : s.dropWhile (fun c => delim.contains c) with
  | nil => rw [hd] at h; exact absurd h (by simp)
  | cons c cs =>
    rw [hd] at h hlen
    have hrest := congrArg Prod.snd (Option.some.inj h)
    have h2 := (List.dropWhile_sublist (fun x => !delim.contains x) (l := c :: cs)).length_le
    simp only [] at hrest
    rw [← hrest, List.length_drop]
    simp only [List.length_cons] at hlen h2
    omega

/-- The number of iterations still needed once `token` is pending. -/
theorem strtok_r_next_bound (delim rest : Str) (fuel : Nat) (h : rest.length + 1 ≤ fuel + 1) :
    ∀ tok2 rest2, strtok_r rest delim = some (tok2, rest2) → rest2.length + 1 ≤ fuel := by
  intro tok2 rest2 h2
  have := strtok_r_rest_length rest delim tok2 rest2 h2
  omega

/-- The delimiter-mode loop does not depend on the fuel once it exceeds the
length of the text left. -/
theorem parse_delim_loop_fuel (d : Str) :
    ∀ (f1 f2 : Nat) (token : Option (Str × Str)) (acc : List Str),
      (∀ tok rest, token = some (tok, rest) → rest.length + 1 ≤ f1) →
      (∀ tok rest, token = some (tok, rest) → rest.length + 1 ≤ f2) →
      parse_delim_loop d f1 token acc = parse_delim_loop d f2 token acc := by
  intro f1
  induction f1 with
  | zero =>
    intro f2 token acc h1 _
    cases token with
    | none => cases f2 <;> rfl
    | some p => exact absurd (h1 p.1 p.2 rfl) (by omega)
  | succ f1 ih =>
    intro f2 token acc h1 h2
    cases token with
    | none => cases f2 <;> rfl
    | some p =>
      obtain ⟨tok, rest⟩ := p
      cases f2 with
      | zero => exact absurd (h2 tok rest rfl) (by omega)
      | succ f2 =>
        simp only [parse_delim_loop]
        split
        · exact ih f2 _ _
            (fun a b hab => strtok_r_next_bound d rest f1 (h1 tok rest rfl) a b hab)
            (fun a b hab => strtok_r_next_bound d rest f2 (h2 tok rest rfl) a b hab)
        · rfl

/-- The operator-mode loop does not depend on the fuel once it exceeds the
length of the text left. -/
theorem parse_op_loop_fuel :
    ∀ (f1 f2 : Nat) (token : Option (Str × Str)) (acc : List Str) (ops : List (Option Str)),
      (∀ tok rest, token = some (tok, rest) → rest.length + 1 ≤ f1) →
      (∀ tok rest, token = some (tok, rest) → rest.length + 1 ≤ f2) →
      parse_op_loop f1 token acc ops = parse_op_loop f2 token acc ops := by
  intro f1
  induction f1 with
  | zero =>
    intro f2 token acc ops h1 _
    cases token with
    | none => cases f2 <;> rfl
    | some p => exact absurd (h1 p.1 p.2 rfl) (by omega)
  | succ f1 ih =>
    intro f2 token acc ops h1 h2
    cases token with
    | none => cases f2 <;> rfl
    | some p =>
      obtain ⟨tok, rest⟩ := p
      cases f2 with
      | zero => exact absurd (h2 tok rest rfl) (by omega)
      | succ f2 =>
        have b1 := fun a b hab =>
          strtok_r_next_bound [' ', '\t'] rest f1 (h1 tok rest rfl) a b hab
        have b2 := fun a b hab =>
          strtok_r_next_bound [' ', '\t'] rest f2 (h2 tok rest rfl) a b hab
        simp only [parse_op_loop]
        split
        · split
          · exact ih f2 _ _ _ b1 b2
          · exact ih f2 _ _ _ b1 b2
        · rfl

/-- The loop of `split_command` does not depend on the fuel once it exceeds
the length of the text left. -/
theorem split_loop_fuel :
    ∀ (f1 f2 : Nat) (token : Option (Str × Str)) (acc : List Str),
      (∀ tok rest, token = some (tok, rest) → rest.length + 1 ≤ f1) →
      (∀ tok rest, token = some (tok, rest) → rest.length + 1 ≤ f2) →
      split_loop f1 token acc = split_loop f2 token acc := by
  intro f1
  induction f1 with
  | zero =>
    intro f2 token acc h1 _
    cases token with
    | none => cases f2 <;> rfl
    | some p => exact absurd (h1 p.1 p.2 rfl) (by omega)
  | succ f1 ih =>
    intro f2 token acc h1 h2
    cases token with
    | none => cases f2 <;> rfl
    | some p =>
      obtain ⟨tok, rest⟩ := p
      cases f2 with
      | zero => exact absurd (h2 tok rest rfl) (by omega)
      | succ f2 =>
        simp only [split_loop]
        split
        · exact ih f2 _ _
            (fun a b hab => strtok_r_next_bound DELIM rest f1 (h1 tok rest rfl) a b hab)
            (fun a b hab => strtok_r_next_bound DELIM rest f2 (h2 tok rest rfl) a b hab)
        · rfl

/-- The fuel `line.length + 1` that `parse_input` gives its loops is enough:
any larger amount gives the same result. -/
theorem parse_input_fuel (line : Str) (operators : List (Option Str)) (extra : Nat) :
    (∀ d, parse_delim_loop d (line.length + 1 + extra) (strtok_r line d) []
        = (parse_input line operators (some d)).1)
    ∧ parse_op_loop (line.length + 1 + extra) (strtok_r line [' ', '\t']) [] operators
        = parse_input line operators none := by
  constructor
  · intro d
    exact parse_delim_loop_fuel d _ _ _ _
      (fun a b hab => by have := strtok_r_rest_length line d a b hab; omega)
      (fun a b hab => by have := strtok_r_rest_length line d a b hab; omega)
  · exact parse_op_loop_fuel _ _ _ _ _
      (fun a b hab => by have := strtok_r_rest_length line _ a b hab; omega)
      (fun a b hab => by have := strtok_r_rest_length line _ a b hab; omega)

/-- The fuel `command.length + 1` that `split_command` gives its loop is
enough. -/
theorem split_command_fuel (command : Str) (extra : Nat) :
    split_loop (command.length + 1 + extra) (strtok_r command DELIM) []
      = split_command command :=
  split_loop_fuel _ _ _ _
    (fun a b hab => by have := strtok_r_rest_length command DELIM a b hab; omega)
    (fun a b hab => by have := strtok_r_rest_length command DELIM a b hab; omega)

/-! ### C1 -/

/-- C1. Delimiter-mode `parse_input`, delimiter one of `+ ; | =`: for at most
six operands (written here as triples: left padding, operand, right padding,
the paddings made of spaces and tabs only), each operand free of the
delimiter and non-empty once trimmed, parsing the padded operands joined by
the delimiter returns exactly as many strings as there are operands, namely
the trimmed operands in their original order. -/
theorem parse_input_delimiter_mode (d : Char) (items : List (Str × Str × Str))
    (operators : List (Option Str))
    (hd : d ∈ ['+', ';', '|', '='])
    (hk : 1 ≤ items.length ∧ items.length ≤ 6)
    (hpad : ∀ x ∈ items, (∀ c ∈ x.1, isSpTab c = true) ∧ (∀ c ∈ x.2.2, isSpTab c = true))
    (hnd : ∀ x ∈ items, d ∉ x.2.1)
    (hne : ∀ x ∈ items, trimmed x.2.1 ≠ []) :
    (parse_input (List.intercalate [d] (items.map (fun x => x.1 ++ x.2.1 ++ x.2.2)))
        operators (some [d])).1 = items.map (fun x => trimmed x.2.1)
    ∧ (parse_input (List.intercalate [d] (items.map (fun x => x.1 ++ x.2.1 ++ x.2.2)))
        operators (some [d])).1.length = items.length := by
  have hdws : isSpTab d = false := by
    simp only [List.mem_cons, List.mem_singleton, List.not_mem_nil, or_false] at hd
    rcases hd with h | h | h | h <;> subst h <;> decide
  have hpieces : ∀ p ∈ items.map (fun x => x.1 ++ x.2.1 ++ x.2.2), p ≠ [] ∧ d ∉ p := by
    intro p hp
    obtain ⟨x, hx, rfl⟩ := List.mem_map.mp hp
    constructor
    · intro h
      have ho : x.2.1 = [] := by
        have := congrArg List.length h
        simp only [List.length_append, List.length_nil] at this
        exact List.length_eq_zero.mp (by omega)
      exact hne x hx (by rw [ho]; rfl)
    · intro hmem
      rcases List.mem_append.mp hmem with h | h
      · rcases List.mem_append.mp h with h | h
        · have := (hpad x hx).1 d h
          rw [hdws] at this
          exact Bool.false_ne_true this
        · exact hnd x hx h
      · have := (hpad x hx).2 d h
        rw [hdws] at this
        exact Bool.false_ne_true this
  have hfuel := length_le_intercalate d _ (fun p hp => (hpieces p hp).1)
  have hmain : (parse_input (List.intercalate [d] (items.map (fun x => x.1 ++ x.2.1 ++ x.2.2)))
        operators (some [d])).1 = items.map (fun x => trimmed x.2.1) := by
    show parse_delim_loop [d] _ _ [] = _
    rw [parse_delim_loop_pieces d _ _ [] hpieces (by omega)
      (by simp only [List.length_nil, List.length_map, MAX_CMDS]; omega)]
    rw [List.nil_append, List.map_map]
    apply List.map_congr_left
    intro x hx
    show trim_whitespace (x.1 ++ x.2.1 ++ x.2.2) = trimmed x.2.1
    rw [trim_whitespace_eq_trimmed]
    exact trimmed_padded _ _ _ (hpad x hx).1 (hpad x hx).2 (hne x hx)
  exact ⟨hmain, by rw [hmain, List.length_map]⟩

/-- C1 at the line `" ls -l\t;pwd ; echo a b"`. -/
theorem parse_input_delimiter_mode_witness :
    (parse_input " ls -l\t;pwd ; echo a b".toList [] (some [';'])).1
      = ["ls -l".toList, "pwd".toList, "echo a b".toList] :=
  (parse_input_delimiter_mode ';' c1_items [] (by decide) (by decide) (by decide)
    (by decide) (by decide)).1

/-! ### C2 -/

/-- C2. Operator-mode `parse_input` on `"false && echo no"`: the claim expects
the two commands `"false"` and `"echo no"`, but every non-operator word is
stored as a command of its own, so three commands come back, with the one
operator in slot 0 and the slot between `"echo"` and `"no"` left `NULL`. -/
theorem parse_input_operator_mode_false_and_echo_no :
    parse_input "false && echo no".toList no_operators none
      = (["false".toList, "echo".toList, "no".toList],
         [some "&&".toList, none, none, none, none]) := by
  decide

/-! ### C3 -/

theorem strchr_iff (s : Str) (c : Char) : strchr s c = true ↔ c ∈ s := by
  unfold strchr
  exact List.elem_iff

theorem strstr_iff (hay needle : Str) : strstr hay needle = true ↔ List.IsInfix needle hay := by
  induction hay with
  | nil =>
    rw [List.infix_nil]
    cases needle <;> simp [strstr]
  | cons c cs ih =>
    rw [List.infix_cons_iff, ← ih, ← List.isPrefixOf_iff_prefix]
    simp [strstr]

theorem strchr_false_iff (s : Str) (c : Char) : strchr s c = false ↔ c ∉ s := by
  rw [← strchr_iff, Bool.not_eq_true]

theorem hash_space_iff (input : Str) :
    (input.getD 0 (Char.ofNat 0) = '#' ∧ input.getD 1 (Char.ofNat 0) = ' ')
      ↔ List.IsPrefix "# ".toList input := by
  rw [List.prefix_iff_eq_take]
  match input with
  | [] => decide
  | [a] =>
    constructor
    · rintro ⟨_, h⟩
      have h2 : Char.ofNat 0 = ' ' := h
      exact absurd h2 (by decide)
    · intro h
      have h2 : (2 : Nat) = 1 := congrArg List.length h
      exact absurd h2 (by decide)
  | a :: b :: rest =>
    constructor
    · rintro ⟨h1, h2⟩
      simp only [List.getD_cons_zero, List.getD_cons_succ] at h1 h2
      subst h1 h2
      rfl
    · intro h
      have h2 : ['#', ' '] = [a, b] := h
      injection h2 with ha hb
      injection hb with hb _
      subst ha hb
      exact ⟨rfl, rfl⟩

theorem first_match_cons (line : Str) (f : Str → Bool) (cls : SyntaxClass)
    (rest : List ((Str → Bool) × SyntaxClass)) :
    (match ((f, cls) :: rest).find? (fun row => row.1 line) with
      | some row => row.2
      | none => SyntaxClass.simple)
    = if f line = true then cls
      else (match rest.find? (fun row => row.1 line) with
        | some row => row.2
        | none => SyntaxClass.simple) := by
  cases h : f line <;> simp [List.find?, h]

/-- The `if / else if` chain of `main` is the first-match lookup in the
dispatch table. -/
theorem classify_eq_first_match (line : Str) : classify line = first_match line := by
  unfold classify first_match dispatch_table
  simp only [first_match_cons, List.find?_nil, decide_eq_true_eq]
  simp only [Bool.or_eq_true, Bool.and_eq_true, Bool.not_eq_true', strchr_iff, strstr_iff,
    strchr_false_iff, hash_space_iff]

theorem length_ne_zero_of_mem (line : Str) (c : Char) (h : c ∈ line) : ¬ (line.length = 0) := by
  intro h0
  rw [List.length_eq_zero.mp h0] at h
  exact List.not_mem_nil _ h

theorem length_ne_zero_of_infix (line : Str) (a : Char) (w : Str)
    (h : List.IsInfix (a :: w) line) : ¬ (line.length = 0) := by
  intro h0
  rw [List.length_eq_zero.mp h0, List.infix_nil] at h
  exact List.cons_ne_nil _ _ h

theorem first_match_sequencer (line : Str) (h : ';' ∈ line)
    (he : earlier_match .sequencer line = false) : first_match line = .sequencer := by
  unfold earlier_match dispatch_table at he
  simp only [List.takeWhile, ne_eq, reduceCtorEq, not_false_eq_true, not_true_eq_false,
    decide_True, decide_False, List.any_cons, List.any_nil, Bool.or_false, Bool.or_eq_false_iff,
    decide_eq_false_iff_not] at he
  obtain ⟨h1, h2, h3, h4, h5⟩ := he
  unfold first_match dispatch_table
  simp only [first_match_cons, decide_eq_true_eq, if_neg h1, if_neg h2, if_neg h3, if_neg h4,
    if_neg h5, if_pos h]

theorem first_match_conditional (line : Str)
    (h : List.IsInfix "&&".toList line ∨ List.IsInfix "||".toList line)
    (he : earlier_match .conditional line = false) : first_match line = .conditional := by
  unfold earlier_match dispatch_table at he
  simp only [List.takeWhile, ne_eq, reduceCtorEq, not_false_eq_true, not_true_eq_false,
    decide_True, decide_False, List.any_cons, List.any_nil, Bool.or_false, Bool.or_eq_false_iff,
    decide_eq_false_iff_not] at he
  obtain ⟨h1, h2, h3, h4, h5, h6⟩ := he
  unfold first_match dispatch_table
  simp only [first_match_cons, decide_eq_true_eq, if_neg h1, if_neg h2, if_neg h3, if_neg h4,
    if_neg h5, if_neg h6, if_pos h]

theorem first_match_reverse_pipeline (line : Str) (h : '=' ∈ line)
    (he : earlier_match .reverse_pipeline line = false) :
    first_match line = .reverse_pipeline := by
  unfold earlier_match dispatch_table at he
  simp only [List.takeWhile, ne_eq, reduceCtorEq, not_false_eq_true, not_true_eq_false,
    decide_True, decide_False, List.any_cons, List.any_nil, Bool.or_false, Bool.or_eq_false_iff,
    decide_eq_false_iff_not] at he
  obtain ⟨h1, h2, h3, h4, h5, h6, h7, h8⟩ := he
  unfold first_match dispatch_table
  simp only [first_match_cons, decide_eq_true_eq, if_neg h1, if_neg h2, if_neg h3, if_neg h4,
    if_neg h5, if_neg h6, if_neg h7, if_neg h8, if_pos h]

theorem first_match_of_bars (line : Str) (h : List.IsInfix "||".toList line) :
    first_match line ≠ .pipeline ∧ first_match line ≠ .reverse_pipeline
      ∧ first_match line ≠ .redirection ∧ first_match line ≠ .simple := by
  have h7 : List.IsInfix "&&".toList line ∨ List.IsInfix "||".toList line := Or.inr h
  unfold first_match dispatch_table
  simp only [first_match_cons, decide_eq_true_eq, if_pos h7]
  split_ifs <;> simp

/-- C3. The dispatcher classifies a line by first match in the order of the
table (killterm, killallterms, `# ` prefix, ` ~ `, `+`, `;`, `&&` or `||`,
`|` without `=`, `=`, `<` or `>`, else simple command).  In particular a line
with `;` and `|` that no earlier row matches goes to the Sequencer; a line
with `||` never reaches the Pipeline Engine (neither directly nor through
the reverse pipeline) and goes to the Conditional Evaluator when no earlier
row matches; a line with `|` and `=` that no earlier row matches is a Reverse
Pipeline whose commands are the pieces of the split on `=` alone. -/
theorem dispatch_first_match_wins (line : Str) :
    classify line = first_match line
    ∧ ((';' ∈ line ∧ '|' ∈ line ∧ earlier_match .sequencer line = false) →
        classify line = .sequencer ∧ dispatch line = run_sequencer line)
    ∧ (List.IsInfix "||".toList line →
        classify line ≠ .pipeline ∧ classify line ≠ .reverse_pipeline
        ∧ (∀ commands, dispatch line ≠ .execute_pipe commands)
        ∧ (∀ commands, dispatch line ≠ .execute_reverse_pipe commands)
        ∧ (earlier_match .conditional line = false →
            classify line = .conditional ∧ dispatch line = run_conditional line))
    ∧ (('|' ∈ line ∧ '=' ∈ line ∧ earlier_match .reverse_pipeline line = false) →
        classify line = .reverse_pipeline
        ∧ dispatch line =
            (if 1 ≤ (parse_input line [] (some ['='])).1.length
                ∧ (parse_input line [] (some ['='])).1.length ≤ 5 then
              .execute_reverse_pipe ((parse_input line [] (some ['='])).1.map split_command)
            else .error .reverse_pipe_supports_up_to_5_commands)) := by
  refine ⟨classify_eq_first_match line, ?_, ?_, ?_⟩
  · rintro ⟨hs, _, he⟩
    have hc : classify line = .sequencer := by
      rw [classify_eq_first_match]; exact first_match_sequencer line hs he
    refine ⟨hc, ?_⟩
    unfold dispatch
    rw [if_neg (length_ne_zero_of_mem line _ hs), hc]
  · intro hb
    have hnot := first_match_of_bars line hb
    rw [← classify_eq_first_match] at hnot
    have hlen : ¬ (line.length = 0) := length_ne_zero_of_infix line '|' ['|'] hb
    have hdisp : ∀ commands, dispatch line ≠ .execute_pipe commands
        ∧ dispatch line ≠ .execute_reverse_pipe commands := by
      intro commands
      unfold dispatch
      rw [if_neg hlen]
      cases hc : classify line with
      | killterm => exact ⟨by simp, by simp⟩
      | killallterms => exact ⟨by simp, by simp⟩
      | word_count => exact ⟨by simp, by simp⟩
      | append_pair =>
        simp only [run_append_pair]
        split
        · exact ⟨by simp, by simp⟩
        · split <;> exact ⟨by simp, by simp⟩
      | concat_files =>
        simp only [run_concat_files]
        split <;> exact ⟨by simp, by simp⟩
      | sequencer =>
        simp only [run_sequencer]
        split <;> exact ⟨by simp, by simp⟩
      | conditional =>
        simp only [run_conditional]
        split
        · split <;> exact ⟨by simp, by simp⟩
        · exact ⟨by simp, by simp⟩
      | pipeline => exact absurd hc hnot.1
      | reverse_pipeline => exact absurd hc hnot.2.1
      | redirection => exact absurd hc hnot.2.2.1
      | simple => exact absurd hc hnot.2.2.2
    refine ⟨hnot.1, hnot.2.1, fun c => (hdisp c).1, fun c => (hdisp c).2, ?_⟩
    intro he
    have hc : classify line = .conditional := by
      rw [classify_eq_first_match]; exact first_match_conditional line (Or.inr hb) he
    refine ⟨hc, ?_⟩
    unfold dispatch
    rw [if_neg hlen, hc]
  · rintro ⟨_, heq, he⟩
    have hc : classify line = .reverse_pipeline := by
      rw [classify_eq_first_match]; exact first_match_reverse_pipeline line heq he
    refine ⟨hc, ?_⟩
    unfold dispatch
    rw [if_neg (length_ne_zero_of_mem line _ heq), hc]
    rfl

/-- C3 at three lines: `"ls ; cat f | wc"` is run by the Sequencer,
`"ls || cat f | wc"` by the Conditional Evaluator, and `"wc = cat f | sort"`
as a Reverse Pipeline of the two pieces around `=`. -/
theorem dispatch_first_match_wins_witness :
    classify "ls ; cat f | wc".toList = .sequencer
    ∧ classify "ls || cat f | wc".toList = .conditional
    ∧ dispatch "wc = cat f | sort".toList
        = .execute_reverse_pipe [["wc".toList],
            ["cat".toList, "f".toList, "|".toList, "sort".toList]] :=
  ⟨((dispatch_first_match_wins "ls ; cat f | wc".toList).2.1
      ⟨by decide, by decide, by decide⟩).1,
   (((dispatch_first_match_wins "ls || cat f | wc".toList).2.2.1 (by decide)).2.2.2.2
      (by decide)).1,
   (((dispatch_first_match_wins "wc = cat f | sort".toList).2.2.2
      ⟨by decide, by decide, by decide⟩).2).trans (by decide)⟩

/-! ### conditional_execution -/

theorem cond_iter_succ (n : Nat) (ops : List (Option Str)) (wait : Nat → Option Nat) :
    ∀ (k : Nat) (s : CondState),
      cond_iter n ops wait (k + 1) s = cond_step n ops wait (cond_iter n ops wait k s) := by
  intro k
  induction k with
  | zero => intro s; rfl
  | succ k ih =>
    intro s
    show cond_iter n ops wait (k + 1) (cond_step n ops wait s) = _
    rw [ih]
    rfl

theorem cond_inv_init (ops : List (Option Str)) (wait : Nat → Option Nat) :
    CondInv ops wait cond_init :=
  { lt := fun x hx => absurd hx (List.not_mem_nil x),
    bad := fun x hx => absurd hx (List.not_mem_nil x),
    good := fun x hx => absurd hx (List.not_mem_nil x) }

theorem cond_inv_phase (ops : List (Option Str)) (wait : Nat → Option Nat) (s : CondState)
    (p : Phase) (hp : p ≠ .running) (hs : CondInv ops wait s) :
    CondInv ops wait { s with phase := p } :=
  { lt := hs.lt,
    bad := fun x hx st hw hf ho => ⟨(hs.bad x hx st hw hf ho).1, fun h => absurd h hp⟩,
    good := fun x hx st hw hf ho => ⟨(hs.good x hx st hw hf ho).1, fun h => absurd h hp⟩ }

theorem cond_inv_launch (ops : List (Option Str)) (wait : Nat → Option Nat) (s : CondState)
    (hs : CondInv ops wait s)
    (hnb : ∀ x ∈ s.launched, ∀ st, wait x = some st → exit_ok st = false →
      ops.getD x none = some "&&".toList → False)
    (hng : ∀ x ∈ s.launched, ∀ st, wait x = some st → exit_ok st = true →
      ops.getD x none = some "||".toList → s.i ≠ x + 1) :
    CondInv ops wait (cond_launch wait s) := by
  unfold cond_launch
  cases hw : wait s.i with
  | none => exact cond_inv_phase ops wait s .returned (by decide) hs
  | some status =>
    refine { lt := ?_, bad := ?_, good := ?_ }
    · intro x hx
      rcases List.mem_append.mp hx with h | h
      · exact Nat.lt_succ_of_lt (hs.lt x h)
      · rw [List.mem_singleton.mp h]
        exact Nat.lt_succ_self _
    · intro x hx st hwx hf ho
      rcases List.mem_append.mp hx with h | h
      · exact absurd (hnb x h st hwx hf ho) id
      · have hxi : x = s.i := List.mem_singleton.mp h
        subst hxi
        have hst : status = st := Option.some.inj (hw.symm.trans hwx)
        subst hst
        refine ⟨?_, fun _ => ⟨rfl, hf⟩⟩
        intro y hy
        rcases List.mem_append.mp hy with h2 | h2
        · exact Nat.le_of_lt (hs.lt y h2)
        · exact Nat.le_of_eq (List.mem_singleton.mp h2)
    · intro x hx st hwx hf ho
      rcases List.mem_append.mp hx with h | h
      · refine ⟨?_, ?_⟩
        · intro hmem
          rcases List.mem_append.mp hmem with h2 | h2
          · exact (hs.good x h st hwx hf ho).1 h2
          · exact hng x h st hwx hf ho (List.mem_singleton.mp h2).symm
        · intro _ hi
          have hlt := hs.lt x h
          have hi2 : s.i + 1 = x + 1 := hi
          omega
      · have hxi : x = s.i := List.mem_singleton.mp h
        subst hxi
        have hst : status = st := Option.some.inj (hw.symm.trans hwx)
        subst hst
        refine ⟨?_, fun _ _ => hf⟩
        intro hmem
        rcases List.mem_append.mp hmem with h2 | h2
        · exact absurd (hs.lt _ h2) (by omega)
        · exact absurd (List.mem_singleton.mp h2) (by omega)

theorem cond_inv_step (n : Nat) (ops : List (Option Str)) (wait : Nat → Option Nat)
    (s : CondState) (hs : CondInv ops wait s) :
    CondInv ops wait (cond_step n ops wait s) := by
  unfold cond_step
  cases hp : s.phase with
  | returned => exact hs
  | crashed => exact hs
  | running =>
    simp only []
    by_cases hlt : s.i < n
    · rw [if_pos hlt]
      by_cases h0 : 0 < s.i
      · rw [if_pos h0]
        cases hop : ops.getD (s.i - 1) none with
        | none => exact cond_inv_phase ops wait s .crashed (by decide) hs
        | some op =>
          simp only []
          by_cases hor : op = "||".toList ∧ s.last_result = true
          · rw [if_pos hor]
            refine { lt := fun x hx => Nat.lt_succ_of_lt (hs.lt x hx), bad := ?_, good := ?_ }
            · intro x hx st hwx hf ho
              have := ((hs.bad x hx st hwx hf ho).2 hp).2
              rw [hor.2] at this
              exact absurd this (by decide)
            · intro x hx st hwx hf ho
              refine ⟨(hs.good x hx st hwx hf ho).1, ?_⟩
              intro _ hi
              have hlt := hs.lt x hx
              have hi2 : s.i + 1 = x + 1 := hi
              omega
          · rw [if_neg hor]
            by_cases hand : op = "&&".toList ∧ s.last_result = false
            · rw [if_pos hand]
              exact cond_inv_phase ops wait s .returned (by decide) hs
            · rw [if_neg hand]
              apply cond_inv_launch ops wait s hs
              · intro x hx st hwx hf ho
                obtain ⟨hi, hl⟩ := (hs.bad x hx st hwx hf ho).2 hp
                have hx1 : s.i - 1 = x := by omega
                rw [hx1, ho] at hop
                exact hand ⟨(Option.some.inj hop).symm, hl⟩
              · intro x hx st hwx hf ho hi
                have hl := (hs.good x hx st hwx hf ho).2 hp hi
                have hx1 : s.i - 1 = x := by omega
                rw [hx1, ho] at hop
                exact hor ⟨(Option.some.inj hop).symm, hl⟩
      · rw [if_neg h0]
        apply cond_inv_launch ops wait s hs
        · intro x hx
          exact absurd (hs.lt x hx) (by omega)
        · intro x hx
          exact absurd (hs.lt x hx) (by omega)
    · rw [if_neg hlt]
      exact cond_inv_phase ops wait s .returned (by decide) hs

theorem cond_inv_iter (n : Nat) (ops : List (Option Str)) (wait : Nat → Option Nat) (k : Nat) :
    CondInv ops wait (cond_iter n ops wait k cond_init) := by
  induction k with
  | zero => exact cond_inv_init ops wait
  | succ k ih =>
    rw [cond_iter_succ]
    exact cond_inv_step n ops wait _ ih

theorem cond_launch_cases (wait : Nat → Option Nat) (s : CondState) :
    (∃ st, wait s.i = some st ∧ cond_launch wait s =
        { s with i := s.i + 1, last_result := exit_ok st, launched := s.launched ++ [s.i] })
    ∨ cond_launch wait s = { s with phase := .returned } := by
  unfold cond_launch
  cases wait s.i with
  | none => exact Or.inr rfl
  | some st => exact Or.inl ⟨st, rfl, rfl⟩

/-- One step either launches command `s.i` and moves on, or moves on without
launching, or leaves the loop with nothing launched. -/
theorem cond_step_cases (n : Nat) (ops : List (Option Str)) (wait : Nat → Option Nat)
    (s : CondState) :
    (s.phase = .running ∧ s.i < n ∧ ∃ st, wait s.i = some st ∧ cond_step n ops wait s =
        { s with i := s.i + 1, last_result := exit_ok st, launched := s.launched ++ [s.i] })
    ∨ (s.phase = .running ∧ s.i < n ∧ cond_step n ops wait s = { s with i := s.i + 1 })
    ∨ ((cond_step n ops wait s).phase ≠ .running
        ∧ (cond_step n ops wait s).launched = s.launched) := by
  unfold cond_step
  cases hp : s.phase with
  | returned => exact Or.inr (Or.inr ⟨by simp [hp], rfl⟩)
  | crashed => exact Or.inr (Or.inr ⟨by simp [hp], rfl⟩)
  | running =>
    simp only []
    by_cases hlt : s.i < n
    · rw [if_pos hlt]
      have hl : (∃ st, wait s.i = some st ∧ cond_launch wait s =
            { s with i := s.i + 1, last_result := exit_ok st,
                     launched := s.launched ++ [s.i] })
          ∨ ((cond_launch wait s).phase ≠ .running
            ∧ (cond_launch wait s).launched = s.launched) := by
        rcases cond_launch_cases wait s with h | h
        · exact Or.inl h
        · exact Or.inr (by rw [h]; exact ⟨by simp, rfl⟩)
      by_cases h0 : 0 < s.i
      · rw [if_pos h0]
        cases ops.getD (s.i - 1) none with
        | none => exact Or.inr (Or.inr ⟨by simp, rfl⟩)
        | some op =>
          simp only []
          by_cases hor : op = "||".toList ∧ s.last_result = true
          · rw [if_pos hor]
            exact Or.inr (Or.inl ⟨trivial, hlt, by rw [← hp]⟩)
          · rw [if_neg hor]
            by_cases hand : op = "&&".toList ∧ s.last_result = false
            · rw [if_pos hand]
              exact Or.inr (Or.inr ⟨by simp, rfl⟩)
            · rw [if_neg hand]
              rcases hl with ⟨st, h1, h2⟩ | h
              · exact Or.inl ⟨trivial, hlt, st, h1, by rw [← hp]; exact h2⟩
              · exact Or.inr (Or.inr h)
      · rw [if_neg h0]
        rcases hl with ⟨st, h1, h2⟩ | h
        · exact Or.inl ⟨trivial, hlt, st, h1, by rw [← hp]; exact h2⟩
        · exact Or.inr (Or.inr h)
    · rw [if_neg hlt]
      exact Or.inr (Or.inr ⟨by simp, rfl⟩)

/-- While the loop is running, the number of steps taken is `i`. -/
theorem cond_iter_running (n : Nat) (ops : List (Option Str)) (wait : Nat → Option Nat) :
    ∀ k, (cond_iter n ops wait k cond_init).phase = .running →
      (cond_iter n ops wait k cond_init).i = k ∧ k ≤ n := by
  intro k
  induction k with
  | zero => intro _; exact ⟨rfl, Nat.zero_le _⟩
  | succ k ih =>
    rw [cond_iter_succ]
    intro hrun
    rcases cond_step_cases n ops wait (cond_iter n ops wait k cond_init) with
      ⟨hp, hlt, st, _, h⟩ | ⟨hp, hlt, h⟩ | ⟨hne, _⟩
    · rw [h]
      have := (ih hp).1
      exact ⟨by show _ + 1 = k + 1; rw [this], by omega⟩
    · rw [h]
      have := (ih hp).1
      exact ⟨by show _ + 1 = k + 1; rw [this], by omega⟩
    · exact absurd hrun hne

/-- The loop of `conditional_execution` is left after at most `num_cmds + 1`
steps: the function returns, or stops on a `NULL` operator. -/
theorem conditional_execution_stops (n : Nat) (ops : List (Option Str))
    (wait : Nat → Option Nat) : (conditional_execution n ops wait).phase ≠ .running := by
  intro h
  have := (cond_iter_running n ops wait (n + 1) h).2
  omega

/-- A launched command was launched by some step, which left the loop running
at the next index with `last_result` set from the command's wait status. -/
theorem cond_iter_launched (n : Nat) (ops : List (Option Str)) (wait : Nat → Option Nat)
    (x : Nat) :
    ∀ k, x ∈ (cond_iter n ops wait k cond_init).launched →
      ∃ m st, (cond_iter n ops wait m cond_init).phase = .running
        ∧ (cond_iter n ops wait m cond_init).i = x + 1
        ∧ wait x = some st
        ∧ (cond_iter n ops wait m cond_init).last_result = exit_ok st := by
  intro k
  induction k with
  | zero => intro h; exact absurd h (List.not_mem_nil x)
  | succ k ih =>
    intro hx
    have hsucc := cond_iter_succ n ops wait k cond_init
    rcases cond_step_cases n ops wait (cond_iter n ops wait k cond_init) with
      ⟨hp, _, st, hw, h⟩ | ⟨_, _, h⟩ | ⟨_, h⟩
    · rw [hsucc, h] at hx
      rcases List.mem_append.mp hx with h2 | h2
      · exact ih h2
      · have hxi := List.mem_singleton.mp h2
        refine ⟨k + 1, st, ?_, ?_, ?_, ?_⟩
        · rw [hsucc, h]; exact hp
        · rw [hsucc, h]; show _ + 1 = x + 1; rw [hxi]
        · rw [hxi]; exact hw
        · rw [hsucc, h]
    · rw [hsucc, h] at hx
      exact ih hx
    · rw [hsucc, h] at hx
      exact ih hx

/-- The `continue` of the loop: at an operator `||` with `last_result` set,
the step only increments `i`. -/
theorem cond_step_skip (n : Nat) (ops : List (Option Str)) (wait : Nat → Option Nat)
    (s : CondState) (hrun : s.phase = .running) (hlt : s.i < n) (h0 : 0 < s.i)
    (hget : ops.getD (s.i - 1) none = some "||".toList) (hl : s.last_result = true) :
    cond_step n ops wait s = { s with i := s.i + 1 } := by
  unfold cond_step
  split
  · rw [if_pos hlt, if_pos h0]
    split
    · rename_i h
      rw [hget] at h
      exact absurd h (by simp)
    · rename_i op h
      rw [hget] at h
      have hop : op = "||".toList := (Option.some.inj h).symm
      rw [if_pos ⟨hop, hl⟩]
  · rename_i h
    exact absurd hrun h

/-! ### C4 -/

/-- C4. `conditional_execution`, AND short-circuit: whatever the commands,
the operator array and the outcomes, if command `i` is launched and does not
exit with status 0 and `ops[i]` is `&&`, then no command of index greater
than `i` is launched.  (No assumption on the other operators is needed.) -/
theorem conditional_and_short_circuit (num_cmds : Nat) (ops : List (Option Str))
    (wait : Nat → Option Nat) (i j status : Nat)
    (hl : i ∈ (conditional_execution num_cmds ops wait).launched)
    (hw : wait i = some status) (hfail : exit_ok status = false)
    (hop : ops.getD i none = some "&&".toList) (hj : i < j) :
    j ∉ (conditional_execution num_cmds ops wait).launched := by
  intro hmem
  have hinv := cond_inv_iter num_cmds ops wait (num_cmds + 1)
  have := (hinv.bad i hl status hw hfail hop).1 j hmem
  omega

/-- C4 on `c0 && c1 || c2` where `c0` exits with code 1: `c0` is launched and
`c2` is not. -/
theorem conditional_and_short_circuit_witness :
    0 ∈ (conditional_execution 3 [some "&&".toList, some "||".toList] c4_wait).launched
    ∧ 2 ∉ (conditional_execution 3 [some "&&".toList, some "||".toList] c4_wait).launched :=
  ⟨by decide,
   conditional_and_short_circuit 3 [some "&&".toList, some "||".toList] c4_wait 0 2 256
     (by decide) (by decide) (by decide) (by decide) (by decide)⟩

/-! ### C5 -/

/-- C5. `conditional_execution`, OR skip, for `num_cmds` commands and
`num_cmds - 1` operators: if command `i` is launched and exits with status 0
and `ops[i]` is `||`, then command `i + 1` is never launched, and the run
passes through a state at the head of iteration `i + 1` with `last_result`
success whose step changes nothing but `i`, which becomes `i + 2`: the loop
is still running and `last_result` after the skip is `last_result` before
it. -/
theorem conditional_or_skip (num_cmds : Nat) (ops : List (Option Str))
    (wait : Nat → Option Nat) (i status : Nat)
    (hwf : ops.length + 1 = num_cmds)
    (hl : i ∈ (conditional_execution num_cmds ops wait).launched)
    (hw : wait i = some status) (hok : exit_ok status = true)
    (hop : ops.getD i none = some "||".toList) :
    i + 1 ∉ (conditional_execution num_cmds ops wait).launched
    ∧ ∃ k s, s = cond_iter num_cmds ops wait k cond_init
        ∧ s.phase = .running ∧ s.i = i + 1 ∧ s.last_result = true
        ∧ (cond_step num_cmds ops wait s).i = i + 2
        ∧ (cond_step num_cmds ops wait s).last_result = s.last_result
        ∧ (cond_step num_cmds ops wait s).launched = s.launched
        ∧ (cond_step num_cmds ops wait s).phase = .running := by
  have hinv := cond_inv_iter num_cmds ops wait (num_cmds + 1)
  refine ⟨(hinv.good i hl status hw hok hop).1, ?_⟩
  obtain ⟨m, st, hrun, hi, hwst, hlast⟩ :=
    cond_iter_launched num_cmds ops wait i (num_cmds + 1) hl
  have hst : st = status := Option.some.inj (hwst.symm.trans hw)
  subst hst
  have hilt : i < ops.length := by
    by_contra hge
    rw [List.getD_eq_default _ _ (Nat.le_of_not_lt hge)] at hop
    exact absurd hop (by simp)
  have hlt : (cond_iter num_cmds ops wait m cond_init).i < num_cmds := by omega
  have h0 : 0 < (cond_iter num_cmds ops wait m cond_init).i := by omega
  have hget : ops.getD ((cond_iter num_cmds ops wait m cond_init).i - 1) none
      = some "||".toList := by
    rw [hi, Nat.add_sub_cancel]; exact hop
  have hlt2 : (cond_iter num_cmds ops wait m cond_init).last_result = true := by
    rw [hlast]; exact hok
  have hstep := cond_step_skip num_cmds ops wait _ hrun hlt h0 hget hlt2
  refine ⟨m, _, rfl, hrun, hi, hlt2, ?_, ?_, ?_, ?_⟩
  · rw [hstep]; show _ + 1 = i + 2; rw [hi]
  · rw [hstep]
  · rw [hstep]
  · rw [hstep]; exact hrun

/-- C5 on `c0 || c1 && c2` where every command exits with code 0: `c0` is
launched, `c1` is skipped, and the skip leaves `last_result` as it was. -/
theorem conditional_or_skip_witness :
    0 ∈ (conditional_execution 3 [some "||".toList, some "&&".toList] all_succeed).launched
    ∧ 1 ∉ (conditional_execution 3 [some "||".toList, some "&&".toList] all_succeed).launched
    ∧ (conditional_execution 3 [some "||".toList, some "&&".toList] all_succeed).launched
        = [0, 2] :=
  ⟨by decide,
   (conditional_or_skip 3 [some "||".toList, some "&&".toList] all_succeed 0 0
     (by decide) (by decide) (by decide) (by decide) (by decide)).1,
   by decide⟩

/-! ### C6 -/

/-- C6. The claim wants every command that splits to no token rejected
before a launcher sees it.  Only the conditional and the simple-command
branches count the tokens; the others pass the empty argv on: the middle
piece of `"a ; ; b"` reaches `sequential_execution`, that of `"a | | b"`
reaches `execute_pipe`, that of `"a = = b"` reaches `execute_reverse_pipe`,
and the command part of `" > f"` reaches `redirect_command`. -/
theorem empty_argv_reaches_launchers :
    dispatch "a ; ; b".toList = .sequential_execution [["a".toList], [], ["b".toList]]
    ∧ dispatch "a | | b".toList = .execute_pipe [["a".toList], [], ["b".toList]]
    ∧ dispatch "a = = b".toList = .execute_reverse_pipe [["a".toList], [], ["b".toList]]
    ∧ dispatch " > f".toList = .redirect_command [] none (some " f".toList) 0 := by
  decide

/-! ### C7 -/

/-- C7. The claim wants a conditional list with a missing operator rejected.
For `"true || echo no"` the dispatcher calls `conditional_execution` with
three commands and the operators `"||"`, `NULL`; when `true` exits with
status 0 the evaluator skips `echo` and then hands the `NULL` operator of the
gap between `echo` and `no` to `strcmp`. -/
theorem conditional_true_or_echo_no :
    dispatch "true || echo no".toList
      = .conditional_execution [["true".toList], ["echo".toList], ["no".toList]]
          [some "||".toList, none, none, none, none]
    ∧ conditional_execution 3 [some "||".toList, none, none, none, none] all_succeed
      = { i := 2, last_result := true, launched := [0], phase := .crashed } := by
  decide

/-! ### Descriptor tables -/

theorem fd_lookup_eq (t : FdTable) (fd : Nat) : fd_lookup t fd = (t[fd]?).getD none := by
  unfold fd_lookup
  exact List.getD_eq_getElem?_getD t fd none

theorem fd_lookup_of_le (t : FdTable) (fd : Nat) (h : t.length ≤ fd) : fd_lookup t fd = none := by
  rw [fd_lookup_eq, List.getElem?_eq_none h]
  rfl

/-- After `fd_set`, descriptor `fd` refers to `o` and the others are as
before. -/
theorem fd_lookup_set (t : FdTable) (fd : Nat) (o : Option Obj) (fd2 : Nat) :
    fd_lookup (fd_set t fd o) fd2 = if fd2 = fd then o else fd_lookup t fd2 := by
  unfold fd_set
  by_cases hlt : fd < t.length
  · rw [if_pos hlt, fd_lookup_eq, fd_lookup_eq, List.getElem?_set]
    by_cases h : fd2 = fd
    · subst h
      simp [hlt]
    · have h2 : ¬ fd = fd2 := fun e => h e.symm
      simp [h, h2]
  · rw [if_neg hlt]
    have hle : t.length ≤ fd := Nat.le_of_not_lt hlt
    by_cases h : fd2 = fd
    · subst h
      have hlen : (t ++ List.replicate (fd2 - t.length) (none : Option Obj)).length = fd2 := by
        rw [List.length_append, List.length_replicate]
        omega
      rw [if_pos rfl, fd_lookup_eq, List.getElem?_append_right (Nat.le_of_eq hlen), hlen,
        Nat.sub_self]
      rfl
    · rw [if_neg h]
      by_cases h3 : fd2 < t.length
      · rw [fd_lookup_eq, fd_lookup_eq, List.append_assoc, List.getElem?_append_left h3]
      · rw [fd_lookup_of_le t fd2 (Nat.le_of_not_lt h3), fd_lookup_eq, List.append_assoc,
          List.getElem?_append_right (Nat.le_of_not_lt h3)]
        by_cases h4 : fd2 - t.length < fd - t.length
        · rw [List.getElem?_append_left (by simpa using h4), List.getElem?_replicate_of_lt h4]
          rfl
        · rw [List.getElem?_append_right (by simpa using h4)]
          have : 1 ≤ fd2 - t.length - (List.replicate (fd - t.length) (none : Option Obj)).length := by
            simp only [List.length_replicate]
            omega
          rw [List.getElem?_eq_none (by simpa using this)]
          rfl

/-- The descriptor the kernel hands out next is closed. -/
theorem fd_lookup_lowest_free (t : FdTable) : fd_lookup t (lowest_free t) = none := by
  unfold lowest_free
  by_cases h : t.findIdx (fun o => o.isNone) < t.length
  · have hp := List.findIdx_getElem (w := h)
    rw [fd_lookup_eq, List.getElem?_eq_getElem h]
    simpa using hp
  · exact fd_lookup_of_le t _ (Nat.le_of_not_lt h)

theorem fd_lookup_close (t : FdTable) (fd fd2 : Nat) :
    fd_lookup (sys_close t fd) fd2 = if fd2 = fd then none else fd_lookup t fd2 :=
  fd_lookup_set t fd none fd2

theorem fd_lookup_dup2 (t : FdTable) (oldfd newfd : Nat) (o : Obj)
    (h : fd_lookup t oldfd = some o) (fd2 : Nat) :
    fd_lookup (sys_dup2 t oldfd newfd) fd2 = if fd2 = newfd then some o else fd_lookup t fd2 := by
  unfold sys_dup2
  rw [h]
  exact fd_lookup_set t newfd (some o) fd2

theorem fd_lookup_close_list (l : List Nat) :
    ∀ (t : FdTable) (fd : Nat),
      fd_lookup (l.foldl sys_close t) fd = if fd ∈ l then none else fd_lookup t fd := by
  induction l with
  | nil => intro t fd; simp
  | cons a l ih =>
    intro t fd
    rw [List.foldl_cons, ih, fd_lookup_close]
    by_cases h1 : fd ∈ l
    · simp [h1]
    · by_cases h2 : fd = a
      · simp [h2]
      · simp [h1, h2]

theorem range_map_getD (l : List Nat) :
    (List.range l.length).map (fun j => l.getD j 0) = l := by
  apply List.ext_getElem
  · simp
  · intro n h1 h2
    simp only [List.getElem_map, List.getElem_range]
    exact List.getD_eq_getElem _ _ h2

theorem close_all_eq (n : Nat) (pipefd : List Nat) (t : FdTable)
    (hlen : pipefd.length = 2 * (n - 1)) :
    close_all n pipefd t = pipefd.foldl sys_close t := by
  unfold close_all
  rw [← hlen]
  conv_rhs => rw [← range_map_getD pipefd]
  rw [List.foldl_map]

theorem mem_getD (l : List Nat) (fd : Nat) (h : fd ∈ l) : ∃ j, j < l.length ∧ l.getD j 0 = fd := by
  obtain ⟨j, hj, he⟩ := List.getElem_of_mem h
  exact ⟨j, hj, by rw [List.getD_eq_getElem _ _ hj]; exact he⟩

theorem getD_mem (l : List Nat) (j : Nat) (h : j < l.length) : l.getD j 0 ∈ l := by
  rw [List.getD_eq_getElem _ _ h]
  exact List.getElem_mem h

theorem pipes_inv_open (t0 t : FdTable) (pipefd : List Nat) (hinv : PipesInv t0 t pipefd)
    (fd : Nat) (h : fd ∈ pipefd) : fd_lookup t fd ≠ none := by
  obtain ⟨j, hj, he⟩ := mem_getD pipefd fd h
  rw [← he, hinv.ends j hj]
  simp

theorem pipes_inv_init (t0 : FdTable) : PipesInv t0 t0 [] :=
  { ends := fun j hj => absurd hj (Nat.not_lt_zero j),
    fresh := fun fd h => absurd h (List.not_mem_nil fd),
    rest := fun _ _ => rfl }

/-- A successful `pipe` call keeps the invariant, with the two new
descriptors appended to `pipefd`. -/
theorem pipes_inv_pipe (t0 t : FdTable) (pipefd : List Nat) (c : Nat)
    (hinv : PipesInv t0 t pipefd) (hlen : pipefd.length = 2 * c) :
    PipesInv t0 (sys_pipe t c).1 (pipefd ++ [(sys_pipe t c).2.1, (sys_pipe t c).2.2]) := by
  have hr := fd_lookup_lowest_free t
  have hw := fd_lookup_lowest_free (fd_set t (lowest_free t) (some (.chan_read c)))
  generalize hrd : lowest_free t = r at hr hw
  generalize hwd : lowest_free (fd_set t r (some (.chan_read c))) = w at hw
  have hpipe : sys_pipe t c
      = (fd_set (fd_set t r (some (.chan_read c))) w (some (.chan_write c)), r, w) := by
    unfold sys_pipe
    simp only [hrd, hwd]
  rw [hpipe]
  simp only []
  have hwr : w ≠ r := by
    intro e
    rw [fd_lookup_set, if_pos e] at hw
    exact absurd hw (by simp)
  have hrn : r ∉ pipefd := fun h => pipes_inv_open t0 t pipefd hinv r h hr
  have hwn : w ∉ pipefd := by
    intro h
    rw [fd_lookup_set, if_neg hwr] at hw
    exact pipes_inv_open t0 t pipefd hinv w h hw
  have hw2 : fd_lookup t w = none := by
    rw [fd_lookup_set, if_neg hwr] at hw
    exact hw
  refine { ends := ?_, fresh := ?_, rest := ?_ }
  · intro j hj
    simp only [List.length_append, List.length_cons, List.length_nil] at hj
    by_cases hjl : j < pipefd.length
    · have hget : (pipefd ++ [r, w]).getD j 0 = pipefd.getD j 0 := by
        rw [List.getD_eq_getElem?_getD, List.getD_eq_getElem?_getD,
          List.getElem?_append_left hjl]
      have hmem := getD_mem pipefd j hjl
      have h1 : pipefd.getD j 0 ≠ w := fun e => hwn (e ▸ hmem)
      have h2 : pipefd.getD j 0 ≠ r := fun e => hrn (e ▸ hmem)
      rw [hget, fd_lookup_set, if_neg h1, fd_lookup_set, if_neg h2]
      exact hinv.ends j hjl
    · by_cases hj0 : j = pipefd.length
      · have hget : (pipefd ++ [r, w]).getD j 0 = r := by
          rw [List.getD_eq_getElem?_getD, List.getElem?_append_right (Nat.le_of_eq hj0.symm),
            hj0, Nat.sub_self]
          rfl
        rw [hget, fd_lookup_set, if_neg hwr.symm, fd_lookup_set, if_pos rfl]
        have h1 : j % 2 = 0 := by omega
        have h2 : j / 2 = c := by omega
        simp only [chan_end, h1, h2, if_true]
      · have hj1 : j = pipefd.length + 1 := by omega
        have hget : (pipefd ++ [r, w]).getD j 0 = w := by
          rw [List.getD_eq_getElem?_getD,
            List.getElem?_append_right (by omega), hj1, Nat.add_sub_cancel_left]
          rfl
        rw [hget, fd_lookup_set, if_pos rfl]
        have h1 : ¬ (j % 2 = 0) := by omega
        have h2 : j / 2 = c := by omega
        simp only [chan_end, h1, h2, if_false]
  · intro fd hfd
    rcases List.mem_append.mp hfd with h | h
    · exact hinv.fresh fd h
    · simp only [List.mem_cons, List.mem_singleton, List.not_mem_nil, or_false] at h
      rcases h with h | h
      · rw [h, ← hinv.rest r hrn]; exact hr
      · rw [h, ← hinv.rest w hwn]; exact hw2
  · intro fd hfd
    have h1 : fd ∉ pipefd := fun h => hfd (List.mem_append_left _ h)
    have h2 : fd ≠ r := fun e => hfd (List.mem_append_right _ (by simp [e]))
    have h3 : fd ≠ w := fun e => hfd (List.mem_append_right _ (by simp [e]))
    rw [fd_lookup_set, if_neg h3, fd_lookup_set, if_neg h2]
    exact hinv.rest fd h1

/-- When every `pipe` call succeeds the first loop of `execute_pipe` ends
with all channels created and the invariant in place. -/
theorem create_pipes_ok (pipe_ok : Nat → Bool) (t0 : FdTable) :
    ∀ (k i : Nat) (t : FdTable) (pipefd : List Nat),
      PipesInv t0 t pipefd → pipefd.length = 2 * i →
      (∀ c, c < i + k → pipe_ok c = true) →
      ∃ t2 pipefd2, create_pipes pipe_ok k i t pipefd = some (t2, pipefd2)
        ∧ PipesInv t0 t2 pipefd2 ∧ pipefd2.length = 2 * (i + k) := by
  intro k
  induction k with
  | zero =>
    intro i t pipefd hinv hlen _
    exact ⟨t, pipefd, rfl, hinv, hlen⟩
  | succ k ih =>
    intro i t pipefd hinv hlen hok
    have hi : pipe_ok i = true := hok i (by omega)
    unfold create_pipes
    rw [if_pos hi]
    obtain ⟨t2, p2, h1, h2, h3⟩ := ih (i + 1) (sys_pipe t i).1
      (pipefd ++ [(sys_pipe t i).2.1, (sys_pipe t i).2.2])
      (pipes_inv_pipe t0 t pipefd i hinv hlen)
      (by simp only [List.length_append, List.length_cons, List.length_nil]; omega)
      (fun c hc => hok c (by omega))
    exact ⟨t2, p2, h1, h2, by rw [h3]; omega⟩

/-! ### execute_pipe -/

/-- The table of the child for command `i` when it calls `execvp`:
descriptor 0 is the read end of channel `i - 1` unless `i = 0`, descriptor 1
is the write end of channel `i` unless `i` is the last stage, and every other
descriptor is what it was on entry to `execute_pipe`. -/
theorem child_stage_fds (commands : List (List Str)) (n : Nat) (t0 t : FdTable)
    (pipefd : List Nat) (i : Nat) (hinv : PipesInv t0 t pipefd)
    (hlen : pipefd.length = 2 * (n - 1)) (hi : i < n)
    (h0 : fd_lookup t0 0 ≠ none) (h1 : fd_lookup t0 1 ≠ none) (fd : Nat) :
    fd_lookup (child_stage commands n pipefd t i).fds fd =
      if fd = 0 ∧ 0 < i then some (.chan_read (i - 1))
      else if fd = 1 ∧ i < n - 1 then some (.chan_write i)
      else fd_lookup t0 fd := by
  have hn0 : 0 ∉ pipefd := fun h => h0 (hinv.fresh 0 h)
  have hn1 : 1 ∉ pipefd := fun h => h1 (hinv.fresh 1 h)
  -- after the first `dup2`
  have ht1 : ∀ x, fd_lookup (if 0 < i then sys_dup2 t (pipefd.getD ((i - 1) * 2) 0) 0 else t) x
      = if x = 0 ∧ 0 < i then some (.chan_read (i - 1)) else fd_lookup t x := by
    intro x
    by_cases hpos : 0 < i
    · have hj : (i - 1) * 2 < pipefd.length := by omega
      have hend : chan_end ((i - 1) * 2) = .chan_read (i - 1) := by
        have e1 : (i - 1) * 2 % 2 = 0 := by omega
        have e2 : (i - 1) * 2 / 2 = i - 1 := by omega
        simp only [chan_end, e1, e2, if_true]
      rw [if_pos hpos, fd_lookup_dup2 t _ 0 _ (by rw [hinv.ends _ hj, hend])]
      by_cases hx : x = 0
      · rw [if_pos hx, if_pos ⟨hx, hpos⟩]
      · rw [if_neg hx, if_neg (fun h => hx h.1)]
    · rw [if_neg hpos, if_neg (fun h => hpos h.2)]
  have key : ∀ t1 : FdTable,
      (∀ x, fd_lookup t1 x
        = if x = 0 ∧ 0 < i then some (.chan_read (i - 1)) else fd_lookup t x) →
      fd_lookup (close_all n pipefd
        (if i < n - 1 then sys_dup2 t1 (pipefd.getD (i * 2 + 1) 0) 1 else t1)) fd =
      if fd = 0 ∧ 0 < i then some (.chan_read (i - 1))
      else if fd = 1 ∧ i < n - 1 then some (.chan_write i)
      else fd_lookup t0 fd := by
    intro t1 ht1
    -- after the second `dup2`
    have ht2 : ∀ x,
        fd_lookup (if i < n - 1 then sys_dup2 t1 (pipefd.getD (i * 2 + 1) 0) 1 else t1) x
          = if x = 1 ∧ i < n - 1 then some (.chan_write i) else fd_lookup t1 x := by
      intro x
      by_cases hlast : i < n - 1
      · have hj : i * 2 + 1 < pipefd.length := by omega
        have hend : chan_end (i * 2 + 1) = .chan_write i := by
          have e1 : ¬ ((i * 2 + 1) % 2 = 0) := by omega
          have e2 : (i * 2 + 1) / 2 = i := by omega
          simp only [chan_end, e1, e2, if_false]
        have hne : pipefd.getD (i * 2 + 1) 0 ≠ 0 := fun e => hn0 (e ▸ getD_mem pipefd _ hj)
        have hold : fd_lookup t1 (pipefd.getD (i * 2 + 1) 0) = some (.chan_write i) := by
          rw [ht1, if_neg (fun h => hne h.1), hinv.ends _ hj, hend]
        rw [if_pos hlast, fd_lookup_dup2 t1 _ 1 _ hold]
        by_cases hx : x = 1
        · rw [if_pos hx, if_pos ⟨hx, hlast⟩]
        · rw [if_neg hx, if_neg (fun h => hx h.1)]
      · rw [if_neg hlast, if_neg (fun h => hlast h.2)]
    rw [close_all_eq n pipefd _ hlen, fd_lookup_close_list, ht2, ht1]
    by_cases hmem : fd ∈ pipefd
    · have hf0 : fd ≠ 0 := fun e => hn0 (e ▸ hmem)
      have hf1 : fd ≠ 1 := fun e => hn1 (e ▸ hmem)
      rw [if_pos hmem, if_neg (fun h => hf0 h.1), if_neg (fun h => hf1 h.1), hinv.fresh fd hmem]
    · rw [if_neg hmem, hinv.rest fd hmem]
      by_cases c0 : fd = 0 ∧ 0 < i
      · have : ¬ (fd = 1 ∧ i < n - 1) := fun h => by omega
        rw [if_neg this, if_pos c0, if_pos c0]
      · rw [if_neg c0, if_neg c0]
  exact key _ ht1

/-- The parent's table after its closing loop is the table on entry. -/
theorem parent_fds (n : Nat) (t0 t : FdTable) (pipefd : List Nat)
    (hinv : PipesInv t0 t pipefd) (hlen : pipefd.length = 2 * (n - 1)) (fd : Nat) :
    fd_lookup (close_all n pipefd t) fd = fd_lookup t0 fd := by
  rw [close_all_eq n pipefd _ hlen, fd_lookup_close_list]
  by_cases hmem : fd ∈ pipefd
  · rw [if_pos hmem, hinv.fresh fd hmem]
  · rw [if_neg hmem, hinv.rest fd hmem]

theorem stages_getD (f : Nat → Option Stage) (n i : Nat) :
    ((List.range n).map f).getD i none = if i < n then f i else none := by
  by_cases h : i < n
  · rw [if_pos h, List.getD_eq_getElem _ _ (by simpa using h)]
    simp
  · rw [if_neg h, List.getD_eq_default _ _ (by simpa using h)]

/-- The child that `execute_pipe` forks for command `i` runs `commands[i]`. -/
theorem execute_pipe_stage_argv (commands : List (List Str)) (n : Nat) (t0 : FdTable)
    (pipe_ok fork_ok : Nat → Bool) (r : PipeRun)
    (hr : execute_pipe commands n t0 pipe_ok fork_ok = some r) (i : Nat) (st : Stage)
    (hst : r.stages.getD i none = some st) : i < n ∧ st.argv = commands.getD i [] := by
  unfold execute_pipe at hr
  cases hc : create_pipes pipe_ok (n - 1) 0 t0 [] with
  | none => rw [hc] at hr; exact absurd hr (by simp)
  | some p =>
    rw [hc] at hr
    have hr2 := Option.some.inj hr
    rw [← hr2] at hst
    simp only [] at hst
    rw [stages_getD] at hst
    by_cases hi : i < n
    · rw [if_pos hi] at hst
      by_cases hf : fork_ok i = true
      · rw [if_pos hf] at hst
        rw [← Option.some.inj hst]
        exact ⟨hi, rfl⟩
      · rw [if_neg hf] at hst
        exact absurd hst (by simp)
    · rw [if_neg hi] at hst
      exact absurd hst (by simp)

/-! ### C8 -/

theorem reversed_eq_reverse (commands : List (List Str)) :
    (List.range commands.length).map (fun i => commands.getD (commands.length - i - 1) [])
      = commands.reverse := by
  apply List.ext_getElem
  · simp
  · intro i h1 h2
    have hi : i < commands.length := by simpa using h1
    rw [List.getElem_map, List.getElem_range, List.getElem_reverse,
      List.getD_eq_getElem _ _ (by omega)]
    congr 1
    omega

/-- C8. `execute_reverse_pipe` is `execute_pipe` on the reversed list: for a
list of `n >= 1` commands the two calls give the same result, and the child
forked as stage `i` runs `commands[n - 1 - i]`. -/
theorem execute_reverse_pipe_reversed (commands : List (List Str)) (t0 : FdTable)
    (pipe_ok fork_ok : Nat → Bool) (_hn : 1 ≤ commands.length) :
    execute_reverse_pipe commands commands.length t0 pipe_ok fork_ok
      = execute_pipe commands.reverse commands.length t0 pipe_ok fork_ok
    ∧ ∀ r, execute_reverse_pipe commands commands.length t0 pipe_ok fork_ok = some r →
        ∀ i st, r.stages.getD i none = some st →
          i < commands.length ∧ st.argv = commands.getD (commands.length - 1 - i) [] := by
  have heq : execute_reverse_pipe commands commands.length t0 pipe_ok fork_ok
      = execute_pipe commands.reverse commands.length t0 pipe_ok fork_ok := by
    unfold execute_reverse_pipe
    rw [reversed_eq_reverse]
  refine ⟨heq, ?_⟩
  intro r hr i st hst
  rw [heq] at hr
  obtain ⟨hi, harg⟩ := execute_pipe_stage_argv _ _ _ _ _ r hr i st hst
  refine ⟨hi, ?_⟩
  rw [harg, List.getD_eq_getElem _ _ (by simpa using hi), List.getElem_reverse,
    List.getD_eq_getElem _ _ (by omega)]

/-- C8 on `[A, B, C]`: the stages of the reverse pipeline run `C`, `B`, `A`. -/
theorem execute_reverse_pipe_reversed_witness :
    (execute_reverse_pipe abc_commands 3 std_table always_ok always_ok).map
        (fun r => r.stages.map (fun st => st.map (fun x => x.argv)))
      = some [some ["C".toList], some ["B".toList], some ["A".toList]]
    ∧ execute_reverse_pipe abc_commands 3 std_table always_ok always_ok
      = execute_pipe [["C".toList], ["B".toList], ["A".toList]] 3 std_table always_ok always_ok :=
  ⟨by decide,
   (execute_reverse_pipe_reversed abc_commands std_table always_ok always_ok (by decide)).1⟩

/-! ### C9 -/

/-- C9. Pipeline wiring in `execute_pipe`, run by a process whose standard
input and output are open, when every `pipe` call succeeds: the call returns,
with one slot per command; the child forked for stage `i` runs `commands[i]`;
at `execvp` its descriptor 0 refers to the read end of channel `i - 1` when
`i > 0` and is the inherited one when `i = 0`; its descriptor 1 refers to the
write end of channel `i` when `i < N - 1` and is the inherited one when
`i = N - 1`.  So the writer of channel `i` is stage `i` and its reader is
stage `i + 1`. -/
theorem execute_pipe_wiring (commands : List (List Str)) (num_cmds : Nat) (t0 : FdTable)
    (pipe_ok fork_ok : Nat → Bool) (_hn : 1 ≤ num_cmds)
    (hstd : fd_lookup t0 0 ≠ none ∧ fd_lookup t0 1 ≠ none)
    (hpipe : ∀ c, c < num_cmds - 1 → pipe_ok c = true) :
    ∃ r, execute_pipe commands num_cmds t0 pipe_ok fork_ok = some r
      ∧ r.stages.length = num_cmds
      ∧ ∀ i, i < num_cmds →
          (fork_ok i = false → r.stages.getD i none = none)
          ∧ (fork_ok i = true → ∃ st, r.stages.getD i none = some st
              ∧ st.argv = commands.getD i []
              ∧ fd_lookup st.fds 0
                  = (if 0 < i then some (.chan_read (i - 1)) else fd_lookup t0 0)
              ∧ fd_lookup st.fds 1
                  = (if i < num_cmds - 1 then some (.chan_write i) else fd_lookup t0 1)) := by
  obtain ⟨t, pipefd, hc, hinv, hlen⟩ := create_pipes_ok pipe_ok t0 (num_cmds - 1) 0 t0 []
    (pipes_inv_init t0) rfl (fun c hc => hpipe c (by omega))
  have hlen2 : pipefd.length = 2 * (num_cmds - 1) := by rw [hlen]; omega
  unfold execute_pipe
  rw [hc]
  refine ⟨_, rfl, by simp, ?_⟩
  intro i hi
  simp only []
  rw [stages_getD, if_pos hi]
  constructor
  · intro hf
    rw [hf]
    rfl
  · intro hf
    rw [if_pos hf]
    refine ⟨_, rfl, rfl, ?_, ?_⟩
    · rw [child_stage_fds commands num_cmds t0 t pipefd i hinv hlen2 hi hstd.1 hstd.2 0]
      by_cases hpos : 0 < i
      · rw [if_pos ⟨rfl, hpos⟩, if_pos hpos]
      · rw [if_neg (fun h => hpos h.2), if_neg (fun h => absurd h.1 (by decide)), if_neg hpos]
    · rw [child_stage_fds commands num_cmds t0 t pipefd i hinv hlen2 hi hstd.1 hstd.2 1]
      by_cases hlast : i < num_cmds - 1
      · rw [if_neg (fun h => absurd h.1 (by decide)), if_pos ⟨rfl, hlast⟩, if_pos hlast]
      · rw [if_neg (fun h => absurd h.1 (by decide)), if_neg (fun h => hlast h.2), if_neg hlast]

/-- C9 on three commands started from a terminal: the call returns three
stages wired as stated. -/
theorem execute_pipe_wiring_witness :
    ∃ r, execute_pipe abc_commands 3 std_table always_ok always_ok = some r
      ∧ r.stages.length = 3
      ∧ ∀ i, i < 3 →
          (always_ok i = false → r.stages.getD i none = none)
          ∧ (always_ok i = true → ∃ st, r.stages.getD i none = some st
              ∧ st.argv = abc_commands.getD i []
              ∧ fd_lookup st.fds 0
                  = (if 0 < i then some (.chan_read (i - 1)) else fd_lookup std_table 0)
              ∧ fd_lookup st.fds 1
                  = (if i < 3 - 1 then some (.chan_write i) else fd_lookup std_table 1)) :=
  execute_pipe_wiring abc_commands 3 std_table always_ok always_ok (by decide)
    ⟨by decide, by decide⟩ (fun _ _ => rfl)

/-! ### C10 -/

/-- C10. Endpoint cleanup in `execute_pipe`, run by a process whose standard
input and output are open, when every `pipe` call succeeds: the first loop
puts the `2 (N - 1)` channel ends on descriptors `pipefd` that were closed on
entry; the call returns; in every child, at `execvp`, each descriptor of
`pipefd` is closed (none of them is 0 or 1) and every descriptor other than
0 and 1 is what it was on entry; in the parent, at the return, each
descriptor of `pipefd` is closed and the whole table is the table on entry. -/
theorem execute_pipe_cleanup (commands : List (List Str)) (num_cmds : Nat) (t0 : FdTable)
    (pipe_ok fork_ok : Nat → Bool) (_hn : 1 ≤ num_cmds)
    (hstd : fd_lookup t0 0 ≠ none ∧ fd_lookup t0 1 ≠ none)
    (hpipe : ∀ c, c < num_cmds - 1 → pipe_ok c = true) :
    ∃ r t pipefd, create_pipes pipe_ok (num_cmds - 1) 0 t0 [] = some (t, pipefd)
      ∧ pipefd.length = 2 * (num_cmds - 1)
      ∧ (∀ j, j < pipefd.length → fd_lookup t (pipefd.getD j 0) = some (chan_end j))
      ∧ execute_pipe commands num_cmds t0 pipe_ok fork_ok = some r
      ∧ (∀ i st, r.stages.getD i none = some st →
          (∀ fd ∈ pipefd, fd ≠ 0 ∧ fd ≠ 1 ∧ fd_lookup st.fds fd = none)
          ∧ (∀ fd, 2 ≤ fd → fd_lookup st.fds fd = fd_lookup t0 fd))
      ∧ (∀ fd ∈ pipefd, fd_lookup r.parent fd = none)
      ∧ (∀ fd, fd_lookup r.parent fd = fd_lookup t0 fd) := by
  obtain ⟨t, pipefd, hc, hinv, hlen⟩ := create_pipes_ok pipe_ok t0 (num_cmds - 1) 0 t0 []
    (pipes_inv_init t0) rfl (fun c hc => hpipe c (by omega))
  have hlen2 : pipefd.length = 2 * (num_cmds - 1) := by rw [hlen]; omega
  have hn0 : ∀ fd ∈ pipefd, fd ≠ 0 := fun fd h e => hstd.1 (e ▸ hinv.fresh fd h)
  have hn1 : ∀ fd ∈ pipefd, fd ≠ 1 := fun fd h e => hstd.2 (e ▸ hinv.fresh fd h)
  have hparent := parent_fds num_cmds t0 t pipefd hinv hlen2
  refine ⟨_, t, pipefd, hc, hlen2, hinv.ends, by unfold execute_pipe; rw [hc], ?_, ?_, ?_⟩
  · intro i st hst
    simp only [] at hst
    rw [stages_getD] at hst
    by_cases hi : i < num_cmds
    · rw [if_pos hi] at hst
      by_cases hf : fork_ok i = true
      · rw [if_pos hf] at hst
        have hst2 := Option.some.inj hst
        subst hst2
        have hfds := child_stage_fds commands num_cmds t0 t pipefd i hinv hlen2 hi
          hstd.1 hstd.2
        constructor
        · intro fd hfd
          refine ⟨hn0 fd hfd, hn1 fd hfd, ?_⟩
          rw [hfds, if_neg (fun h => hn0 fd hfd h.1), if_neg (fun h => hn1 fd hfd h.1)]
          exact hinv.fresh fd hfd
        · intro fd hfd
          rw [hfds, if_neg (fun h => by omega), if_neg (fun h => by omega)]
      · rw [if_neg hf] at hst
        exact absurd hst (by simp)
    · rw [if_neg hi] at hst
      exact absurd hst (by simp)
  · intro fd hfd
    show fd_lookup (close_all num_cmds pipefd t) fd = none
    rw [hparent, hinv.fresh fd hfd]
  · intro fd
    exact hparent fd

/-- C10 on three commands started from a terminal. -/
theorem execute_pipe_cleanup_witness :
    ∃ r t pipefd, create_pipes always_ok (3 - 1) 0 std_table [] = some (t, pipefd)
      ∧ pipefd.length = 2 * (3 - 1)
      ∧ (∀ j, j < pipefd.length → fd_lookup t (pipefd.getD j 0) = some (chan_end j))
      ∧ execute_pipe abc_commands 3 std_table always_ok always_ok = some r
      ∧ (∀ i st, r.stages.getD i none = some st →
          (∀ fd ∈ pipefd, fd ≠ 0 ∧ fd ≠ 1 ∧ fd_lookup st.fds fd = none)
          ∧ (∀ fd, 2 ≤ fd → fd_lookup st.fds fd = fd_lookup std_table fd))
      ∧ (∀ fd ∈ pipefd, fd_lookup r.parent fd = none)
      ∧ (∀ fd, fd_lookup r.parent fd = fd_lookup std_table fd) :=
  execute_pipe_cleanup abc_commands 3 std_table always_ok always_ok (by decide)
    ⟨by decide, by decide⟩ (fun _ _ => rfl)

/-! ### Tokens are maximal runs -/

theorem maximal_runs_nil (delim : Str) : maximal_runs delim [] = [] := rfl

theorem maximal_runs_cons_delim (delim : Str) (x : Char) (xs : Str)
    (hx : delim.contains x = true) : maximal_runs delim (x :: xs) = maximal_runs delim xs := by
  unfold maximal_runs
  rw [List.splitOnP_cons, if_pos hx]
  rfl

theorem maximal_runs_dropWhile (delim : Str) (s : Str) :
    maximal_runs delim (s.dropWhile (fun c => delim.contains c)) = maximal_runs delim s := by
  induction s with
  | nil => rfl
  | cons x xs ih =>
    by_cases hx : delim.contains x = true
    · rw [List.dropWhile_cons_of_pos hx, ih, maximal_runs_cons_delim delim x xs hx]
    · rw [List.dropWhile_cons_of_neg hx]

theorem dropWhile_head_false {α : Type} (q : α → Bool) :
    ∀ (l : List α) (c : α) (cs : List α), l.dropWhile q = c :: cs → q c = false := by
  intro l
  induction l with
  | nil => intro c cs h; exact absurd h (by simp)
  | cons a l ih =>
    intro c cs h
    by_cases ha : q a = true
    · rw [List.dropWhile_cons_of_pos ha] at h
      exact ih c cs h
    · rw [List.dropWhile_cons_of_neg ha] at h
      injection h with h1 _
      rw [← h1]
      exact Bool.eq_false_iff.mpr ha

/-- What `strtok_r` returns is the first maximal run, and the text it leaves
holds the remaining ones. -/
theorem maximal_runs_strtok_r (delim s : Str) :
    maximal_runs delim s =
      match strtok_r s delim with
      | none => []
      | some (tok, rest) => tok :: maximal_runs delim rest := by
  rw [← maximal_runs_dropWhile]
  unfold strtok_r
  cases hd : s.dropWhile (fun c => delim.contains c) with
  | nil => rfl
  | cons c cs =>
    simp only []
    have hc : ¬ (delim.contains c = true) :=
      Bool.eq_false_iff.mp (dropWhile_head_false (fun c => delim.contains c) s c cs hd)
    have hsplit := List.takeWhile_append_dropWhile (fun x => !delim.contains x) (c :: cs)
    have htake : ∀ x ∈ (c :: cs).takeWhile (fun x => !delim.contains x),
        ¬ ((fun c => delim.contains c) x = true) := by
      intro x hx
      have := List.mem_takeWhile_imp hx
      simpa using this
    have hne : (c :: cs).takeWhile (fun x => !delim.contains x) ≠ [] := by
      rw [List.takeWhile_cons_of_pos (by simpa using hc)]
      exact List.cons_ne_nil _ _
    generalize (c :: cs).takeWhile (fun x => !delim.contains x) = tok at hsplit htake hne
    cases hdrop : (c :: cs).dropWhile (fun x => !delim.contains x) with
    | nil =>
      rw [hdrop, List.append_nil] at hsplit
      rw [← hsplit]
      unfold maximal_runs
      rw [List.splitOnP_eq_single _ _ htake]
      cases tok with
      | nil => exact absurd rfl hne
      | cons a l => rfl
    | cons y ys =>
      rw [hdrop] at hsplit
      have hy : delim.contains y = true := by
        have := dropWhile_head_false (fun x => !delim.contains x) (c :: cs) y ys hdrop
        simpa using this
      rw [← hsplit]
      unfold maximal_runs
      rw [List.splitOnP_first _ _ htake y hy]
      cases tok with
      | nil => exact absurd rfl hne
      | cons a l => rfl

/-- The loop of `split_command` collects maximal runs until five arguments
are stored. -/
theorem split_loop_runs :
    ∀ (fuel : Nat) (s : Str) (acc : List Str), s.length < fuel → acc.length ≤ 5 →
      split_loop fuel (strtok_r s DELIM) acc
        = acc ++ (maximal_runs DELIM s).take (5 - acc.length) := by
  intro fuel
  induction fuel with
  | zero => intro s acc h _; exact absurd h (Nat.not_lt_zero _)
  | succ fuel ih =>
    intro s acc hf hacc
    rw [maximal_runs_strtok_r DELIM s]
    cases htok : strtok_r s DELIM with
    | none => simp [split_loop]
    | some p =>
      obtain ⟨tok, rest⟩ := p
      have hrest := strtok_r_rest_length s DELIM tok rest htok
      have hcap : MAX_ARGS - 1 = 5 := rfl
      simp only [split_loop, hcap]
      by_cases hlt : acc.length < 5
      · rw [if_pos hlt, ih rest (acc ++ [tok]) (by omega)
          (by simp only [List.length_append, List.length_singleton]; omega)]
        have h5 : 5 - acc.length = (5 - (acc ++ [tok]).length) + 1 := by
          simp only [List.length_append, List.length_singleton]; omega
        rw [h5, List.take_succ_cons, List.append_assoc]
        rfl
      · rw [if_neg hlt]
        have h0 : 5 - acc.length = 0 := by omega
        rw [h0, List.take_zero, List.append_nil]

/-- The arguments that `split_command` returns are the first five maximal
runs of non-`DELIM` characters of the command. -/
theorem split_command_eq_runs (command : Str) :
    split_command command = (maximal_runs DELIM command).take 5 := by
  unfold split_command
  rw [split_loop_runs _ command [] (Nat.lt_succ_self _) (Nat.zero_le _)]
  rfl

/-- The delimiter-mode loop of `parse_input` collects trimmed maximal runs
until `MAX_CMDS` commands are stored. -/
theorem parse_delim_loop_runs (d : Str) :
    ∀ (fuel : Nat) (s : Str) (acc : List Str), s.length < fuel → acc.length ≤ 6 →
      parse_delim_loop d fuel (strtok_r s d) acc
        = acc ++ ((maximal_runs d s).take (6 - acc.length)).map trim_whitespace := by
  intro fuel
  induction fuel with
  | zero => intro s acc h _; exact absurd h (Nat.not_lt_zero _)
  | succ fuel ih =>
    intro s acc hf hacc
    rw [maximal_runs_strtok_r d s]
    cases htok : strtok_r s d with
    | none => simp [parse_delim_loop]
    | some p =>
      obtain ⟨tok, rest⟩ := p
      have hrest := strtok_r_rest_length s d tok rest htok
      have hcap : MAX_CMDS = 6 := rfl
      simp only [parse_delim_loop, hcap]
      by_cases hlt : acc.length < 6
      · rw [if_pos hlt, ih rest (acc ++ [trim_whitespace tok]) (by omega)
          (by simp only [List.length_append, List.length_singleton]; omega)]
        have h6 : 6 - acc.length = (6 - (acc ++ [trim_whitespace tok]).length) + 1 := by
          simp only [List.length_append, List.length_singleton]; omega
        rw [h6, List.take_succ_cons, List.map_cons, List.append_assoc]
        rfl
      · rw [if_neg hlt]
        have h0 : 6 - acc.length = 0 := by omega
        rw [h0, List.take_zero, List.map_nil, List.append_nil]

/-- In delimiter mode `parse_input` returns the first `MAX_CMDS` maximal runs
of non-delimiter characters, each trimmed. -/
theorem parse_input_delim_eq_runs (line : Str) (operators : List (Option Str)) (d : Str) :
    (parse_input line operators (some d)).1
      = ((maximal_runs d line).take 6).map trim_whitespace := by
  show parse_delim_loop d (line.length + 1) (strtok_r line d) [] = _
  rw [parse_delim_loop_runs d _ line [] (Nat.lt_succ_self _) (Nat.zero_le _)]
  rfl

/-! ### C11 -/

theorem launch_attempts_append (a b : List ShellOp) :
    launch_attempts (a ++ b) = launch_attempts a ++ launch_attempts b := by
  unfold launch_attempts
  exact List.filterMap_append _ _ _

theorem launch_attempts_execute_command (args : List Str) (outcome : Option Nat) :
    launch_attempts (execute_command args outcome) = [args] := by
  cases outcome <;> rfl

theorem launch_attempts_seq_loop (commands : List (List Str)) (outcome : Nat → Option Nat) :
    ∀ k i, i + k ≤ commands.length →
      launch_attempts (seq_loop commands outcome k i) = (commands.drop i).take k := by
  intro k
  induction k with
  | zero => intro i _; simp [seq_loop, launch_attempts]
  | succ k ih =>
    intro i hi
    have hlt : i < commands.length := by omega
    rw [seq_loop, launch_attempts_append, launch_attempts_execute_command, ih (i + 1) (by omega),
      List.getD_eq_getElem _ _ hlt, List.drop_eq_getElem_cons hlt, List.take_succ_cons]
    rfl

theorem seq_loop_split (commands : List (List Str)) (outcome : Nat → Option Nat) :
    ∀ a b i, seq_loop commands outcome (a + (b + 1)) i
      = seq_loop commands outcome a i
        ++ execute_command (commands.getD (i + a) []) (outcome (i + a))
        ++ seq_loop commands outcome b (i + a + 1) := by
  intro a
  induction a with
  | zero =>
    intro b i
    rw [Nat.zero_add]
    rfl
  | succ a ih =>
    intro b i
    have h1 : a + 1 + (b + 1) = (a + (b + 1)) + 1 := by omega
    have h2 : i + (a + 1) = i + 1 + a := by omega
    rw [h1, seq_loop, ih b (i + 1), seq_loop, h2, List.append_assoc, List.append_assoc,
      List.append_assoc]

/-- C11. `sequential_execution` on a list of `n` commands, whatever the
outcomes (exit codes, failed `execvp`, failed `fork`): the launch attempts
are `commands[0]`, ..., `commands[n-1]`, each once and in this order; and the
attempt for `commands[i]` comes as the block of `execute_command` (the `fork`
followed at once by its `waitpid`, or by the error report when no child was
made), after the first `i` attempts and before all later ones. -/
theorem sequential_execution_in_order (commands : List (List Str))
    (outcome : Nat → Option Nat) :
    launch_attempts (sequential_execution commands commands.length outcome) = commands
    ∧ ∀ i, i < commands.length →
        ∃ before after,
          sequential_execution commands commands.length outcome
            = before ++ execute_command (commands.getD i []) (outcome i) ++ after
          ∧ launch_attempts before = commands.take i
          ∧ launch_attempts after = commands.drop (i + 1)
          ∧ (∀ status, outcome i = some status →
              execute_command (commands.getD i []) (outcome i)
                = [.fork (commands.getD i []) true, .waitpid (commands.getD i [])])
          ∧ (outcome i = none →
              execute_command (commands.getD i []) (outcome i)
                = [.fork (commands.getD i []) false, .perror_fork_failed]) := by
  constructor
  · unfold sequential_execution
    rw [launch_attempts_seq_loop commands outcome _ 0 (by omega)]
    simp
  · intro i hi
    refine ⟨seq_loop commands outcome i 0,
      seq_loop commands outcome (commands.length - i - 1) (i + 1), ?_, ?_, ?_, ?_, ?_⟩
    · unfold sequential_execution
      have hlen : commands.length = i + ((commands.length - i - 1) + 1) := by omega
      conv_lhs => rw [hlen]
      rw [seq_loop_split, Nat.zero_add]
    · rw [launch_attempts_seq_loop commands outcome i 0 (by omega)]
      rfl
    · rw [launch_attempts_seq_loop commands outcome _ (i + 1) (by omega)]
      apply List.take_of_length_le
      simp only [List.length_drop]
      omega
    · intro status h
      rw [h]
      rfl
    · intro h
      rw [h]
      rfl

/-! ### C12 -/

/-- C12. Sequencer cap: a line of the Sequencer class with more than four
non-empty pieces between its `;` gets the "supports up to 4 commands" error;
no command is launched, and the list is not cut down to a prefix and run. -/
theorem sequencer_cap (line : Str) (hcls : classify line = .sequencer)
    (hmany : 4 < (maximal_runs [';'] line).length) :
    dispatch line = .error .semicolon_supports_up_to_4_commands := by
  have hne : ¬ (line.length = 0) := by
    intro h0
    rw [List.length_eq_zero.mp h0] at hmany
    exact absurd hmany (by decide)
  unfold dispatch
  rw [if_neg hne, hcls]
  show run_sequencer line = _
  unfold run_sequencer
  have hlen : (parse_input line [] (some ";".toList)).1.length
      = min 6 (maximal_runs [';'] line).length := by
    rw [parse_input_delim_eq_runs, List.length_map, List.length_take]
    rfl
  simp only []
  rw [if_neg]
  rw [hlen]
  omega

/-- C12 on lines of five, six and seven commands. -/
theorem sequencer_cap_witness :
    dispatch "a;b;c;d;e".toList = .error .semicolon_supports_up_to_4_commands
    ∧ dispatch "a;b;c;d;e;f".toList = .error .semicolon_supports_up_to_4_commands
    ∧ dispatch "a ; b ; c ; d ; e ; f ; g".toList
        = .error .semicolon_supports_up_to_4_commands :=
  ⟨sequencer_cap "a;b;c;d;e".toList (by decide) (by decide),
   sequencer_cap "a;b;c;d;e;f".toList (by decide) (by decide),
   sequencer_cap "a ; b ; c ; d ; e ; f ; g".toList (by decide) (by decide)⟩

/-! ### C13 -/

/-- C13. The claim wants a simple command of six or more tokens refused with
the argument-count error.  `split_command` stops after five tokens, so the
count that `main` tests is never above five: the line `"a b c d e f"` is
launched, with its first five tokens as argv. -/
theorem simple_command_six_tokens :
    classify "a b c d e f".toList = .simple
    ∧ (maximal_runs DELIM "a b c d e f".toList).length = 6
    ∧ dispatch "a b c d e f".toList
      = .execute_command ["a".toList, "b".toList, "c".toList, "d".toList, "e".toList] := by
  decide

/-! ### C14 -/

/-- C14. The claim wants the output path of `"echo out > f.txt"` and of
`"echo more >> f.txt"` to be `"f.txt"`.  The text that `strtok` returns after
the operator is passed on as it stands, with the space that follows the
operator: both calls name the file `" f.txt"`. -/
theorem redirection_path_keeps_space :
    dispatch "echo out > f.txt".toList
      = .redirect_command ["echo".toList, "out".toList] none (some " f.txt".toList) 0
    ∧ dispatch "echo more >> f.txt".toList
      = .redirect_command ["echo".toList, "more".toList] none (some " f.txt".toList) 1 := by
  decide

/-! ### C17 -/

theorem splitOnP_piece_clean {α : Type} (q : α → Bool) :
    ∀ (l : List α), ∀ r ∈ l.splitOnP q, ∀ x ∈ r, q x = false := by
  intro l
  induction l with
  | nil =>
    intro r hr x hx
    rw [List.splitOnP_nil, List.mem_singleton] at hr
    rw [hr] at hx
    exact absurd hx (List.not_mem_nil x)
  | cons a l ih =>
    intro r hr x hx
    rw [List.splitOnP_cons] at hr
    by_cases ha : q a = true
    · rw [if_pos ha] at hr
      rcases List.mem_cons.mp hr with h | h
      · rw [h] at hx
        exact absurd hx (List.not_mem_nil x)
      · exact ih r h x hx
    · rw [if_neg ha] at hr
      cases hsp : l.splitOnP q with
      | nil => exact absurd hsp (List.splitOnP_ne_nil q l)
      | cons h t =>
        rw [hsp] at hr ih
        rcases List.mem_cons.mp hr with h1 | h1
        · rw [h1] at hx
          rcases List.mem_cons.mp hx with h2 | h2
          · rw [h2]; exact Bool.eq_false_iff.mpr ha
          · exact ih h (List.mem_cons_self _ _) x h2
        · exact ih r (List.mem_cons_of_mem _ h1) x hx

/-- A maximal run is not empty and holds no character of the set. -/
theorem maximal_runs_clean (delim s : Str) (r : Str) (hr : r ∈ maximal_runs delim s) :
    r ≠ [] ∧ ∀ x ∈ r, delim.contains x = false := by
  unfold maximal_runs at hr
  obtain ⟨h1, h2⟩ := List.mem_filter.mp hr
  refine ⟨?_, splitOnP_piece_clean _ s r h1⟩
  intro h
  rw [h] at h2
  exact absurd h2 (by decide)

/-- C17. For every command string with `m` maximal runs of characters other
than space, tab, CR, LF and bell, `split_command` returns the first
`min 5 m` of them in their order; each returned token is non-empty and holds
none of the five characters; there are at most five tokens, so the index
where the terminating `NULL` goes is at most 5, inside the array of
`MAX_ARGS = 6` slots. -/
theorem split_command_first_five_runs (command : Str) :
    split_command command
      = (maximal_runs DELIM command).take (min 5 (maximal_runs DELIM command).length)
    ∧ (∀ tok ∈ split_command command, tok ≠ []
        ∧ ∀ c ∈ tok, c ≠ ' ' ∧ c ≠ '\t' ∧ c ≠ '\r' ∧ c ≠ '\n' ∧ c ≠ Char.ofNat 7)
    ∧ (split_command command).length = min 5 (maximal_runs DELIM command).length
    ∧ (split_command command).length ≤ 5
    ∧ (split_command command).length < MAX_ARGS := by
  have heq := split_command_eq_runs command
  have hlen : (split_command command).length = min 5 (maximal_runs DELIM command).length := by
    rw [heq, List.length_take]
  refine ⟨?_, ?_, hlen, ?_, ?_⟩
  · rw [heq]
    by_cases h : 5 ≤ (maximal_runs DELIM command).length
    · rw [Nat.min_eq_left h]
    · rw [Nat.min_eq_right (by omega), List.take_of_length_le (by omega), List.take_length]
  · intro tok htok
    rw [heq] at htok
    obtain ⟨hne, hclean⟩ := maximal_runs_clean DELIM command tok (List.mem_of_mem_take htok)
    refine ⟨hne, ?_⟩
    intro c hc
    have hcd := hclean c hc
    have hnot : c ∉ DELIM := by
      intro hmem
      have : DELIM.contains c = true := List.elem_iff.mpr hmem
      rw [hcd] at this
      exact absurd this (by decide)
    unfold DELIM at hnot
    simp only [List.mem_cons, List.mem_singleton, List.not_mem_nil, or_false, not_or] at hnot
    exact hnot
  · rw [hlen]; omega
  · rw [hlen]
    have : MAX_ARGS = 6 := rfl
    omega

/-! ### C15 -/

theorem output_flags_append (append : Int) (h : append ≠ 0) :
    output_flags append = O_WRONLY ||| O_CREAT ||| O_APPEND := by
  unfold output_flags
  rw [if_pos h]

theorem output_flags_truncate (append : Int) (h : append = 0) :
    output_flags append = O_WRONLY ||| O_CREAT ||| O_TRUNC := by
  unfold output_flags
  rw [if_neg (fun hne => hne h)]

theorem exec_tail_no_open (args : List Str) (exec_ok : Bool) (q : Str) (fl : Nat)
    (m : Option Nat) : ChildOp.open_file q fl m ∉ exec_tail args exec_ok := by
  unfold exec_tail
  cases args with
  | nil => simp
  | cons a rest => cases exec_ok <;> simp

theorem redirect_input_no_mode (input_file : Option Str) (fd_in : Option Nat) (q : Str)
    (fl m : Nat) : ChildOp.open_file q fl (some m) ∉ (redirect_input input_file fd_in).1 := by
  unfold redirect_input
  cases input_file with
  | none => simp
  | some p => cases fd_in <;> simp

theorem redirect_input_passes (input_file : Option Str) (fd_in : Option Nat) :
    (redirect_input input_file fd_in).2 = true ↔ (input_file = none ∨ fd_in.isSome = true) := by
  unfold redirect_input
  cases input_file with
  | none => simp
  | some p => cases fd_in <;> simp

/-- C15. Open mode of the output file in `redirect_command`.  The flags are
write-only with create-if-absent; a non-zero `append` sets the append flag
and leaves the truncate flag clear, a zero `append` sets the truncate flag
and leaves the append flag clear, so exactly one of the two is set.  In
every call with an output path: when `fork` fails there is no child; when it
succeeds there is a child, the only `open` with a mode argument that the
child makes is `open(output_file, flags, 0644)`, the child makes that call
exactly when it gets past the input part (no input file, or an input file
that opens), it is the first call of the child when there is no input file
and the fourth (after `open`, `dup2`, `close` for the input) when there is
one, and what follows it is `dup2(fd, 1)` when it returns `fd` and the end of
the child when it fails. -/
theorem redirect_output_open_mode (args : List Str) (input_file : Option Str) (path : Str)
    (append : Int) (fd_in fd_out : Option Nat) (exec_ok : Bool) :
    output_flags append &&& O_ACCMODE = O_WRONLY
    ∧ output_flags append &&& O_CREAT = O_CREAT
    ∧ (append ≠ 0 → output_flags append &&& O_APPEND = O_APPEND
        ∧ output_flags append &&& O_TRUNC = 0)
    ∧ (append = 0 → output_flags append &&& O_TRUNC = O_TRUNC
        ∧ output_flags append &&& O_APPEND = 0)
    ∧ (output_flags append &&& O_TRUNC ≠ 0 ↔ output_flags append &&& O_APPEND = 0)
    ∧ (redirect_command args input_file (some path) append false fd_in fd_out exec_ok).child
        = none
    ∧ ∃ ops,
        (redirect_command args input_file (some path) append true fd_in fd_out exec_ok).child
          = some ops
        ∧ (∀ q fl m, ChildOp.open_file q fl (some m) ∈ ops →
            q = path ∧ fl = output_flags append ∧ m = 0o644)
        ∧ (ChildOp.open_file path (output_flags append) (some 0o644) ∈ ops
            ↔ (input_file = none ∨ fd_in.isSome = true))
        ∧ (input_file = none →
            ops.head? = some (ChildOp.open_file path (output_flags append) (some 0o644)))
        ∧ (input_file ≠ none → fd_in.isSome = true →
            ops.get? 3 = some (ChildOp.open_file path (output_flags append) (some 0o644)))
        ∧ (∀ fd, fd_out = some fd → (input_file = none ∨ fd_in.isSome = true) →
            List.IsInfix [ChildOp.open_file path (output_flags append) (some 0o644),
              ChildOp.dup2 fd 1, ChildOp.close fd] ops)
        ∧ (fd_out = none → (input_file = none ∨ fd_in.isSome = true) →
            List.IsSuffix [ChildOp.open_file path (output_flags append) (some 0o644),
              ChildOp.exit_failure] ops) := by
  have hflags : output_flags append &&& O_ACCMODE = O_WRONLY
      ∧ output_flags append &&& O_CREAT = O_CREAT
      ∧ (append ≠ 0 → output_flags append &&& O_APPEND = O_APPEND
          ∧ output_flags append &&& O_TRUNC = 0)
      ∧ (append = 0 → output_flags append &&& O_TRUNC = O_TRUNC
          ∧ output_flags append &&& O_APPEND = 0)
      ∧ (output_flags append &&& O_TRUNC ≠ 0 ↔ output_flags append &&& O_APPEND = 0) := by
    by_cases h : append ≠ 0
    · rw [output_flags_append append h]
      exact ⟨by decide, by decide, fun _ => ⟨by decide, by decide⟩, fun h0 => absurd h0 h,
        by decide⟩
    · have h0 : append = 0 := not_not.mp h
      rw [output_flags_truncate append h0]
      exact ⟨by decide, by decide, fun hne => absurd h0 hne, fun _ => ⟨by decide, by decide⟩,
        by decide⟩
  refine ⟨hflags.1, hflags.2.1, hflags.2.2.1, hflags.2.2.2.1, hflags.2.2.2.2, rfl,
    redirect_child args input_file (some path) append fd_in fd_out exec_ok, rfl, ?_⟩
  have hout : ∀ q fl m,
      ChildOp.open_file q fl (some m) ∈ (redirect_output (some path) append fd_out).1 →
        q = path ∧ fl = output_flags append ∧ m = 0o644 := by
    intro q fl m
    unfold redirect_output
    cases fd_out <;> simp
  have hout2 : ChildOp.open_file path (output_flags append) (some 0o644)
      ∈ (redirect_output (some path) append fd_out).1 := by
    unfold redirect_output
    cases fd_out <;> simp
  refine ⟨?_, ?_, ?_, ?_, ?_, ?_⟩
  · intro q fl m hmem
    unfold redirect_child at hmem
    simp only [] at hmem
    split at hmem
    · split at hmem
      · rcases List.mem_append.mp hmem with h | h
        · rcases List.mem_append.mp h with h | h
          · exact absurd h (redirect_input_no_mode input_file fd_in q fl m)
          · exact hout q fl m h
        · exact absurd h (exec_tail_no_open args exec_ok q fl (some m))
      · rcases List.mem_append.mp hmem with h | h
        · exact absurd h (redirect_input_no_mode input_file fd_in q fl m)
        · exact hout q fl m h
    · exact absurd hmem (redirect_input_no_mode input_file fd_in q fl m)
  · rw [← redirect_input_passes input_file fd_in]
    unfold redirect_child
    simp only []
    constructor
    · intro hmem
      by_contra hgo
      rw [if_neg hgo] at hmem
      exact redirect_input_no_mode input_file fd_in _ _ _ hmem
    · intro hgo
      rw [if_pos hgo]
      split
      · exact List.mem_append_left _ (List.mem_append_right _ hout2)
      · exact List.mem_append_right _ hout2
  · intro hnone
    subst hnone
    cases fd_out <;> rfl
  · intro hsome hfd
    cases input_file with
    | none => exact absurd rfl hsome
    | some p =>
      cases fd_in with
      | none => exact absurd hfd (by decide)
      | some fd => cases fd_out <;> rfl
  · intro fd hfd hgo
    subst hfd
    cases input_file with
    | none =>
      exact ⟨[], exec_tail args exec_ok, rfl⟩
    | some p =>
      cases fd_in with
      | none => rcases hgo with h | h <;> cases h
      | some fd2 =>
        exact ⟨[ChildOp.open_file p O_RDONLY none, ChildOp.dup2 fd2 0, ChildOp.close fd2],
          exec_tail args exec_ok, rfl⟩
  · intro hfd hgo
    subst hfd
    cases input_file with
    | none => exact ⟨[], rfl⟩
    | some p =>
      cases fd_in with
      | none => rcases hgo with h | h <;> cases h
      | some fd2 =>
        exact ⟨[ChildOp.open_file p O_RDONLY none, ChildOp.dup2 fd2 0, ChildOp.close fd2], rfl⟩

/-! ### C19 -/

/-- C19. Success test of the Conditional Evaluator: whenever a step of the
loop launches a command, `last_result` becomes the value of the test on the
wait status; the test holds exactly when `WIFEXITED` holds and `WEXITSTATUS`
is 0; on the status of a normal exit it holds exactly when the exit status
(the low eight bits of the code) is 0, so it fails for every code 1..255,
`EXIT_FAILURE` included; it fails on the status of a death by any signal. -/
theorem conditional_success_test :
    (∀ (wait : Nat → Option Nat) (s : CondState) (status : Nat), wait s.i = some status →
        (cond_launch wait s).last_result = exit_ok status)
    ∧ (∀ (n : Nat) (ops : List (Option Str)) (wait : Nat → Option Nat) (s : CondState),
        (cond_step n ops wait s).launched ≠ s.launched →
          ∃ status, wait s.i = some status
            ∧ (cond_step n ops wait s).last_result = exit_ok status)
    ∧ (∀ status, exit_ok status = true ↔ (WIFEXITED status = true ∧ WEXITSTATUS status = 0))
    ∧ (∀ code, exit_ok (status_exited code) = true ↔ code % 256 = 0)
    ∧ (∀ code, 1 ≤ code → code ≤ 255 → exit_ok (status_exited code) = false)
    ∧ exit_ok (status_exited EXIT_FAILURE) = false
    ∧ (∀ sig core, 1 ≤ sig → sig ≤ 127 → exit_ok (status_signaled sig core) = false) := by
  refine ⟨?_, ?_, ?_, ?_, ?_, by decide, ?_⟩
  · intro wait s status h
    unfold cond_launch
    rw [h]
  · intro n ops wait s hne
    rcases cond_step_cases n ops wait s with ⟨_, _, st, hw, h⟩ | ⟨_, _, h⟩ | ⟨_, h⟩
    · exact ⟨st, hw, by rw [h]⟩
    · rw [h] at hne
      exact absurd rfl hne
    · exact absurd h hne
  · intro status
    unfold exit_ok
    simp
  · intro code
    have hw : WIFEXITED (status_exited code) = true := by
      unfold WIFEXITED status_exited
      have : code % 256 * 256 % 128 = 0 := by omega
      rw [this]
      rfl
    have hx : WEXITSTATUS (status_exited code) = code % 256 := by
      unfold WEXITSTATUS status_exited
      rw [Nat.mul_div_cancel _ (by decide)]
      exact Nat.mod_mod _ _
    unfold exit_ok
    rw [hw, hx, Bool.true_and, beq_iff_eq]
  · intro code h1 h2
    have hx : WEXITSTATUS (status_exited code) = code := by
      unfold WEXITSTATUS status_exited
      rw [Nat.mul_div_cancel _ (by decide), Nat.mod_mod]
      exact Nat.mod_eq_of_lt (by omega)
    unfold exit_ok
    rw [hx, beq_false_of_ne (by omega), Bool.and_false]
  · intro sig core h1 h2
    have hw : WIFEXITED (status_signaled sig core) = false := by
      unfold WIFEXITED status_signaled
      have h3 : (sig + (if core = true then 128 else 0)) % 128 ≠ 0 := by
        cases core
        · simp only [Bool.false_eq_true, if_false]; omega
        · simp only [if_true]; omega
      exact beq_false_of_ne h3
    unfold exit_ok
    rw [hw, Bool.false_and]

/-! ### C20 -/

theorem strtok_r_congr (s d1 d2 : Str) (h : ∀ c, d1.contains c = d2.contains c) :
    strtok_r s d1 = strtok_r s d2 := by
  have h1 : (fun c => d1.contains c) = (fun c => d2.contains c) := funext h
  have h2 : (fun c => !d1.contains c) = (fun c => !d2.contains c) :=
    funext (fun c => by rw [h c])
  unfold strtok_r
  rw [h1, h2]

theorem strtok_r_gtgt (s : Str) : strtok_r s ">>".toList = strtok_r s ['>'] := by
  apply strtok_r_congr
  intro c
  by_cases h : c = '>'
  · subst h; rfl
  · show (['>', '>'] : Str).contains c = (['>'] : Str).contains c
    simp [h]

/-- The redirection branch on a line with `>`: both `">>"` and `">"` make
`strtok` cut at the character `>`; the first two tokens are the command part
and the file part; the test on `<` comes first in the choice of the call. -/
theorem run_redirection_output (input : Str) (hgt : '>' ∈ input) :
    run_redirection input =
      match strtok_r input ['>'] with
      | none => .error .redirection_requires_command_and_file
      | some (command_part, rest) =>
        match strtok_r rest ['>'] with
        | none => .error .redirection_requires_command_and_file
        | some (file_part, _) =>
          if strchr input '<' = true then
            .redirect_command (split_command command_part) (some file_part) none 0
          else if strstr input ">>".toList = true then
            .redirect_command (split_command command_part) none (some file_part) 1
          else .redirect_command (split_command command_part) none (some file_part) 0 := by
  have hg : strchr input '>' = true := (strchr_iff input '>').mpr hgt
  unfold run_redirection
  cases happ : strstr input ">>".toList with
  | true =>
    simp only [if_true, strtok_r_gtgt]
  | false =>
    simp only [hg, Bool.not_false, Bool.and_true, if_true, Bool.false_eq_true, if_false]
    have hd : (">".toList : Str) = ['>'] := rfl
    rw [hd]

/-- C20, the claim as stated fails: `"cmd > out < in"` is a line of the
Redirection class with `<` and `>`, and the `<` with the text after it ends
up in the input path, not in argv; `"cmd < in >"` is another, and no
redirection is requested for it at all. -/
theorem redirection_both_counterexample :
    classify "cmd > out < in".toList = .redirection
    ∧ dispatch "cmd > out < in".toList
      = .redirect_command ["cmd".toList] (some " out < in".toList) none 0
    ∧ classify "cmd < in >".toList = .redirection
    ∧ dispatch "cmd < in >".toList = .error .redirection_requires_command_and_file := by
  decide

/-- C20, amended.  Take a line of the Redirection class, `pre` its text up to
the first `>` and `rest` the text after that `>`.  When `<` occurs in `pre`
and `rest` has a non-empty piece free of `>`, `file` being the first such
piece, the dispatcher requests one redirection:
`redirect_command(split_command(pre), file, NULL, 0)`, the input path being
`file` and there being no output path; the `<` and the text after it up to
the `>` are in the text that `split_command` cuts into argv, of which it
keeps the first five tokens. -/
theorem redirection_both_input_wins (pre rest file : Str) (more : List Str)
    (hcls : classify (pre ++ '>' :: rest) = .redirection)
    (hpre : '>' ∉ pre) (hlt : '<' ∈ pre)
    (hrest : maximal_runs ['>'] rest = file :: more) :
    dispatch (pre ++ '>' :: rest)
      = .redirect_command (split_command pre) (some file) none 0
    ∧ split_command pre = (maximal_runs DELIM pre).take 5 := by
  refine ⟨?_, split_command_eq_runs pre⟩
  have hne : pre ≠ [] := fun h => by rw [h] at hlt; exact absurd hlt (List.not_mem_nil _)
  have hgt : '>' ∈ pre ++ '>' :: rest := List.mem_append_right _ (List.mem_cons_self _ _)
  have hlt2 : strchr (pre ++ '>' :: rest) '<' = true :=
    (strchr_iff _ _).mpr (List.mem_append_left _ hlt)
  have hnd : ∀ c ∈ pre, (['>'] : Str).contains c = false := by
    intro c hc
    have : c ≠ '>' := fun h => hpre (h ▸ hc)
    simpa using this
  have htok1 : strtok_r (pre ++ '>' :: rest) ['>'] = some (pre, rest) :=
    strtok_r_next pre ['>'] '>' rest hne hnd (by decide)
  have htok2 : ∃ left, strtok_r rest ['>'] = some (file, left) := by
    have h := maximal_runs_strtok_r ['>'] rest
    rw [hrest] at h
    cases hs : strtok_r rest ['>'] with
    | none => rw [hs] at h; exact absurd h (by simp)
    | some q =>
      obtain ⟨tok, left⟩ := q
      rw [hs] at h
      simp only [] at h
      injection h with h1 _
      exact ⟨left, by rw [h1]⟩
  obtain ⟨left, htok2⟩ := htok2
  unfold dispatch
  rw [if_neg (length_ne_zero_of_mem _ _ hgt), hcls]
  show run_redirection (pre ++ '>' :: rest) = _
  rw [run_redirection_output _ hgt, htok1]
  simp only []
  rw [htok2]
  simp only []
  rw [if_pos hlt2]

/-- C20, amended, on `"cmd < in > out"`. -/
theorem redirection_both_input_wins_witness :
    dispatch "cmd < in > out".toList
      = .redirect_command ["cmd".toList, "<".toList, "in".toList] (some " out".toList) none 0 :=
  (redirection_both_input_wins "cmd < in ".toList " out".toList " out".toList []
    (by decide) (by decide) (by decide) (by decide)).1

/-! ### C16 -/

theorem execute_pipe_none (commands : List (List Str)) (n : Nat) (t0 : FdTable)
    (pipe_ok fork_ok : Nat → Bool)
    (h : execute_pipe commands n t0 pipe_ok fork_ok = none) :
    ∃ c, c < n - 1 ∧ pipe_ok c = false := by
  by_contra hno
  have hall : ∀ c, c < 0 + (n - 1) → pipe_ok c = true := by
    intro c hc
    by_contra hf
    exact hno ⟨c, by omega, Bool.eq_false_iff.mpr hf⟩
  obtain ⟨t, pipefd, hc, _, _⟩ :=
    create_pipes_ok pipe_ok t0 (n - 1) 0 t0 [] (pipes_inv_init t0) rfl hall
  unfold execute_pipe at h
  rw [hc] at h
  exact absurd h (by simp)

theorem create_pipes_fail (pipe_ok : Nat → Bool) (k : Nat) :
    ∀ (i : Nat) (t : FdTable) (pipefd : List Nat),
      (∃ c, i ≤ c ∧ c < i + k ∧ pipe_ok c = false) →
      create_pipes pipe_ok k i t pipefd = none := by
  induction k with
  | zero =>
    intro i t pipefd ⟨c, h1, h2, _⟩
    omega
  | succ k ih =>
    intro i t pipefd ⟨c, h1, h2, h3⟩
    unfold create_pipes
    by_cases hi : pipe_ok i = true
    · rw [if_pos hi]
      have hne : c ≠ i := by
        intro hci
        rw [hci, hi] at h3
        exact absurd h3 (by decide)
      exact ih (i + 1) _ _ ⟨c, by omega, by omega, h3⟩
    · rw [if_neg hi]

theorem execute_pipe_fail (commands : List (List Str)) (n : Nat) (t0 : FdTable)
    (pipe_ok fork_ok : Nat → Bool) (h : ∃ c, c < n - 1 ∧ pipe_ok c = false) :
    execute_pipe commands n t0 pipe_ok fork_ok = none := by
  obtain ⟨c, hc, hf⟩ := h
  unfold execute_pipe
  rw [create_pipes_fail pipe_ok (n - 1) 0 t0 [] ⟨c, Nat.zero_le c, by omega, hf⟩]

theorem trace_fate_quiet (tr : List Event) (h : ∀ e ∈ tr, ends_shell e = false) :
    trace_fate tr = .next_prompt := by
  induction tr with
  | nil => rfl
  | cons e rest ih =>
    have he : ends_shell e = false := h e (List.mem_cons_self e rest)
    have hrest : trace_fate rest = .next_prompt :=
      ih (fun x hx => h x (List.mem_cons_of_mem e hx))
    rcases e with ⟨p, c⟩
    cases p <;> cases c <;> first
      | exact Bool.noConfusion he
      | exact hrest

theorem trace_fate_append_quiet (a b : List Event) (h : ∀ e ∈ a, ends_shell e = false) :
    trace_fate (a ++ b) = trace_fate b := by
  induction a with
  | nil => rfl
  | cons e rest ih =>
    have he : ends_shell e = false := h e (List.mem_cons_self e rest)
    have hrest : trace_fate (rest ++ b) = trace_fate b :=
      ih (fun x hx => h x (List.mem_cons_of_mem e hx))
    rcases e with ⟨p, c⟩
    cases p <;> cases c <;> first
      | exact Bool.noConfusion he
      | exact hrest

theorem child_events_quiet (ops : List ChildOp) :
    ∀ e ∈ ops.map (fun op => ({ proc := .child, call := child_call op } : Event)),
      ends_shell e = false := by
  intro e he
  obtain ⟨op, _, rfl⟩ := List.mem_map.mp he
  rfl

theorem shell_calls_quiet (calls : List Call)
    (h : ∀ c ∈ calls, c ≠ .fault ∧ c ≠ .kill_all_terminals ∧ ∀ code, c ≠ .exit code) :
    ∀ e ∈ calls.map (fun c => ({ proc := .shell, call := c } : Event)),
      ends_shell e = false := by
  intro e he
  obtain ⟨c, hc, rfl⟩ := List.mem_map.mp he
  obtain ⟨h1, h2, h3⟩ := h c hc
  cases c <;> first
    | rfl
    | exact absurd rfl h1
    | exact absurd rfl h2
    | exact absurd rfl (h3 _)

theorem launch_events_quiet (os : OsAnswers) (args : List Str) :
    ∀ e ∈ launch_events os args, ends_shell e = false :=
  child_events_quiet _

theorem shell_op_events_quiet (os : OsAnswers) (op : ShellOp) :
    ∀ e ∈ shell_op_events os op, ends_shell e = false := by
  intro e he
  cases op with
  | fork args ok =>
    cases ok with
    | true =>
      rcases List.mem_cons.mp he with h | h
      · rw [h]; rfl
      · exact launch_events_quiet os args e h
    | false =>
      rcases List.mem_cons.mp he with h | h
      · rw [h]; rfl
      · cases h
  | perror_fork_failed =>
    rcases List.mem_cons.mp he with h | h
    · rw [h]; rfl
    · cases h
  | waitpid args =>
    rcases List.mem_cons.mp he with h | h
    · rw [h]; rfl
    · cases h

theorem shell_ops_quiet (os : OsAnswers) (ops : List ShellOp) :
    ∀ e ∈ ops.flatMap (shell_op_events os), ends_shell e = false := by
  intro e he
  obtain ⟨op, _, hop⟩ := List.mem_flatMap.mp he
  exact shell_op_events_quiet os op e hop

theorem count_words_quiet (file : Str) (fopen_ok : Str → Bool) :
    ∀ c ∈ count_words file fopen_ok,
      c ≠ .fault ∧ c ≠ .kill_all_terminals ∧ ∀ code, c ≠ .exit code := by
  intro c hc
  unfold count_words at hc
  split at hc
  · simp at hc
    subst hc
    simp
  · simp at hc
    rcases hc with h | h <;> subst h <;> simp

theorem append_files_quiet (file1 file2 : Str) (fopen_ok : Str → Bool) :
    ∀ c ∈ append_files file1 file2 fopen_ok,
      c ≠ .fault ∧ c ≠ .kill_all_terminals ∧ ∀ code, c ≠ .exit code := by
  intro c hc
  unfold append_files at hc
  rcases List.mem_append.mp hc with h | h
  · simp at h
    rcases h with h | h <;> subst h <;> simp
  · split at h
    · cases h
    · simp at h
      subst h
      simp

theorem concatenate_files_quiet (files : List Str) (fopen_ok : Str → Bool) :
    ∀ c ∈ concatenate_files files fopen_ok,
      c ≠ .fault ∧ c ≠ .kill_all_terminals ∧ ∀ code, c ≠ .exit code := by
  intro c hc
  unfold concatenate_files at hc
  obtain ⟨file, _, hf⟩ := List.mem_flatMap.mp hc
  split at hf
  · simp at hf
    subst hf
    simp
  · simp at hf
    rcases hf with h | h <;> subst h <;> simp

theorem redirect_events_quiet (os : OsAnswers) (args : List Str)
    (input_file output_file : Option Str) (append : Nat) :
    ∀ e ∈ redirect_events os args input_file output_file append, ends_shell e = false := by
  intro e he
  unfold redirect_events at he
  rcases List.mem_cons.mp he with h | h
  · rw [h]; rfl
  · rcases List.mem_append.mp h with h | h
    · split at h
      · exact child_events_quiet _ e h
      · cases h
    · rcases List.mem_cons.mp h with h | h
      · rw [h]
        split <;> rfl
      · cases h

theorem conditional_launch_quiet (os : OsAnswers) (commands : List (List Str))
    (launched : List Nat) :
    ∀ e ∈ launched.flatMap (fun i =>
        ({ proc := .shell, call := .fork (commands.getD i []) true } : Event)
          :: launch_events os (commands.getD i [])
          ++ [{ proc := .shell, call := .waitpid (commands.getD i []) }]),
      ends_shell e = false := by
  intro e he
  obtain ⟨i, _, hi⟩ := List.mem_flatMap.mp he
  rcases List.mem_append.mp hi with h | h
  · rcases List.mem_cons.mp h with h | h
    · rw [h]; rfl
    · exact launch_events_quiet os _ e h
  · rcases List.mem_cons.mp h with h | h
    · rw [h]; rfl
    · cases h

theorem conditional_events_fate (os : OsAnswers) (commands : List (List Str))
    (ops : List (Option Str)) :
    (trace_fate (conditional_events os commands ops) = .strcmp_null
      ∧ (conditional_execution commands.length ops os.wait).phase = .crashed)
    ∨ (trace_fate (conditional_events os commands ops) = .next_prompt
      ∧ (conditional_execution commands.length ops os.wait).phase ≠ .crashed) := by
  unfold conditional_events
  rw [trace_fate_append_quiet _ _ (conditional_launch_quiet os commands _)]
  cases hp : (conditional_execution commands.length ops os.wait).phase with
  | crashed => exact Or.inl ⟨rfl, rfl⟩
  | running => exact Or.inr ⟨rfl, by simp⟩
  | returned => exact Or.inr ⟨rfl, by simp⟩

theorem pipe_events_none (os : OsAnswers) (commands : List (List Str)) (n : Nat) :
    trace_fate (pipe_events os commands n none) = .exited EXIT_FAILURE := rfl

theorem pipe_events_some (os : OsAnswers) (commands : List (List Str)) (n : Nat)
    (r : PipeRun) : trace_fate (pipe_events os commands n (some r)) = .next_prompt := by
  apply trace_fate_quiet
  intro e he
  unfold pipe_events at he
  simp only [] at he
  rcases List.mem_append.mp he with h | h
  · rcases List.mem_append.mp h with h | h
    · rw [(List.mem_replicate.mp h).2]; rfl
    · obtain ⟨i, _, hi⟩ := List.mem_flatMap.mp h
      split at hi
      · rcases List.mem_cons.mp hi with h | h
        · rw [h]; rfl
        · exact launch_events_quiet os _ e h
      · rcases List.mem_cons.mp hi with h | h
        · rw [h]; rfl
        · cases h
  · obtain ⟨i, _, rfl⟩ := List.mem_map.mp h
    rfl

theorem action_events_fate (os : OsAnswers) (a : Action)
    (h1 : a ≠ .kill_current_terminal) (h2 : a ≠ .kill_all_terminals)
    (h3 : trace_fate (action_events os a) ≠ .strcmp_null) :
    (trace_fate (action_events os a) = .next_prompt
      ∨ trace_fate (action_events os a) = .exited EXIT_FAILURE)
    ∧ (trace_fate (action_events os a) = .exited EXIT_FAILURE
        ↔ ∃ commands, (a = .execute_pipe commands ∨ a = .execute_reverse_pipe commands)
            ∧ ∃ c, c < commands.length - 1 ∧ os.pipe_ok c = false) := by
  have quiet : ∀ b : Action, (∀ e ∈ action_events os b, ends_shell e = false) →
      (∀ commands, b ≠ .execute_pipe commands ∧ b ≠ .execute_reverse_pipe commands) →
      (trace_fate (action_events os b) = .next_prompt
        ∨ trace_fate (action_events os b) = .exited EXIT_FAILURE)
      ∧ (trace_fate (action_events os b) = .exited EXIT_FAILURE
          ↔ ∃ commands, (b = .execute_pipe commands ∨ b = .execute_reverse_pipe commands)
              ∧ ∃ c, c < commands.length - 1 ∧ os.pipe_ok c = false) := by
    intro b hq hb
    have hf := trace_fate_quiet _ hq
    refine ⟨Or.inl hf, ?_, ?_⟩
    · intro h
      rw [hf] at h
      cases h
    · rintro ⟨commands, h | h, _⟩
      · exact absurd h (hb commands).1
      · exact absurd h (hb commands).2
  cases a with
  | skip => exact quiet _ (fun e he => by cases he) (fun _ => ⟨by simp, by simp⟩)
  | kill_current_terminal => exact absurd rfl h1
  | kill_all_terminals => exact absurd rfl h2
  | count_words file =>
    exact quiet _ (shell_calls_quiet _ (count_words_quiet file os.fopen_ok))
      (fun _ => ⟨by simp, by simp⟩)
  | append_files file1 file2 =>
    exact quiet _ (shell_calls_quiet _ (append_files_quiet file1 file2 os.fopen_ok))
      (fun _ => ⟨by simp, by simp⟩)
  | concatenate_files files =>
    exact quiet _ (shell_calls_quiet _ (concatenate_files_quiet files os.fopen_ok))
      (fun _ => ⟨by simp, by simp⟩)
  | sequential_execution commands =>
    exact quiet _ (shell_ops_quiet os _) (fun _ => ⟨by simp, by simp⟩)
  | conditional_execution commands ops =>
    rcases conditional_events_fate os commands ops with ⟨h, _⟩ | ⟨h, _⟩
    · exact absurd h h3
    · refine ⟨Or.inl h, ?_, ?_⟩
      · intro h4
        have h5 : trace_fate (conditional_events os commands ops) = .exited EXIT_FAILURE := h4
        rw [h] at h5
        cases h5
      · rintro ⟨cmds, h4 | h4, _⟩ <;> cases h4
  | execute_pipe commands =>
    cases hr : execute_pipe commands commands.length os.table os.pipe_ok os.fork_ok with
    | none =>
      have hf : trace_fate (action_events os (.execute_pipe commands))
          = .exited EXIT_FAILURE := by
        simp only [action_events, hr]
        rfl
      exact ⟨Or.inr hf, fun _ => ⟨commands, Or.inl rfl, execute_pipe_none _ _ _ _ _ hr⟩,
        fun _ => hf⟩
    | some r =>
      have hf : trace_fate (action_events os (.execute_pipe commands)) = .next_prompt := by
        simp only [action_events, hr]
        exact pipe_events_some os _ _ r
      refine ⟨Or.inl hf, ?_, ?_⟩
      · intro h4
        rw [hf] at h4
        cases h4
      · rintro ⟨cmds, h4 | h4, hc⟩
        · cases h4
          rw [execute_pipe_fail commands commands.length os.table os.pipe_ok os.fork_ok hc] at hr
          cases hr
        · cases h4
  | execute_reverse_pipe commands =>
    cases hr : execute_reverse_pipe commands commands.length os.table os.pipe_ok
        os.fork_ok with
    | none =>
      have hf : trace_fate (action_events os (.execute_reverse_pipe commands))
          = .exited EXIT_FAILURE := by
        simp only [action_events, hr]
        rfl
      refine ⟨Or.inr hf, fun _ => ⟨commands, Or.inr rfl, ?_⟩, fun _ => hf⟩
      unfold execute_reverse_pipe at hr
      exact execute_pipe_none _ _ _ _ _ hr
    | some r =>
      have hf : trace_fate (action_events os (.execute_reverse_pipe commands))
          = .next_prompt := by
        simp only [action_events, hr]
        exact pipe_events_some os _ _ r
      refine ⟨Or.inl hf, ?_, ?_⟩
      · intro h4
        rw [hf] at h4
        cases h4
      · rintro ⟨cmds, h4 | h4, hc⟩
        · cases h4
        · cases h4
          unfold execute_reverse_pipe at hr
          rw [execute_pipe_fail _ commands.length os.table os.pipe_ok os.fork_ok hc] at hr
          cases hr
  | redirect_command args input_file output_file append =>
    exact quiet _ (redirect_events_quiet os args input_file output_file append)
      (fun _ => ⟨by simp, by simp⟩)
  | execute_command args =>
    exact quiet _ (shell_ops_quiet os _) (fun _ => ⟨by simp, by simp⟩)
  | error msg =>
    exact quiet _ (fun e he => by
      rcases List.mem_cons.mp he with h | h
      · rw [h]; rfl
      · cases h) (fun _ => ⟨by simp, by simp⟩)

theorem run_append_pair_shape (input : Str) :
    (∃ m, run_append_pair input = .error m)
    ∨ ∃ file1 file2, run_append_pair input = .append_files file1 file2 := by
  unfold run_append_pair
  split
  · exact Or.inl ⟨_, rfl⟩
  · split
    · exact Or.inl ⟨_, rfl⟩
    · exact Or.inr ⟨_, _, rfl⟩

theorem run_concat_files_shape (input : Str) :
    (∃ m, run_concat_files input = .error m)
    ∨ ∃ files, run_concat_files input = .concatenate_files files := by
  unfold run_concat_files
  simp only []
  split
  · exact Or.inr ⟨_, rfl⟩
  · exact Or.inl ⟨_, rfl⟩

theorem run_sequencer_shape (input : Str) :
    (∃ m, run_sequencer input = .error m)
    ∨ ∃ commands, run_sequencer input = .sequential_execution commands := by
  unfold run_sequencer
  simp only []
  split
  · exact Or.inr ⟨_, rfl⟩
  · exact Or.inl ⟨_, rfl⟩

theorem run_conditional_shape (input : Str) :
    (∃ m, run_conditional input = .error m)
    ∨ ∃ commands ops, run_conditional input = .conditional_execution commands ops := by
  unfold run_conditional
  simp only []
  split
  · split
    · exact Or.inl ⟨_, rfl⟩
    · exact Or.inr ⟨_, _, rfl⟩
  · exact Or.inl ⟨_, rfl⟩

theorem run_pipeline_shape (input : Str) :
    (∃ m, run_pipeline input = .error m)
    ∨ ∃ commands, run_pipeline input = .execute_pipe commands := by
  unfold run_pipeline
  simp only []
  split
  · exact Or.inr ⟨_, rfl⟩
  · exact Or.inl ⟨_, rfl⟩

theorem run_reverse_pipeline_shape (input : Str) :
    (∃ m, run_reverse_pipeline input = .error m)
    ∨ ∃ commands, run_reverse_pipeline input = .execute_reverse_pipe commands := by
  unfold run_reverse_pipeline
  simp only []
  split
  · exact Or.inr ⟨_, rfl⟩
  · exact Or.inl ⟨_, rfl⟩

theorem run_redirection_shape (input : Str) :
    (∃ m, run_redirection input = .error m)
    ∨ (∃ args input_file output_file append,
        run_redirection input = .redirect_command args input_file output_file append)
    ∨ run_redirection input = .skip := by
  unfold run_redirection
  simp only []
  split
  · exact Or.inl ⟨_, rfl⟩
  · split
    · exact Or.inl ⟨_, rfl⟩
    · split
      · exact Or.inl ⟨_, rfl⟩
      · split
        · exact Or.inr (Or.inl ⟨_, _, _, _, rfl⟩)
        · split
          · exact Or.inr (Or.inl ⟨_, _, _, _, rfl⟩)
          · split
            · exact Or.inr (Or.inl ⟨_, _, _, _, rfl⟩)
            · exact Or.inr (Or.inr rfl)

theorem run_simple_shape (input : Str) :
    (∃ m, run_simple input = .error m)
    ∨ ∃ args, run_simple input = .execute_command args := by
  unfold run_simple
  simp only []
  split
  · exact Or.inr ⟨_, rfl⟩
  · exact Or.inl ⟨_, rfl⟩

theorem dispatch_cases (line : Str) (P : SyntaxClass → Action → Prop)
    (hskip : ∀ c, P c .skip) (herr : ∀ c m, P c (.error m))
    (hkill : P .killterm .kill_current_terminal)
    (hkillall : P .killallterms .kill_all_terminals)
    (hwc : ∀ file, P .word_count (.count_words file))
    (happ : ∀ file1 file2, P .append_pair (.append_files file1 file2))
    (hcat : ∀ files, P .concat_files (.concatenate_files files))
    (hseq : ∀ commands, P .sequencer (.sequential_execution commands))
    (hcond : ∀ commands ops, P .conditional (.conditional_execution commands ops))
    (hpipe : ∀ commands, P .pipeline (.execute_pipe commands))
    (hrev : ∀ commands, P .reverse_pipeline (.execute_reverse_pipe commands))
    (hred : ∀ args input_file output_file append,
      P .redirection (.redirect_command args input_file output_file append))
    (hsimple : ∀ args, P .simple (.execute_command args)) :
    P (classify line) (dispatch line) := by
  unfold dispatch
  by_cases h0 : line.length = 0
  · rw [if_pos h0]
    exact hskip _
  · rw [if_neg h0]
    cases hc : classify line with
    | killterm => exact hkill
    | killallterms => exact hkillall
    | word_count => exact hwc _
    | append_pair =>
      show P _ (run_append_pair line)
      rcases run_append_pair_shape line with ⟨m, h⟩ | ⟨f1, f2, h⟩
      · rw [h]; exact herr _ _
      · rw [h]; exact happ _ _
    | concat_files =>
      show P _ (run_concat_files line)
      rcases run_concat_files_shape line with ⟨m, h⟩ | ⟨f, h⟩
      · rw [h]; exact herr _ _
      · rw [h]; exact hcat _
    | sequencer =>
      show P _ (run_sequencer line)
      rcases run_sequencer_shape line with ⟨m, h⟩ | ⟨f, h⟩
      · rw [h]; exact herr _ _
      · rw [h]; exact hseq _
    | conditional =>
      show P _ (run_conditional line)
      rcases run_conditional_shape line with ⟨m, h⟩ | ⟨f, g, h⟩
      · rw [h]; exact herr _ _
      · rw [h]; exact hcond _ _
    | pipeline =>
      show P _ (run_pipeline line)
      rcases run_pipeline_shape line with ⟨m, h⟩ | ⟨f, h⟩
      · rw [h]; exact herr _ _
      · rw [h]; exact hpipe _
    | reverse_pipeline =>
      show P _ (run_reverse_pipeline line)
      rcases run_reverse_pipeline_shape line with ⟨m, h⟩ | ⟨f, h⟩
      · rw [h]; exact herr _ _
      · rw [h]; exact hrev _
    | redirection =>
      show P _ (run_redirection line)
      rcases run_redirection_shape line with ⟨m, h⟩ | ⟨a1, a2, a3, a4, h⟩ | h
      · rw [h]; exact herr _ _
      · rw [h]; exact hred _ _ _ _
      · rw [h]; exact hskip _
    | simple =>
      show P _ (run_simple line)
      rcases run_simple_shape line with ⟨m, h⟩ | ⟨f, h⟩
      · rw [h]; exact herr _ _
      · rw [h]; exact hsimple _

theorem dispatch_class (line : Str) :
    (dispatch line = .kill_current_terminal → classify line = .killterm)
    ∧ (dispatch line = .kill_all_terminals → classify line = .killallterms)
    ∧ (∀ commands, dispatch line = .execute_pipe commands → classify line = .pipeline)
    ∧ (∀ commands, dispatch line = .execute_reverse_pipe commands →
        classify line = .reverse_pipeline) :=
  dispatch_cases line
    (fun c a => (a = .kill_current_terminal → c = .killterm)
      ∧ (a = .kill_all_terminals → c = .killallterms)
      ∧ (∀ commands, a = .execute_pipe commands → c = .pipeline)
      ∧ (∀ commands, a = .execute_reverse_pipe commands → c = .reverse_pipeline))
    (by simp) (by simp) (by simp) (by simp) (by simp) (by simp) (by simp) (by simp) (by simp)
    (by simp) (by simp) (by simp) (by simp)

/-- C16, the claim as stated fails: on the line `"ls | wc"`, when `pipe`
fails, `execute_pipe` calls `exit(EXIT_FAILURE)` in the shell process. -/
theorem pipe_failure_exits_shell :
    classify "ls | wc".toList = .pipeline
    ∧ dispatch "ls | wc".toList = .execute_pipe [["ls".toList], ["wc".toList]]
    ∧ execute_pipe [["ls".toList], ["wc".toList]] 2 std_table (fun _ => false) always_ok = none
    ∧ turn_trace no_pipes "ls | wc".toList
        = [{ proc := .shell, call := .pipe false }, { proc := .shell, call := .report_error },
           { proc := .shell, call := .exit EXIT_FAILURE }]
    ∧ shell_turn no_pipes "ls | wc".toList = .exited EXIT_FAILURE := by
  decide

/-- C16, amended.  For a line other than `killterm` and `killallterms`, and
apart from the evaluator handing a missing operator to `strcmp`, whatever
the operating system answers (to `fork`, `waitpid`, `pipe`, `execvp`, `open`,
`fopen`), the turn ends at the next prompt or in `exit(EXIT_FAILURE)` of the
shell, and it ends in that exit exactly when the line goes to `execute_pipe`,
through the pipeline or the reverse pipeline branch, and one of the `pipe`
calls made there fails.  The other failures leave the shell at the next
prompt: after a failed `fork` for a simple command the shell only reports
it; a failed `execvp` of a simple command and a failed `open` of the output
file of a redirection end in `exit(EXIT_FAILURE)` of the child. -/
theorem shell_turn_survives (os : OsAnswers) (line : Str)
    (hk1 : classify line ≠ .killterm) (hk2 : classify line ≠ .killallterms)
    (hnull : shell_turn os line ≠ .strcmp_null) :
    (shell_turn os line = .next_prompt ∨ shell_turn os line = .exited EXIT_FAILURE)
    ∧ (shell_turn os line = .exited EXIT_FAILURE
        ↔ ∃ commands,
            ((classify line = .pipeline ∧ dispatch line = .execute_pipe commands)
              ∨ (classify line = .reverse_pipeline
                  ∧ dispatch line = .execute_reverse_pipe commands))
            ∧ ∃ c, c < commands.length - 1 ∧ os.pipe_ok c = false)
    ∧ (∀ args, dispatch line = .execute_command args → os.wait 0 = none →
        turn_trace os line
            = [{ proc := .shell, call := .fork args false },
               { proc := .shell, call := .report_error }]
          ∧ shell_turn os line = .next_prompt)
    ∧ (∀ args, dispatch line = .execute_command args → args ≠ [] → os.wait 0 ≠ none →
        os.exec_ok args = false →
        { proc := .child, call := .exit EXIT_FAILURE } ∈ turn_trace os line
          ∧ shell_turn os line = .next_prompt)
    ∧ (∀ args input_file path append,
        dispatch line = .redirect_command args input_file (some path) append →
        os.wait 0 ≠ none → os.open_fd path = none →
        { proc := .child, call := .exit EXIT_FAILURE } ∈ turn_trace os line
          ∧ shell_turn os line = .next_prompt) := by
  have hcls := dispatch_class line
  have main := action_events_fate os (dispatch line)
    (fun h => hk1 (hcls.1 h)) (fun h => hk2 (hcls.2.1 h)) hnull
  have hexit : shell_turn os line = .exited EXIT_FAILURE
      ↔ ∃ commands,
          ((classify line = .pipeline ∧ dispatch line = .execute_pipe commands)
            ∨ (classify line = .reverse_pipeline
                ∧ dispatch line = .execute_reverse_pipe commands))
          ∧ ∃ c, c < commands.length - 1 ∧ os.pipe_ok c = false := by
    constructor
    · intro h
      obtain ⟨commands, hd, hc⟩ := main.2.mp h
      rcases hd with hd | hd
      · exact ⟨commands, Or.inl ⟨hcls.2.2.1 commands hd, hd⟩, hc⟩
      · exact ⟨commands, Or.inr ⟨hcls.2.2.2 commands hd, hd⟩, hc⟩
    · rintro ⟨commands, hd, hc⟩
      rcases hd with ⟨_, hd⟩ | ⟨_, hd⟩
      · exact main.2.mpr ⟨commands, Or.inl hd, hc⟩
      · exact main.2.mpr ⟨commands, Or.inr hd, hc⟩
  have hstay : (∀ commands, dispatch line ≠ .execute_pipe commands) →
      (∀ commands, dispatch line ≠ .execute_reverse_pipe commands) →
      shell_turn os line = .next_prompt := by
    intro hp hr
    rcases main.1 with h | h
    · exact h
    · obtain ⟨commands, hd, _⟩ := main.2.mp h
      rcases hd with hd | hd
      · exact absurd hd (hp commands)
      · exact absurd hd (hr commands)
  refine ⟨main.1, hexit, ?_, ?_, ?_⟩
  · intro args hd hw
    refine ⟨?_, hstay (fun _ h => by rw [hd] at h; cases h) (fun _ h => by rw [hd] at h; cases h)⟩
    unfold turn_trace
    rw [hd]
    simp only [action_events, hw, execute_command]
    rfl
  · intro args hd hargs hw hexec
    refine ⟨?_, hstay (fun _ h => by rw [hd] at h; cases h) (fun _ h => by rw [hd] at h; cases h)⟩
    unfold turn_trace
    rw [hd]
    cases hw2 : os.wait 0 with
    | none => exact absurd hw2 hw
    | some st =>
      cases args with
      | nil => exact absurd rfl hargs
      | cons a rest =>
        simp only [action_events, hw2, execute_command]
        simp [shell_op_events, launch_events, exec_tail, hexec, child_call]
  · intro args input_file path append hd hw hopen
    refine ⟨?_, hstay (fun _ h => by rw [hd] at h; cases h) (fun _ h => by rw [hd] at h; cases h)⟩
    unfold turn_trace
    rw [hd]
    cases hw2 : os.wait 0 with
    | none => exact absurd hw2 hw
    | some st =>
      have hmem : ChildOp.exit_failure ∈ redirect_child args input_file (some path) append
          (input_file.bind os.open_fd) ((some path).bind os.open_fd) (os.exec_ok args) := by
        have hb : (some path).bind os.open_fd = none := hopen
        rw [hb]
        unfold redirect_child redirect_input redirect_output
        cases input_file with
        | none => simp
        | some p => cases (Option.bind (some p) os.open_fd) <;> simp
      simp only [action_events, redirect_events, redirect_command, hw2]
      apply List.mem_cons_of_mem
      apply List.mem_append_left
      exact List.mem_map.mpr ⟨_, hmem, rfl⟩

/-- C16, amended, on `"ls | wc"`: when the `pipe` call succeeds the turn ends
at the next prompt or in the exit, and the turn ends in the exit exactly when
a `pipe` call fails, as it does when every `pipe` call fails. -/
theorem shell_turn_survives_witness :
    (shell_turn all_ok_os "ls | wc".toList = .next_prompt
      ∨ shell_turn all_ok_os "ls | wc".toList = .exited EXIT_FAILURE)
    ∧ (shell_turn no_pipes "ls | wc".toList = .exited EXIT_FAILURE
        ↔ ∃ commands,
            ((classify "ls | wc".toList = .pipeline
                ∧ dispatch "ls | wc".toList = .execute_pipe commands)
              ∨ (classify "ls | wc".toList = .reverse_pipeline
                  ∧ dispatch "ls | wc".toList = .execute_reverse_pipe commands))
            ∧ ∃ c, c < commands.length - 1 ∧ no_pipes.pipe_ok c = false) :=
  ⟨(shell_turn_survives all_ok_os "ls | wc".toList (by decide) (by decide) (by decide)).1,
   (shell_turn_survives no_pipes "ls | wc".toList (by decide) (by decide) (by decide)).2.1⟩

/-! ### C21 -/

/-- The stores listed by `parse_delim_writes` are the stores of the
delimiter-mode loop: replaying them gives the loop's result. -/
theorem parse_delim_writes_replay (d : Str) :
    ∀ (fuel : Nat) (token : Option (Str × Str)) (commands : List Str)
      (operators : List (Option Str)),
      (parse_delim_writes d fuel token commands.length).foldl apply_write (commands, operators)
        = (parse_delim_loop d fuel token commands, operators) := by
  intro fuel
  induction fuel with
  | zero => intro token commands operators; rfl
  | succ fuel ih =>
    intro token commands operators
    cases token with
    | none => rfl
    | some p =>
      obtain ⟨tok, rest⟩ := p
      simp only [parse_delim_writes, parse_delim_loop]
      by_cases hlt : commands.length < MAX_CMDS
      · rw [if_pos hlt, if_pos hlt, List.foldl_cons]
        have hlen : commands.length + 1 = (commands ++ [trim_whitespace tok]).length := by
          rw [List.length_append, List.length_singleton]
        rw [hlen]
        exact ih _ _ _
      · rw [if_neg hlt, if_neg hlt]
        rfl

/-- The stores listed by `parse_op_writes` are the stores of the
operator-mode loop: replaying them gives the loop's result. -/
theorem parse_op_writes_replay :
    ∀ (fuel : Nat) (token : Option (Str × Str)) (commands : List Str)
      (operators : List (Option Str)),
      (parse_op_writes fuel token commands.length).foldl apply_write (commands, operators)
        = parse_op_loop fuel token commands operators := by
  intro fuel
  induction fuel with
  | zero => intro token commands operators; rfl
  | succ fuel ih =>
    intro token commands operators
    cases token with
    | none => rfl
    | some p =>
      obtain ⟨tok, rest⟩ := p
      simp only [parse_op_writes, parse_op_loop]
      by_cases hlt : commands.length < MAX_CMDS
      · rw [if_pos hlt, if_pos hlt]
        by_cases hop : tok = "&&".toList ∨ tok = "||".toList
        · rw [if_pos hop, if_pos hop, List.foldl_append]
          by_cases h0 : 0 < commands.length
          · rw [if_pos h0, if_pos h0]
            exact ih _ _ _
          · rw [if_neg h0, if_neg h0]
            exact ih _ _ _
        · rw [if_neg hop, if_neg hop, List.foldl_cons]
          have hlen : commands.length + 1 = (commands ++ [tok]).length := by
            rw [List.length_append, List.length_singleton]
          rw [hlen]
          exact ih _ _ _
      · rw [if_neg hlt, if_neg hlt]
        rfl

theorem command_writes_cons_command (i : Nat) (v : Str) (ws : List ArrayWrite) :
    command_writes (.command i v :: ws) = command_writes ws + 1 := rfl

theorem command_writes_cons_operator (i : Nat) (v : Str) (ws : List ArrayWrite) :
    command_writes (.operator i v :: ws) = command_writes ws := rfl

theorem replay_length (ws : List ArrayWrite) :
    ∀ (arrays : List Str × List (Option Str)),
      (ws.foldl apply_write arrays).1.length = arrays.1.length + command_writes ws := by
  induction ws with
  | nil => intro arrays; rfl
  | cons w ws ih =>
    intro arrays
    rw [List.foldl_cons, ih]
    cases w with
    | command i v =>
      rw [command_writes_cons_command]
      simp only [apply_write, List.length_append, List.length_singleton]
      omega
    | operator i v =>
      rw [command_writes_cons_operator]
      rfl

/-- Where the delimiter-mode loop stores: the store number `j` into
`commands` goes to index `count + j`, below `MAX_CMDS`, and nothing is
stored into `operators`. -/
theorem parse_delim_writes_index (d : Str) :
    ∀ (fuel : Nat) (token : Option (Str × Str)) (count : Nat)
      (pre : List ArrayWrite) (w : ArrayWrite) (post : List ArrayWrite),
      parse_delim_writes d fuel token count = pre ++ w :: post →
        (∀ i v, w = .command i v → i = count + command_writes pre ∧ i < MAX_CMDS)
        ∧ (∀ i v, w = .operator i v → False) := by
  intro fuel
  induction fuel with
  | zero =>
    intro token count pre w post h
    exact absurd h (by simp [parse_delim_writes])
  | succ fuel ih =>
    intro token count pre w post h
    cases token with
    | none => exact absurd h (by simp [parse_delim_writes])
    | some p =>
      obtain ⟨tok, rest⟩ := p
      simp only [parse_delim_writes] at h
      by_cases hlt : count < MAX_CMDS
      · rw [if_pos hlt] at h
        cases pre with
        | nil =>
          rw [List.nil_append] at h
          injection h with h1 _
          subst h1
          refine ⟨?_, ?_⟩
          · intro i v hw
            injection hw with hi _
            subst hi
            exact ⟨rfl, hlt⟩
          · intro i v hw
            exact absurd hw (by simp)
        | cons x pre2 =>
          rw [List.cons_append] at h
          injection h with h1 h2
          subst h1
          obtain ⟨hc, ho⟩ := ih _ (count + 1) pre2 w post h2
          refine ⟨?_, ho⟩
          intro i v hw
          obtain ⟨e1, e2⟩ := hc i v hw
          rw [command_writes_cons_command]
          exact ⟨by omega, e2⟩
      · rw [if_neg hlt] at h
        exact absurd h (by simp)

/-- Where the operator-mode loop stores: the store number `j` into
`commands` goes to index `count + j`, below `MAX_CMDS`, and its value is not
an operator; a store into `operators` goes to the index of the last command
stored before it, below `MAX_CMDS - 1`, and some command was stored (or was
already there) before it. -/
theorem parse_op_writes_index :
    ∀ (fuel : Nat) (token : Option (Str × Str)) (count : Nat)
      (pre : List ArrayWrite) (w : ArrayWrite) (post : List ArrayWrite),
      parse_op_writes fuel token count = pre ++ w :: post →
        (∀ i v, w = .command i v →
          i = count + command_writes pre ∧ i < MAX_CMDS
          ∧ v ≠ "&&".toList ∧ v ≠ "||".toList)
        ∧ (∀ i v, w = .operator i v →
          i + 1 = count + command_writes pre ∧ i < MAX_CMDS - 1
          ∧ (v = "&&".toList ∨ v = "||".toList)) := by
  intro fuel
  induction fuel with
  | zero =>
    intro token count pre w post h
    exact absurd h (by simp [parse_op_writes])
  | succ fuel ih =>
    intro token count pre w post h
    cases token with
    | none => exact absurd h (by simp [parse_op_writes])
    | some p =>
      obtain ⟨tok, rest⟩ := p
      simp only [parse_op_writes] at h
      have hcap : MAX_CMDS = 6 := rfl
      by_cases hlt : count < MAX_CMDS
      · rw [if_pos hlt] at h
        by_cases hop : tok = "&&".toList ∨ tok = "||".toList
        · rw [if_pos hop] at h
          by_cases h0 : 0 < count
          · rw [if_pos h0, List.singleton_append] at h
            cases pre with
            | nil =>
              rw [List.nil_append] at h
              injection h with h1 _
              subst h1
              refine ⟨?_, ?_⟩
              · intro i v hw
                exact absurd hw (by simp)
              · intro i v hw
                injection hw with hi hv
                subst hi hv
                refine ⟨?_, ?_, hop⟩
                · show count - 1 + 1 = count + 0
                  omega
                · omega
            | cons x pre2 =>
              rw [List.cons_append] at h
              injection h with h1 h2
              subst h1
              rw [command_writes_cons_operator]
              exact ih _ count pre2 w post h2
          · rw [if_neg h0, List.nil_append] at h
            exact ih _ count pre w post h
        · rw [if_neg hop] at h
          cases pre with
          | nil =>
            rw [List.nil_append] at h
            injection h with h1 _
            subst h1
            refine ⟨?_, ?_⟩
            · intro i v hw
              injection hw with hi hv
              subst hi hv
              exact ⟨rfl, hlt, fun e => hop (Or.inl e), fun e => hop (Or.inr e)⟩
            · intro i v hw
              exact absurd hw (by simp)
          | cons x pre2 =>
            rw [List.cons_append] at h
            injection h with h1 h2
            subst h1
            obtain ⟨hc, ho⟩ := ih _ (count + 1) pre2 w post h2
            rw [command_writes_cons_command]
            refine ⟨?_, ?_⟩
            · intro i v hw
              obtain ⟨e1, e2⟩ := hc i v hw
              exact ⟨by omega, e2⟩
            · intro i v hw
              obtain ⟨e1, e2⟩ := ho i v hw
              exact ⟨by omega, e2⟩
      · rw [if_neg hlt] at h
        exact absurd h (by simp)

theorem parse_delim_writes_count (d : Str) :
    ∀ (fuel : Nat) (token : Option (Str × Str)) (count : Nat), count ≤ MAX_CMDS →
      count + command_writes (parse_delim_writes d fuel token count) ≤ MAX_CMDS := by
  intro fuel
  induction fuel with
  | zero => intro token count h; exact h
  | succ fuel ih =>
    intro token count h
    cases token with
    | none => exact h
    | some p =>
      obtain ⟨tok, rest⟩ := p
      simp only [parse_delim_writes]
      by_cases hlt : count < MAX_CMDS
      · rw [if_pos hlt, command_writes_cons_command]
        have := ih (strtok_r rest d) (count + 1) hlt
        omega
      · rw [if_neg hlt]
        exact h

theorem parse_op_writes_count :
    ∀ (fuel : Nat) (token : Option (Str × Str)) (count : Nat), count ≤ MAX_CMDS →
      count + command_writes (parse_op_writes fuel token count) ≤ MAX_CMDS := by
  intro fuel
  induction fuel with
  | zero => intro token count h; exact h
  | succ fuel ih =>
    intro token count h
    cases token with
    | none => exact h
    | some p =>
      obtain ⟨tok, rest⟩ := p
      simp only [parse_op_writes]
      by_cases hlt : count < MAX_CMDS
      · rw [if_pos hlt]
        by_cases hop : tok = "&&".toList ∨ tok = "||".toList
        · rw [if_pos hop]
          by_cases h0 : 0 < count
          · rw [if_pos h0, List.singleton_append, command_writes_cons_operator]
            exact ih _ count h
          · rw [if_neg h0, List.nil_append]
            exact ih _ count h
        · rw [if_neg hop, command_writes_cons_command]
          have := ih (strtok_r rest [' ', '\t']) (count + 1) hlt
          omega
      · rw [if_neg hlt]
        exact h

/-- C21. Index bounds of `parse_input`, for every line and both modes: the
stores listed are the stores of the function (replaying them gives its
result); the returned count is the number of stores into `commands` and is
at most `MAX_CMDS = 6`; the store number `j` into `commands` goes to index
`j`, which is at most 5; in delimiter mode nothing is stored into
`operators`; in operator mode a store into `operators` goes to the index of
the last command stored before it, at most 4 and below `MAX_CMDS - 1 = 5`,
and there is such a command, so an operator token that comes before every
command stores nothing (as in `"&& ls"`). -/
theorem parse_input_index_bounds (line : Str) (operators : List (Option Str))
    (delimiter : Option Str) :
    (parse_input_writes line delimiter).foldl apply_write ([], operators)
      = parse_input line operators delimiter
    ∧ (parse_input line operators delimiter).1.length
        = command_writes (parse_input_writes line delimiter)
    ∧ (parse_input line operators delimiter).1.length ≤ MAX_CMDS
    ∧ (∀ pre w post, parse_input_writes line delimiter = pre ++ w :: post →
        (∀ i v, w = .command i v → i = command_writes pre ∧ i ≤ 5)
        ∧ (∀ i v, w = .operator i v →
            delimiter = none ∧ 1 ≤ command_writes pre ∧ i + 1 = command_writes pre
            ∧ i ≤ 4 ∧ i < MAX_CMDS - 1))
    ∧ parse_input_writes "&& ls".toList none = [.command 0 "ls".toList] := by
  have hreplay : (parse_input_writes line delimiter).foldl apply_write ([], operators)
      = parse_input line operators delimiter := by
    cases delimiter with
    | some d => exact parse_delim_writes_replay d _ _ [] operators
    | none => exact parse_op_writes_replay _ _ [] operators
  have hlen : (parse_input line operators delimiter).1.length
      = command_writes (parse_input_writes line delimiter) := by
    rw [← hreplay, replay_length]
    exact Nat.zero_add _
  have hcap : MAX_CMDS = 6 := rfl
  have hcount : command_writes (parse_input_writes line delimiter) ≤ MAX_CMDS := by
    cases delimiter with
    | some d =>
      have := parse_delim_writes_count d (line.length + 1) (strtok_r line d) 0 (Nat.zero_le _)
      rw [Nat.zero_add] at this
      exact this
    | none =>
      have := parse_op_writes_count (line.length + 1) (strtok_r line [' ', '\t']) 0
        (Nat.zero_le _)
      rw [Nat.zero_add] at this
      exact this
  refine ⟨hreplay, hlen, by rw [hlen]; exact hcount, ?_, by decide⟩
  intro pre w post h
  cases delimiter with
  | some d =>
    obtain ⟨hc, ho⟩ := parse_delim_writes_index d _ _ 0 pre w post h
    refine ⟨?_, fun i v hw => absurd (ho i v hw) id⟩
    intro i v hw
    obtain ⟨e1, e2⟩ := hc i v hw
    exact ⟨by omega, by omega⟩
  | none =>
    obtain ⟨hc, ho⟩ := parse_op_writes_index _ _ 0 pre w post h
    refine ⟨?_, ?_⟩
    · intro i v hw
      obtain ⟨e1, e2, _⟩ := hc i v hw
      exact ⟨by omega, by omega⟩
    · intro i v hw
      obtain ⟨e1, e2, _⟩ := ho i v hw
      exact ⟨rfl, by omega, by omega, by omega, e2⟩

/-! ### C22 -/

theorem intercalate_sep_cons_cons (sep p q : Str) (ps : List Str) :
    List.intercalate sep (p :: q :: ps) = p ++ sep ++ List.intercalate sep (q :: ps) := by
  simp [List.intercalate, List.intersperse]

theorem intercalate_sep_single (sep p : Str) : List.intercalate sep [p] = p := by
  simp [List.intercalate, List.intersperse]

theorem mem_intercalate (sep : Str) (x : Char) :
    ∀ (cs : List Str), x ∈ List.intercalate sep cs → x ∈ sep ∨ ∃ c ∈ cs, x ∈ c := by
  intro cs
  induction cs with
  | nil => intro h; exact absurd h (by simp [List.intercalate])
  | cons p ps ih =>
    intro h
    cases ps with
    | nil =>
      rw [intercalate_sep_single] at h
      exact Or.inr ⟨p, List.mem_cons_self _ _, h⟩
    | cons q qs =>
      rw [intercalate_sep_cons_cons] at h
      rcases List.mem_append.mp h with h1 | h1
      · rcases List.mem_append.mp h1 with h2 | h2
        · exact Or.inr ⟨p, List.mem_cons_self _ _, h2⟩
        · exact Or.inl h2
      · rcases ih h1 with h2 | ⟨c, hc, hx⟩
        · exact Or.inl h2
        · exact Or.inr ⟨c, List.mem_cons_of_mem _ hc, hx⟩

theorem sep_mem_intercalate (sep : Str) (x : Char) (hx : x ∈ sep) (p q : Str) (ps : List Str) :
    x ∈ List.intercalate sep (p :: q :: ps) := by
  rw [intercalate_sep_cons_cons]
  exact List.mem_append_left _ (List.mem_append_right _ hx)

/-- The first maximal run of a text that starts with a non-empty piece free of
the delimiter and goes on with the delimiter. -/
theorem maximal_runs_piece (d : Char) (piece rest : Str) (hne : piece ≠ [])
    (hnd : d ∉ piece) :
    maximal_runs [d] (piece ++ d :: rest) = piece :: maximal_runs [d] rest := by
  have hnd2 : ∀ c ∈ piece, ([d] : Str).contains c = false := by
    intro c hc
    have : c ≠ d := fun h => hnd (h ▸ hc)
    simpa using this
  rw [maximal_runs_strtok_r [d] (piece ++ d :: rest),
    strtok_r_next piece [d] d rest hne hnd2 (by simp)]

theorem maximal_runs_last (d : Char) (piece : Str) (hne : piece ≠ []) (hnd : d ∉ piece) :
    maximal_runs [d] piece = [piece] := by
  have hnd2 : ∀ c ∈ piece, ([d] : Str).contains c = false := by
    intro c hc
    have : c ≠ d := fun h => hnd (h ▸ hc)
    simpa using this
  rw [maximal_runs_strtok_r [d] piece, strtok_r_last piece [d] hne hnd2]
  rfl

theorem trimmed_ne_nil (c : Str) (h : trimmed c ≠ []) : c ≠ [] := by
  intro e
  rw [e] at h
  exact h rfl

/-- The trimmed maximal runs of commands joined by a delimiter with a space on
either side, after some leading spaces and tabs, are the trimmed commands. -/
theorem maximal_runs_spaced (d : Char) (hd : isSpTab d = false) :
    ∀ (cs : List Str), cs ≠ [] → (∀ c ∈ cs, d ∉ c ∧ trimmed c ≠ []) →
      ∀ (pad : Str), (∀ x ∈ pad, isSpTab x = true) →
        (maximal_runs [d] (pad ++ List.intercalate [' ', d, ' '] cs)).map trim_whitespace
          = cs.map trimmed := by
  intro cs
  induction cs with
  | nil => intro h; exact absurd rfl h
  | cons c cs ih =>
    intro _ hcs pad hpad
    obtain ⟨hdc, htc⟩ := hcs c (List.mem_cons_self _ _)
    have hcne : c ≠ [] := trimmed_ne_nil c htc
    have hdpad : d ∉ pad := by
      intro h
      have := hpad d h
      rw [hd] at this
      exact absurd this (by decide)
    cases cs with
    | nil =>
      rw [intercalate_sep_single,
        maximal_runs_last d (pad ++ c) (fun e => hcne (List.append_eq_nil.mp e).2)
          (fun h => (List.mem_append.mp h).elim hdpad hdc)]
      show [trim_whitespace (pad ++ c)] = [trimmed c]
      rw [trim_whitespace_eq_trimmed]
      have := trimmed_padded pad c [] hpad (fun x hx => absurd hx (List.not_mem_nil x)) htc
      rw [List.append_nil] at this
      rw [this]
    | cons q qs =>
      have hsplit : pad ++ List.intercalate [' ', d, ' '] (c :: q :: qs)
          = (pad ++ c ++ [' ']) ++ d :: ([' '] ++ List.intercalate [' ', d, ' '] (q :: qs)) := by
        rw [intercalate_sep_cons_cons]
        simp
      have hsp : ∀ x ∈ [' '], isSpTab x = true := by
        intro x hx
        rw [List.mem_singleton.mp hx]
        rfl
      have hpiece : d ∉ pad ++ c ++ [' '] := by
        intro h
        rcases List.mem_append.mp h with h1 | h1
        · exact (List.mem_append.mp h1).elim hdpad hdc
        · have := hsp d h1
          rw [hd] at this
          exact absurd this (by decide)
      rw [hsplit, maximal_runs_piece d _ _ (by simp) hpiece, List.map_cons, List.map_cons,
        ih (List.cons_ne_nil _ _) (fun x hx => hcs x (List.mem_cons_of_mem _ hx)) [' '] hsp,
        trim_whitespace_eq_trimmed, trimmed_padded pad c [' '] hpad hsp htc]

/-- In delimiter mode, up to six commands joined by the delimiter with a space
on either side come back trimmed and in order. -/
theorem parse_input_spaced (d : Char) (hd : isSpTab d = false) (cs : List Str)
    (operators : List (Option Str)) (hne : cs ≠ []) (hlen : cs.length ≤ 6)
    (hcs : ∀ c ∈ cs, d ∉ c ∧ trimmed c ≠ []) :
    (parse_input (List.intercalate [' ', d, ' '] cs) operators (some [d])).1
      = cs.map trimmed := by
  have h := maximal_runs_spaced d hd cs hne hcs [] (fun x hx => absurd hx (List.not_mem_nil x))
  rw [List.nil_append] at h
  rw [parse_input_delim_eq_runs, List.map_take, h]
  exact List.take_of_length_le (by rw [List.length_map]; exact hlen)

theorem no_bars_append (c : Str) (hc : '|' ∉ c) (rest : Str)
    (hrest : ¬ List.IsInfix ['|', '|'] rest) :
    ¬ List.IsInfix ['|', '|'] (c ++ rest) := by
  induction c with
  | nil => exact hrest
  | cons a c ih =>
    intro h
    rw [List.cons_append, List.infix_cons_iff] at h
    rcases h with h | h
    · rw [List.cons_prefix_cons] at h
      exact hc (h.1 ▸ List.mem_cons_self _ _)
    · exact ih (fun hm => hc (List.mem_cons_of_mem _ hm)) h

/-- Commands free of `|`, joined by `" | "`, never put two `|` side by side. -/
theorem no_bars_intercalate :
    ∀ (cs : List Str), (∀ c ∈ cs, '|' ∉ c) →
      ¬ List.IsInfix ['|', '|'] (List.intercalate [' ', '|', ' '] cs) := by
  intro cs
  induction cs with
  | nil =>
    intro _ h
    have := h.subset (List.mem_cons_self _ _)
    exact absurd this (by simp [List.intercalate])
  | cons c cs ih =>
    intro hcs h
    have hc := hcs c (List.mem_cons_self _ _)
    cases cs with
    | nil =>
      rw [intercalate_sep_single] at h
      exact hc (h.subset (List.mem_cons_self _ _))
    | cons q qs =>
      rw [intercalate_sep_cons_cons, List.append_assoc] at h
      refine no_bars_append c hc _ ?_ h
      · intro h2
        have ih2 := ih (fun x hx => hcs x (List.mem_cons_of_mem _ hx))
        rw [show [' ', '|', ' '] ++ List.intercalate [' ', '|', ' '] (q :: qs)
          = ' ' :: '|' :: ' ' :: List.intercalate [' ', '|', ' '] (q :: qs) from rfl,
          List.infix_cons_iff] at h2
        rcases h2 with h3 | h3
        · rw [List.cons_prefix_cons] at h3
          exact absurd h3.1 (by decide)
        · rw [List.infix_cons_iff] at h3
          rcases h3 with h4 | h4
          · rw [List.cons_prefix_cons, List.cons_prefix_cons] at h4
            exact absurd h4.2.1 (by decide)
          · rw [List.infix_cons_iff] at h4
            rcases h4 with h5 | h5
            · rw [List.cons_prefix_cons] at h5
              exact absurd h5.1 (by decide)
            · exact ih2 h5

theorem mem_of_getD_zero (l : Str) (x : Char) (hx : x ≠ Char.ofNat 0)
    (h : l.getD 0 (Char.ofNat 0) = x) : x ∈ l := by
  cases l with
  | nil => exact absurd h.symm hx
  | cons a l =>
    have : a = x := h
    rw [this]
    exact List.mem_cons_self _ _

/-- The class of a line on which none of the rows above the pipeline rows can
match. -/
theorem classify_pipes (line : Str) (hh : '#' ∉ line) (ht : '~' ∉ line) (hp : '+' ∉ line)
    (hs : ';' ∉ line) (ha : '&' ∉ line) (hb : ¬ List.IsInfix ['|', '|'] line) :
    ('|' ∈ line → '=' ∉ line → classify line = .pipeline)
    ∧ ('=' ∈ line → classify line = .reverse_pipeline) := by
  have c3 : ¬ (line.getD 0 (Char.ofNat 0) = '#' ∧ line.getD 1 (Char.ofNat 0) = ' ') :=
    fun h => hh (mem_of_getD_zero line '#' (by decide) h.1)
  have c4 : ¬ (strstr line " ~ ".toList = true) := by
    intro h
    have hin := (strstr_iff line " ~ ".toList).mp h
    exact ht (hin.subset (by decide))
  have c5 : ¬ (strchr line '+' = true) := fun h => hp ((strchr_iff line '+').mp h)
  have c6 : ¬ (strchr line ';' = true) := fun h => hs ((strchr_iff line ';').mp h)
  have c7 : ¬ ((strstr line "&&".toList || strstr line "||".toList) = true) := by
    intro h
    rcases Bool.or_eq_true_iff.mp h with h2 | h2
    · exact ha (((strstr_iff line "&&".toList).mp h2).subset (by decide))
    · exact hb ((strstr_iff line "||".toList).mp h2)
  constructor
  · intro hbar heq
    have c1 : ¬ line = "killterm".toList := fun e => by rw [e] at hbar; exact absurd hbar (by decide)
    have c2 : ¬ line = "killallterms".toList := fun e => by
      rw [e] at hbar; exact absurd hbar (by decide)
    have c8 : (strchr line '|' && !strchr line '=') = true := by
      rw [(strchr_iff line '|').mpr hbar, (strchr_false_iff line '=').mpr heq]
      rfl
    unfold classify
    rw [if_neg c1, if_neg c2, if_neg c3, if_neg c4, if_neg c5, if_neg c6, if_neg c7, if_pos c8]
  · intro heq
    have c1 : ¬ line = "killterm".toList := fun e => by rw [e] at heq; exact absurd heq (by decide)
    have c2 : ¬ line = "killallterms".toList := fun e => by
      rw [e] at heq; exact absurd heq (by decide)
    have c8 : ¬ ((strchr line '|' && !strchr line '=') = true) := by
      rw [(strchr_iff line '=').mpr heq]
      simp
    have c9 : strchr line '=' = true := (strchr_iff line '=').mpr heq
    unfold classify
    rw [if_neg c1, if_neg c2, if_neg c3, if_neg c4, if_neg c5, if_neg c6, if_neg c7, if_neg c8,
      if_pos c9]

theorem not_mem_spaced (d x : Char) (cs : List Str) (hsp : x ≠ ' ') (hd : x ≠ d)
    (hcs : ∀ c ∈ cs, x ∉ c) : x ∉ List.intercalate [' ', d, ' '] cs := by
  intro h
  rcases mem_intercalate _ x cs h with h1 | ⟨c, hc, hx⟩
  · simp only [List.mem_cons, List.mem_singleton, List.not_mem_nil, or_false] at h1
    rcases h1 with h2 | h2 | h2
    · exact hsp h2
    · exact hd h2
    · exact hsp h2
  · exact hcs c hc hx

/-- C22, the claim as stated fails for `k = 1`: the line made of the single
command `ls` has neither `=` nor `|`; it is a simple command, run by
`execute_command` and not by the Pipeline Engine. -/
theorem single_command_is_no_pipeline :
    List.intercalate " = ".toList ["ls".toList] = "ls".toList
    ∧ List.intercalate " | ".toList ["ls".toList].reverse = "ls".toList
    ∧ classify "ls".toList = .simple
    ∧ dispatch "ls".toList = .execute_command ["ls".toList] := by
  decide

/-- C22, amended to `2 <= k <= 5`.  For `k` command strings, each with a
character other than space and tab and none with any of `+ ; | = & ~ #`, the
line `"C1 = C2 = ... = Ck"` makes the dispatcher call `execute_reverse_pipe`
on the argv vectors of `C1 .. Ck`, the line `"Ck | ... | C2 | C1"` makes it
call `execute_pipe` on the same vectors in the reverse order, and the first
call runs `execute_pipe` exactly as the second does. -/
theorem reverse_line_runs_forward_pipeline (cs : List Str)
    (hk : 2 ≤ cs.length ∧ cs.length ≤ 5)
    (hnb : ∀ c ∈ cs, trimmed c ≠ [])
    (hch : ∀ c ∈ cs, ∀ x ∈ c, x ∉ ['+', ';', '|', '=', '&', '~', '#']) :
    dispatch (List.intercalate " = ".toList cs)
      = .execute_reverse_pipe (cs.map (fun c => split_command (trimmed c)))
    ∧ dispatch (List.intercalate " | ".toList cs.reverse)
      = .execute_pipe (cs.map (fun c => split_command (trimmed c))).reverse
    ∧ ∀ (t0 : FdTable) (pipe_ok fork_ok : Nat → Bool),
        execute_reverse_pipe (cs.map (fun c => split_command (trimmed c)))
            (cs.map (fun c => split_command (trimmed c))).length t0 pipe_ok fork_ok
          = execute_pipe (cs.map (fun c => split_command (trimmed c))).reverse
            (cs.map (fun c => split_command (trimmed c))).reverse.length t0 pipe_ok fork_ok := by
  have hfree : ∀ x, x ∈ ['+', ';', '|', '=', '&', '~', '#'] → ∀ c ∈ cs, x ∉ c :=
    fun x hx c hc hxc => hch c hc x hxc hx
  have hfreeR : ∀ x, x ∈ ['+', ';', '|', '=', '&', '~', '#'] → ∀ c ∈ cs.reverse, x ∉ c :=
    fun x hx c hc => hfree x hx c (List.mem_reverse.mp hc)
  have hnbR : ∀ c ∈ cs.reverse, trimmed c ≠ [] := fun c hc => hnb c (List.mem_reverse.mp hc)
  have hlenR : cs.reverse.length = cs.length := List.length_reverse cs
  refine ⟨?_, ?_, ?_⟩
  · -- the line with `=`
    have hline : (" = ".toList : Str) = [' ', '=', ' '] := rfl
    rw [hline]
    generalize hL : List.intercalate [' ', '=', ' '] cs = line
    have heq : '=' ∈ line := by
      rw [← hL]
      match cs, hk with
      | p :: q :: ps, _ => exact sep_mem_intercalate _ '=' (by decide) p q ps
    have hbar : '|' ∉ line := by
      rw [← hL]
      exact not_mem_spaced '=' '|' cs (by decide) (by decide) (hfree '|' (by decide))
    have hcls : classify line = .reverse_pipeline := by
      refine (classify_pipes line ?_ ?_ ?_ ?_ ?_ ?_).2 heq
      · rw [← hL]
        exact not_mem_spaced '=' '#' cs (by decide) (by decide) (hfree '#' (by decide))
      · rw [← hL]
        exact not_mem_spaced '=' '~' cs (by decide) (by decide) (hfree '~' (by decide))
      · rw [← hL]
        exact not_mem_spaced '=' '+' cs (by decide) (by decide) (hfree '+' (by decide))
      · rw [← hL]
        exact not_mem_spaced '=' ';' cs (by decide) (by decide) (hfree ';' (by decide))
      · rw [← hL]
        exact not_mem_spaced '=' '&' cs (by decide) (by decide) (hfree '&' (by decide))
      · exact fun h => hbar (h.subset (List.mem_cons_self _ _))
    have hparse : (parse_input line [] (some "=".toList)).1 = cs.map trimmed := by
      rw [← hL]
      exact parse_input_spaced '=' rfl cs [] (fun e => by rw [e] at hk; exact absurd hk.1 (by decide))
        (by omega) (fun c hc => ⟨hfree '=' (by decide) c hc, hnb c hc⟩)
    unfold dispatch
    rw [if_neg (length_ne_zero_of_mem line _ heq), hcls]
    show run_reverse_pipeline line = _
    unfold run_reverse_pipeline
    simp only []
    rw [hparse, List.length_map, if_pos ⟨by omega, hk.2⟩, List.map_map]
    rfl
  · -- the line with `|`
    have hline : (" | ".toList : Str) = [' ', '|', ' '] := rfl
    rw [hline]
    have hnobars := no_bars_intercalate cs.reverse (hfreeR '|' (by decide))
    generalize hL : List.intercalate [' ', '|', ' '] cs.reverse = line at hnobars
    have hbar : '|' ∈ line := by
      rw [← hL]
      match hr : cs.reverse, hlenR ▸ hk with
      | p :: q :: ps, _ => exact sep_mem_intercalate _ '|' (by decide) p q ps
    have heq : '=' ∉ line := by
      rw [← hL]
      exact not_mem_spaced '|' '=' _ (by decide) (by decide) (hfreeR '=' (by decide))
    have hcls : classify line = .pipeline := by
      refine (classify_pipes line ?_ ?_ ?_ ?_ ?_ hnobars).1 hbar heq
      · rw [← hL]
        exact not_mem_spaced '|' '#' _ (by decide) (by decide) (hfreeR '#' (by decide))
      · rw [← hL]
        exact not_mem_spaced '|' '~' _ (by decide) (by decide) (hfreeR '~' (by decide))
      · rw [← hL]
        exact not_mem_spaced '|' '+' _ (by decide) (by decide) (hfreeR '+' (by decide))
      · rw [← hL]
        exact not_mem_spaced '|' ';' _ (by decide) (by decide) (hfreeR ';' (by decide))
      · rw [← hL]
        exact not_mem_spaced '|' '&' _ (by decide) (by decide) (hfreeR '&' (by decide))
    have hparse : (parse_input line [] (some "|".toList)).1 = cs.reverse.map trimmed := by
      rw [← hL]
      exact parse_input_spaced '|' rfl cs.reverse []
        (fun e => by rw [e] at hlenR; rw [← hlenR] at hk; exact absurd hk.1 (by decide))
        (by omega) (fun c hc => ⟨hfreeR '|' (by decide) c hc, hnbR c hc⟩)
    unfold dispatch
    rw [if_neg (length_ne_zero_of_mem line _ hbar), hcls]
    show run_pipeline line = _
    unfold run_pipeline
    simp only []
    rw [hparse, List.length_map, hlenR, if_pos ⟨by omega, hk.2⟩, List.map_map, List.map_reverse]
    rfl
  · intro t0 pipe_ok fork_ok
    unfold execute_reverse_pipe
    rw [reversed_eq_reverse, List.length_reverse]

/-- C22, amended, on the lines `"wc -l = sort -r = cat f.txt"` and
`"cat f.txt | sort -r | wc -l"`. -/
theorem reverse_line_runs_forward_pipeline_witness :
    dispatch "wc -l = sort -r = cat f.txt".toList
      = .execute_reverse_pipe [["wc".toList, "-l".toList], ["sort".toList, "-r".toList],
          ["cat".toList, "f.txt".toList]]
    ∧ dispatch "cat f.txt | sort -r | wc -l".toList
      = .execute_pipe [["cat".toList, "f.txt".toList], ["sort".toList, "-r".toList],
          ["wc".toList, "-l".toList]] :=
  ⟨(reverse_line_runs_forward_pipeline c22_commands (by decide) (by decide) (by decide)).1,
   (reverse_line_runs_forward_pipeline c22_commands (by decide) (by decide) (by decide)).2.1⟩

end W25Shell
